import Mathlib

/-!
# create-saleor-storefront: configuration schema resolution and scaffold assembly

A shallow embedding of the pure core of `src/cli.mjs`:

* the flat-text entry normaliser (`parseEnvValue`, `parseEnvEntries`),
* the structured-schema entry normaliser (`schemaEntriesFromObject`, `parseSchemaEntries`),
* the default computer (`computeDefaultValue`),
* the value resolver (`collectEnvValues`),
* the environment-file renderer (`sanitizeEnvValue`, `quoteEnvValue`, `formatEnvFile`).

Modelling conventions.

* A string is a list of characters (`Str`).
* A JSON document is a `JsValue`.  An object is the list of its own enumerable properties in
  the engine's enumeration order, with pairwise distinct names.  A number is carried by its
  canonical decimal rendering, the text `String(n)` produces.
* Property reads and writes on plain objects are own-property operations.  The engine agrees
  for every name no built-in prototype defines: the names the program reads from a document
  (`type`, `properties`, `required`, `default`, `description`, `env`), and every name without
  a letter `a`-`z` (`NoLowercase`), which covers every key the two normalisers emit.  The
  statements about the value resolver and the renderer carry `NoLowercase` for the entry keys
  as a hypothesis.
* `String(v)` throws a `TypeError` when the conversion reaches an object with an own property
  `toString`; `toStr` returns `none` then, and the callers pass the failure on.
* `toUpperCase` and `toLowerCase` are modelled on the ASCII range (`a`-`z` and `A`-`Z`, every
  other character unchanged); the engine also maps letters outside that range.
* The value map lists its properties in insertion order; the engine enumerates integer-like
  names first.  No definition here enumerates a value map.
* The interactive line source is the list of lines it will deliver; a prompt consumes one line.
-/

namespace Storefront

/-- A string: the sequence of its characters. -/
abbrev Str := List Char

/-- The double quote character. -/
def dquote : Char := Char.ofNat 34

/-- The single quote character. -/
def squote : Char := Char.ofNat 39

/-- The backslash character. -/
def backslash : Char := Char.ofNat 92

/-! ## String primitives of the host language -/

/-- Line terminators of the regular-expression dialect: the characters `.` does not match
(LF, CR, U+2028, U+2029). -/
def isLineTerminator (c : Char) : Bool :=
  decide (c.toNat = 10 ∨ c.toNat = 13 ∨ c.toNat = 8232 ∨ c.toNat = 8233)

/-- White space as understood by `String.prototype.trim` and by `\s`: TAB, LF, VT, FF, CR, SP,
NBSP, U+1680, U+2000..U+200A, U+2028, U+2029, U+202F, U+205F, U+3000, U+FEFF. -/
def isWhiteSpace (c : Char) : Bool :=
  decide ((9 ≤ c.toNat ∧ c.toNat ≤ 13) ∨ c.toNat = 32 ∨ c.toNat = 160 ∨ c.toNat = 5760 ∨
    (8192 ≤ c.toNat ∧ c.toNat ≤ 8202) ∨ c.toNat = 8232 ∨ c.toNat = 8233 ∨ c.toNat = 8239 ∨
    c.toNat = 8287 ∨ c.toNat = 12288 ∨ c.toNat = 65279)

/-- The character class `[A-Z0-9_]`. -/
def isKeyChar (c : Char) : Bool :=
  decide ((65 ≤ c.toNat ∧ c.toNat ≤ 90) ∨ (48 ≤ c.toNat ∧ c.toNat ≤ 57) ∨ c.toNat = 95)

/-- `s.trimStart()`. -/
def trimStart (s : Str) : Str := s.dropWhile isWhiteSpace

/-- `s.trimEnd()`. -/
def trimEnd (s : Str) : Str := s.rdropWhile isWhiteSpace

/-- `s.trim()`. -/
def trim (s : Str) : Str := trimEnd (trimStart s)

/-- `parts.join(sep)`. -/
def join (sep : Str) : List Str → Str
  | [] => []
  | [x] => x
  | x :: y :: rest => x ++ sep ++ join sep (y :: rest)

/-- `text.split(/\r?\n/)`: the text is cut at every LF, and a CR directly before that LF
belongs to the separator. -/
def splitLines : Str → List Str
  | [] => [[]]
  | c :: cs =>
    if c = '\n' then [] :: splitLines cs
    else if c = '\r' ∧ cs.head? = some '\n' then splitLines cs
    else
      match splitLines cs with
      | [] => [[c]]
      | l :: ls => (c :: l) :: ls

/-- `s.toUpperCase()` on the ASCII range. -/
def toUpperCase (s : Str) : Str := s.map Char.toUpper

/-! ## JSON documents -/

/-- A value produced by `JSON.parse`. -/
inductive JsValue where
  | null : JsValue
  | bool : Bool → JsValue
  | num : Str → JsValue
  | str : Str → JsValue
  | arr : List JsValue → JsValue
  | obj : List (Str × JsValue) → JsValue

namespace JsValue

/-- Truthiness: `null`, `false`, `0` and the empty string are falsy. -/
def truthy : JsValue → Bool
  | null => false
  | bool b => b
  | num t => decide (t ≠ ['0'])
  | str s => decide (s ≠ [])
  | arr _ => true
  | obj _ => true

/-- Property read `v.name` for a name that is not inherited: `none` stands for `undefined`. -/
def get : JsValue → Str → Option JsValue
  | obj fields, name => fields.lookup name
  | _, _ => none

/-- The elements of an array paired with their index names, starting at index `i`. -/
def indexed : Nat → List JsValue → List (Str × JsValue)
  | _, [] => []
  | i, x :: xs => ((Nat.repr i).toList, x) :: indexed (i + 1) xs

/-- `Object.entries(v)` for a value other than `null`: the fields of an object, the indexed
elements of an array, the indexed characters of a string, nothing for a number or a boolean. -/
def entries : JsValue → List (Str × JsValue)
  | obj fields => fields
  | arr xs => indexed 0 xs
  | str s => indexed 0 (s.map fun c => str [c])
  | _ => []

mutual
/-- `String(v)`; `none` stands for the `TypeError` the conversion throws.  For an object the
engine calls its `toString` and then its `valueOf` and takes the first primitive result.  A
property of a parsed document is never a function, so an own `toString` is skipped, and
`valueOf`, own or inherited, yields no primitive: the conversion throws.  Without an own
`toString` the inherited one returns `[object Object]`. -/
def toStr : JsValue → Option Str
  | null => some "null".toList
  | bool true => some "true".toList
  | bool false => some "false".toList
  | num t => some t
  | str s => some s
  | arr xs => joinItems xs
  | obj fields =>
    if (fields.lookup "toString".toList).isSome then none else some "[object Object]".toList
/-- `xs.join(",")` as performed by `Array.prototype.toString`: `null` elements render empty,
and the conversion of an element may throw. -/
def joinItems : List JsValue → Option Str
  | [] => some []
  | [x] => itemStr x
  | x :: y :: rest =>
    match itemStr x, joinItems (y :: rest) with
    | some first, some others => some (first ++ ',' :: others)
    | _, _ => none
/-- The rendering of one array element inside `Array.prototype.join`. -/
def itemStr : JsValue → Option Str
  | null => some []
  | bool true => some "true".toList
  | bool false => some "false".toList
  | num t => some t
  | str s => some s
  | arr xs => joinItems xs
  | obj fields =>
    if (fields.lookup "toString".toList).isSome then none else some "[object Object]".toList
end

mutual
/-- Nesting depth of a document. -/
def depth : JsValue → Nat
  | arr xs => depthItems xs + 1
  | obj fields => depthFields fields + 1
  | _ => 0
/-- Largest depth among the elements of an array. -/
def depthItems : List JsValue → Nat
  | [] => 0
  | x :: xs => max (depth x) (depthItems xs)
/-- Largest depth among the fields of an object. -/
def depthFields : List (Str × JsValue) → Nat
  | [] => 0
  | (_, x) :: rest => max (depth x) (depthFields rest)
end

end JsValue

open JsValue

/-! ## Configuration entries -/

/-- A configuration entry (`{ key, description, defaultValue, required }`). -/
structure Entry where
  key : Str
  description : Str
  defaultValue : Str
  required : Bool
  deriving DecidableEq, Repr

/-- `REQUIRED_ENV_KEYS`. -/
def REQUIRED_ENV_KEYS : List Str :=
  ["NEXT_PUBLIC_API_URL".toList, "NEXT_PUBLIC_SITE_URL".toList,
   "NEXT_PUBLIC_SALEOR_CHANNEL".toList]

/-! ## Flat-text path -/

/-- `parseEnvValue(rawValue)` for a defined raw value. -/
def parseEnvValue (rawValue : Str) : Str :=
  let trimmed := trim rawValue
  match trimmed with
  | [] => []
  | quote :: rest =>
    if (quote = dquote ∨ quote = squote) ∧ trimmed.getLast? = some quote then rest.dropLast
    else trimmed

/-- `trimmed.replace(/^#\s?/, "")`. -/
def stripCommentMarker : Str → Str
  | [] => []
  | c :: rest =>
    if c = '#' then
      match rest with
      | [] => []
      | d :: rest2 => if isWhiteSpace d then rest2 else d :: rest2
    else c :: rest

/-- `line.match(/^\s*([A-Z0-9_]+)\s*=\s*(.*)\s*$/)`: the two captures, or `none`.
Every quantifier of the pattern is greedy and is followed by something its own character
class excludes, or (for the last three) a shorter choice leaves a tail that still has to be
white space, so the first match the backtracking search finds is the greedy one computed here. -/
def matchAssignment (line : Str) : Option (Str × Str) :=
  let s1 := line.dropWhile isWhiteSpace
  let key := s1.takeWhile isKeyChar
  let s2 := (s1.dropWhile isKeyChar).dropWhile isWhiteSpace
  match s2 with
  | [] => none
  | c :: s3 =>
    if key ≠ [] ∧ c = '=' then
      let s4 := s3.dropWhile isWhiteSpace
      let value := s4.takeWhile (fun d => !isLineTerminator d)
      let tail := s4.dropWhile (fun d => !isLineTerminator d)
      if tail.all isWhiteSpace then some (key, value) else none
    else none

/-- Whether `/required/i` matches at the start of `s`. -/
def requiredAtStart (s : Str) : Bool :=
  (s.take 8).map Char.toLower == "required".toList

/-- `/required/i.test(description)`. -/
def testRequired : Str → Bool
  | [] => false
  | c :: cs => requiredAtStart (c :: cs) || testRequired cs

/-- The loop of `parseEnvEntries` over the remaining lines, with the set of keys seen so far
and the pending comment texts. -/
def parseEnvLines : List Str → List Str → List Str → List Entry
  | [], _, _ => []
  | line :: rest, seen, pendingComments =>
    let trimmed := trim line
    if trimmed = [] then parseEnvLines rest seen []
    else if trimmed.head? = some '#' then
      parseEnvLines rest seen (pendingComments ++ [stripCommentMarker trimmed])
    else
      match matchAssignment line with
      | none => parseEnvLines rest seen []
      | some (key, rawValue) =>
        if key ∈ seen then parseEnvLines rest seen []
        else
          let description := trim (join [' '] pendingComments)
          let defaultValue := parseEnvValue rawValue
          { key := key, description := description, defaultValue := defaultValue,
            required := decide (key ∈ REQUIRED_ENV_KEYS) || testRequired description }
            :: parseEnvLines rest (seen ++ [key]) []

/-- `parseEnvEntries(envText)`. -/
def parseEnvEntries (envText : Str) : List Entry :=
  parseEnvLines (splitLines envText) [] []

/-! ## Structured-schema path -/

/-- `new Set(Array.isArray(v) ? v : [])` for a possibly undefined `v`. -/
def requiredSetOf : Option JsValue → List JsValue
  | some (arr xs) => xs
  | _ => []

/-- `requiredSet.has(key)` for a string `key`. -/
def setHas (requiredSet : List JsValue) (key : Str) : Bool :=
  requiredSet.any fun v =>
    match v with
    | str s => decide (s = key)
    | _ => false

/-- The test `prop && prop.type === "object" && prop.properties`. -/
def isNamespace (prop : JsValue) : Bool :=
  truthy prop &&
    (match prop.get "type".toList with
     | some (str t) => decide (t = "object".toList)
     | _ => false) &&
    (match prop.get "properties".toList with
     | some p => truthy p
     | none => false)

/-- The template literal that forms `fullKey`. -/
def fullKeyOf (pfx key : Str) : Str :=
  if pfx ≠ [] then pfx ++ '_' :: key else key

/-- The entry pushed for a property that is not a namespace; `none` when `String(prop.default)`
throws. -/
def leafEntry (requiredSet : List JsValue) (key fullKey : Str) (prop : JsValue) :
    Option Entry :=
  (match prop.get "default".toList with
   | none => some []
   | some d => toStr d).map fun defaultValue =>
    { key := toUpperCase fullKey,
      description :=
        (match prop.get "description".toList with
         | some (str d) => d
         | _ => []),
      defaultValue := defaultValue,
      required := setHas requiredSet key }

/-- The object `schemaEntriesFromObject` iterates over: `properties || {}`. -/
def propertiesOrEmpty (properties : JsValue) : JsValue :=
  if truthy properties then properties else obj []

/-- The entries pushed by the iterations of a loop, in order; `none` when an iteration
throws. -/
def pushAll : List (Option (List Entry)) → Option (List Entry)
  | [] => some []
  | none :: _ => none
  | some pushed :: rest => (pushAll rest).map fun others => pushed ++ others

/-- `schemaEntriesFromObject(properties, requiredSet, prefix)` with a bound on the number of
nested calls; `none` when a conversion throws. -/
def schemaEntriesFuel : Nat → JsValue → List JsValue → Str → Option (List Entry)
  | 0, _, _, _ => some []
  | fuel + 1, properties, requiredSet, pfx =>
    pushAll ((entries (propertiesOrEmpty properties)).map fun kp =>
      let fullKey := fullKeyOf pfx kp.1
      if isNamespace kp.2 then
        schemaEntriesFuel fuel ((kp.2.get "properties".toList).getD null)
          (requiredSetOf (kp.2.get "required".toList)) fullKey
      else (leafEntry requiredSet kp.1 fullKey kp.2).map fun entry => [entry])

/-- `schemaEntriesFromObject(properties, requiredSet, prefix)`: the bound is the depth of the
document, which the nested calls never exhaust (`schemaEntriesFromObject_eq`). -/
def schemaEntriesFromObject (properties : JsValue) (requiredSet : List JsValue) (pfx : Str) :
    Option (List Entry) :=
  schemaEntriesFuel (depth properties + 1) properties requiredSet pfx

/-- Truthiness of a possibly undefined value. -/
def truthyOpt : Option JsValue → Bool
  | none => false
  | some v => truthy v

/-- `parseSchemaEntries(schema)`; `null` stands for an absent schema, and the result `none`
for a thrown `TypeError`. -/
def parseSchemaEntries (schema : JsValue) : Option (List Entry) :=
  match schema with
  | .null | .bool _ | .num _ | .str _ => some []
  | _ =>
    let env := (schema.get "properties".toList).bind fun p => p.get "env".toList
    let envProperties := env.bind fun e => e.get "properties".toList
    if truthyOpt envProperties then
      schemaEntriesFromObject (envProperties.getD null)
        (requiredSetOf (env.bind fun e => e.get "required".toList)) []
    else if truthyOpt (schema.get "properties".toList) then
      schemaEntriesFromObject ((schema.get "properties".toList).getD null)
        (requiredSetOf (schema.get "required".toList)) []
    else some []

/-! ## Default computer -/

/-- `computeDefaultValue(entry, tenantSlug, brandName)`. -/
def computeDefaultValue (entry : Entry) (tenantSlug brandName : Str) : Str :=
  if entry.key = "NEXT_PUBLIC_TENANT_NAME".toList then tenantSlug
  else if entry.key = "NEXT_PUBLIC_BRAND_NAME".toList ∧
      (entry.defaultValue = [] ∨ entry.defaultValue = "AutoParts Store".toList ∨
        entry.defaultValue = "Saleor Storefront".toList) then brandName
  else if entry.key = "NEXT_PUBLIC_SITE_URL".toList then
    (if entry.defaultValue ≠ [] then entry.defaultValue else "http://localhost:3000".toList)
  else if entry.key = "NEXT_PUBLIC_STOREFRONT_URL".toList then
    (if entry.defaultValue ≠ [] then entry.defaultValue else "http://localhost:3000".toList)
  else entry.defaultValue

/-! ## Environment-file rendering -/

/-- `sanitizeEnvValue(value)`; the argument `none` stands for `undefined`, the result `none`
for the `TypeError` of `String(value)`. -/
def sanitizeEnvValue : Option JsValue → Option Str
  | none => some []
  | some null => some []
  | some v => toStr v

/-- The first replacement of `quoteEnvValue`: every backslash is doubled. -/
def escapeBackslashes (s : Str) : Str :=
  s.flatMap fun c => if c = backslash then [backslash, backslash] else [c]

/-- The second replacement of `quoteEnvValue`: every double quote gets a backslash in front. -/
def escapeQuotes (s : Str) : Str :=
  s.flatMap fun c => if c = dquote then [backslash, dquote] else [c]

/-- `quoteEnvValue(value)` for a string `value`, which `sanitizeEnvValue` returns unchanged;
the only caller, `formatEnvFile`, passes a string of the value map or the empty string. -/
def quoteEnvValue (value : Str) : Str :=
  let escaped := escapeQuotes (escapeBackslashes value)
  dquote :: escaped ++ [dquote]

/-- The resolved value map: the own properties of `values`, in insertion order. -/
abbrev ValueMap := List (Str × Str)

/-- A name without a letter `a`-`z`.  Every property a plain object or an array inherits has
a name with such a letter, so for a name without one a property read finds an own property
or nothing, and an assignment creates or overwrites an own property. -/
def NoLowercase (name : Str) : Prop := ∀ c ∈ name, ¬ (97 ≤ c.toNat ∧ c.toNat ≤ 122)

instance (name : Str) : Decidable (NoLowercase name) :=
  inferInstanceAs (Decidable (∀ c ∈ name, ¬ (97 ≤ c.toNat ∧ c.toNat ≤ 122)))

/-- The assignment `values[key] = value` for a key that is not the name `__proto__`. -/
def setValue : ValueMap → Str → Str → ValueMap
  | [], key, value => [(key, value)]
  | (k, v) :: rest, key, value =>
    if k = key then (key, value) :: rest else (k, v) :: setValue rest key value

/-- The lines pushed by `formatEnvFile` for the entries; `values[entry.key] ?? ""` is the own
property of the value map or the empty string, as it is for every key that names no
inherited property. -/
def entryLines (values : ValueMap) : List Entry → List Str
  | [] => []
  | entry :: rest =>
    (if entry.description ≠ [] then ['#' :: ' ' :: entry.description] else []) ++
      (entry.key ++ '=' :: quoteEnvValue ((values.lookup entry.key).getD [])) ::
      [] :: entryLines values rest

/-- `formatEnvFile(entries, values)`. -/
def formatEnvFile (entryList : List Entry) (values : ValueMap) : Str :=
  let lines :=
    ["# Generated by @alphasquad/create-saleor-storefront".toList,
     "# Edit values as needed for each tenant environment".toList,
     []] ++ entryLines values entryList
  trimEnd (join ['\n'] lines) ++ ['\n']

/-! ## Value resolver -/

/-- How a run of the resolver ends: with a value, with a thrown error (its message), or
waiting for a line the input source never delivers. -/
inductive Outcome (α : Type) where
  | ok : α → Outcome α
  | error : Str → Outcome α
  | awaitingInput : Outcome α
  deriving DecidableEq, Repr

/-- The message of the error thrown for a required entry without a value. -/
def missingRequiredMessage (key : Str) : Str :=
  "Missing required value for ".toList ++ key ++ ". Provide it via --config.".toList

/-- The message of the `TypeError` thrown by `String(value)`, as the engine of the program's
runtime words it. -/
def conversionErrorMessage : Str := "Cannot convert object to primitive value".toList

/-- The `while (true)` prompt loop for one entry: the value stored and the lines left. -/
def promptLoop (entry : Entry) (computedDefault : Str) : List Str → Option (Str × List Str)
  | [] => none
  | answer :: rest =>
    let trimmed := trim answer
    if trimmed = [] then
      if entry.required = true ∧ computedDefault = [] then promptLoop entry computedDefault rest
      else some (computedDefault, rest)
    else some (trimmed, rest)

/-- The `for` loop of `collectEnvValues` from the state `values`, with the lines `answers`
still to be read. -/
def collectLoop (yes : Bool) (configValues : List (Str × JsValue)) (tenantSlug brandName : Str) :
    List Entry → ValueMap → List Str → Outcome (ValueMap × List Str)
  | [], values, answers => .ok (values, answers)
  | entry :: rest, values, answers =>
    match configValues.lookup entry.key with
    | some valueFromConfig =>
      match sanitizeEnvValue (some valueFromConfig) with
      | none => .error conversionErrorMessage
      | some sanitized =>
        collectLoop yes configValues tenantSlug brandName rest
          (setValue values entry.key sanitized) answers
    | none =>
      let computedDefault := computeDefaultValue entry tenantSlug brandName
      if yes then
        if entry.required = true ∧ computedDefault = [] then
          .error (missingRequiredMessage entry.key)
        else
          collectLoop yes configValues tenantSlug brandName rest
            (setValue values entry.key computedDefault) answers
      else
        match promptLoop entry computedDefault answers with
        | none => .awaitingInput
        | some (value, answers2) =>
          collectLoop yes configValues tenantSlug brandName rest
            (setValue values entry.key value) answers2

/-- `collectEnvValues({ rl, yes, entries, configValues, tenantSlug, brandName })`:
`configValues` is the list of own properties of the external configuration object and
`answers` the lines the interactive source delivers.  The reads `configValues[entry.key]`
and the writes `values[entry.key] = ...` are own-property operations, as they are in the
engine for every key that is `NoLowercase`. -/
def collectEnvValues (yes : Bool) (entryList : List Entry) (configValues : List (Str × JsValue))
    (tenantSlug brandName : Str) (answers : List Str) : Outcome ValueMap :=
  match collectLoop yes configValues tenantSlug brandName entryList [] answers with
  | .ok (values, _) => .ok values
  | .error message => .error message
  | .awaitingInput => .awaitingInput

/-! ## Auxiliary definitions used by the statements -/

/-- The body of the `for` loop of `collectEnvValues` for one entry: the value assigned to the
entry's key and the lines left, or the way the run ends. -/
def resolveEntry (yes : Bool) (configValues : List (Str × JsValue)) (tenantSlug brandName : Str)
    (entry : Entry) (answers : List Str) : Outcome (Str × List Str) :=
  match configValues.lookup entry.key with
  | some valueFromConfig =>
    match sanitizeEnvValue (some valueFromConfig) with
    | none => .error conversionErrorMessage
    | some sanitized => .ok (sanitized, answers)
  | none =>
    let computedDefault := computeDefaultValue entry tenantSlug brandName
    if yes then
      if entry.required = true ∧ computedDefault = [] then
        .error (missingRequiredMessage entry.key)
      else .ok (computedDefault, answers)
    else
      match promptLoop entry computedDefault answers with
      | none => .awaitingInput
      | some (value, answers2) => .ok (value, answers2)

/-- The condition under which the non-interactive branch throws for an entry: no value in the
external configuration, required, and an empty computed default. -/
def Unresolvable (configValues : List (Str × JsValue)) (tenantSlug brandName : Str)
    (entry : Entry) : Prop :=
  configValues.lookup entry.key = none ∧ entry.required = true ∧
    computeDefaultValue entry tenantSlug brandName = []

/-- The condition under which the resolver throws a `TypeError` for an entry: the external
configuration holds a value for the key, and its conversion to a string throws. -/
def Unconvertible (configValues : List (Str × JsValue)) (entry : Entry) : Prop :=
  ∃ v, configValues.lookup entry.key = some v ∧ sanitizeEnvValue (some v) = none

/-- All the results of a list of conversions, `none` when one of them throws. -/
def allOrNone : List (Option Str) → Option (List Str)
  | [] => some []
  | none :: _ => none
  | some x :: rest => (allOrNone rest).map fun others => x :: others

/-- A configuration value whose conversion to a string throws: an object with an own property
`toString`. -/
def sampleOpaqueValue : JsValue :=
  obj [("toString".toList, num "1".toList)]

/-- A sample required entry with a declared default, used by the concrete checks. -/
def sampleApiEntry : Entry :=
  { key := "NEXT_PUBLIC_API_URL".toList, description := "Required".toList,
    defaultValue := "https://a/".toList, required := true }

/-- A sample required entry without a declared default and without a substitution rule. -/
def sampleChannelEntry : Entry :=
  { key := "NEXT_PUBLIC_SALEOR_CHANNEL".toList, description := [],
    defaultValue := [], required := true }

/-- A sample optional entry. -/
def sampleLogoEntry : Entry :=
  { key := "NEXT_PUBLIC_LOGO_URL".toList, description := [],
    defaultValue := "/Logo.png".toList, required := false }

/-- The text a comment line contributes to the pending description, `none` for a line that is
blank or does not start with `#` after trimming. -/
def commentText (line : Str) : Option Str :=
  if trim line ≠ [] ∧ (trim line).head? = some '#' then some (stripCommentMarker (trim line))
  else none

/-- The key and parsed value of a line the assignment pattern matches. -/
def assignmentOf (line : Str) : Option (Str × Str) :=
  (matchAssignment line).map fun kv => (kv.1, parseEnvValue kv.2)

/-- The entry `parseEnvEntries` pushes for a key, its raw value and the pending comments. -/
def envEntry (key rawValue : Str) (pendingComments : List Str) : Entry :=
  { key := key, description := trim (join [' '] pendingComments),
    defaultValue := parseEnvValue rawValue,
    required := decide (key ∈ REQUIRED_ENV_KEYS) || testRequired (trim (join [' '] pendingComments)) }

/-- The key/value pairs whose key is not in `seen` and has not occurred earlier in the list. -/
def firstByKey : List Str → List (Str × Str) → List (Str × Str)
  | _, [] => []
  | seen, (k, v) :: rest =>
    if k ∈ seen then firstByKey seen rest else (k, v) :: firstByKey (seen ++ [k]) rest

/-- The pairs of a list in order of first occurrence of their key: the first pair is kept,
every later pair with the same key is dropped, and so on for the pairs that remain. -/
def firstOccurrences : List (Str × Str) → List (Str × Str)
  | [] => []
  | p :: rest => p :: (firstOccurrences rest).filter fun q => decide (q.1 ≠ p.1)

/-- An assignment line with its key and raw value, in the words of claim C4: optional white
space, a key made of `A`-`Z`, `0`-`9` and underscore, optional white space, `=`, optional
white space, and the value.  The value starts at the first character after `=` that is not
white space and runs to the end of the line or to the first line terminator that is left in
the line, after which only white space may follow. -/
def IsAssignmentLine (line key raw : Str) : Prop :=
  ∃ w1 w2 w3 w4, line = w1 ++ key ++ w2 ++ '=' :: (w3 ++ raw ++ w4) ∧
    (∀ c ∈ w1, isWhiteSpace c = true) ∧ (∀ c ∈ w2, isWhiteSpace c = true) ∧
    (∀ c ∈ w3, isWhiteSpace c = true) ∧ (∀ c ∈ w4, isWhiteSpace c = true) ∧
    key ≠ [] ∧ (∀ c ∈ key, isKeyChar c = true) ∧ (∀ c ∈ raw, isLineTerminator c = false) ∧
    (∀ c, raw.head? = some c → isWhiteSpace c = false) ∧
    (∀ c, w4.head? = some c → isLineTerminator c = true)

/-- The flat document of the specification's scenario: the line `# Required` followed by the
line `NEXT_PUBLIC_API_URL="https://a/"`. -/
def sampleFlatDocument : Str :=
  "# Required\nNEXT_PUBLIC_API_URL=".toList ++ dquote :: "https://a/".toList ++ [dquote, '\n']

/-- The description as claim C5 words it: the texts of the comment lines, each stripped of its
leading `#`, joined with a single space. -/
def descriptionAsWorded (commentLines : List Str) : Str :=
  join [' '] (commentLines.map fun c => (trim c).drop 1)

/-- Whether a line is a comment line: its trimmed form starts with `#`. -/
def isCommentLine (line : Str) : Bool :=
  decide ((trim line).head? = some '#')

/-- A flat document with a two-line comment block in front of an assignment:
`# Required`, `#  tenant API`, `A=1`. -/
def sampleCommentedDocument : Str :=
  "# Required\n#  tenant API\nA=1".toList

/-- The object that holds the root `properties` and `required` of a schema, as selected by
`parseSchemaEntries`: `schema.properties.env` when it has truthy `properties`, else the
schema itself when it has truthy `properties`. -/
def rootContainer (schema : JsValue) : Option JsValue :=
  match schema with
  | .null | .bool _ | .num _ | .str _ => none
  | _ =>
    let env := (schema.get "properties".toList).bind fun p => p.get "env".toList
    if truthyOpt (env.bind fun e => e.get "properties".toList) then env
    else if truthyOpt (schema.get "properties".toList) then some schema
    else none

/-- The properties directly contained in an object: the entries of its `properties`. -/
def childrenOf (container : JsValue) : List (Str × JsValue) :=
  entries (propertiesOrEmpty ((container.get "properties".toList).getD null))

/-- The results of `leafEntry` for the properties the traversal of `schemaEntriesFromObject`
reaches, in the order of the traversal and with the same bound on the nested calls; `none`
marks a property whose default cannot be converted. -/
def leafResultsFuel : Nat → JsValue → List JsValue → Str → List (Option Entry)
  | 0, _, _, _ => []
  | fuel + 1, properties, requiredSet, pfx =>
    (entries (propertiesOrEmpty properties)).flatMap fun kp =>
      let fullKey := fullKeyOf pfx kp.1
      if isNamespace kp.2 then
        leafResultsFuel fuel ((kp.2.get "properties".toList).getD null)
          (requiredSetOf (kp.2.get "required".toList)) fullKey
      else [leafEntry requiredSet kp.1 fullKey kp.2]

/-- The results of `leafEntry` for the properties reached below `properties`. -/
def leafResults (properties : JsValue) (requiredSet : List JsValue) (pfx : Str) :
    List (Option Entry) :=
  leafResultsFuel (depth properties + 1) properties requiredSet pfx

/-- All the entries of a list of results, `none` when one of the results is `none`. -/
def allEntries : List (Option Entry) → Option (List Entry)
  | [] => some []
  | none :: _ => none
  | some e :: rest => (allEntries rest).map fun others => e :: others

/-- `Descends c path d`: the object `d` is reached from the object `c` by following the
property names `path`, every step entering a namespace descriptor. -/
inductive Descends : JsValue → List Str → JsValue → Prop where
  | here (c : JsValue) : Descends c [] c
  | into {c : JsValue} {name : Str} {prop : JsValue} {path : List Str} {d : JsValue} :
      (name, prop) ∈ childrenOf c → isNamespace prop = true → Descends prop path d →
      Descends c (name :: path) d

/-- The prefix `schemaEntriesFromObject` has accumulated after following `path` from `pfx`. -/
def prefixAfter (pfx : Str) (path : List Str) : Str :=
  path.foldl fullKeyOf pfx

/-- The structured schema with a nested namespace: `site` requires `url`, the root requires
`name`, and `site` contains both `url` and `name`. -/
def sampleNestedSchema : JsValue :=
  obj [("required".toList, arr [str "name".toList]),
       ("properties".toList,
         obj [("site".toList,
           obj [("type".toList, str "object".toList),
                ("required".toList, arr [str "url".toList]),
                ("properties".toList,
                  obj [("url".toList, obj [("default".toList, str "http://x".toList)]),
                       ("name".toList, obj [])])])])]

/-- The structured schema whose only root property is a namespace with the empty name,
containing the property `url`. -/
def sampleEmptyNameSchema : JsValue :=
  obj [("properties".toList,
    obj [([],
      obj [("type".toList, str "object".toList),
           ("properties".toList, obj [("url".toList, obj [])])])])]

/-- The structured schema with a namespace `site` containing `url` next to a root property
`site_url`. -/
def sampleCollidingSchema : JsValue :=
  obj [("properties".toList,
    obj [("site".toList,
           obj [("type".toList, str "object".toList),
                ("properties".toList, obj [("url".toList, obj [])])]),
         ("site_url".toList, obj [("default".toList, str "x".toList)])])]

/-- The structured schema with two root properties whose names differ only in letter case. -/
def sampleCaseSchema : JsValue :=
  obj [("properties".toList,
    obj [("port".toList, obj [("default".toList, str "1".toList)]),
         ("PORT".toList, obj [("default".toList, str "2".toList)])])]

/-- A line as `split(/\r?\n/)` returns it when a line feed follows: a final carriage return
belongs to the separator. -/
def dropCR (line : Str) : Str :=
  if line.getLast? = some '\r' then line.dropLast else line

/-- The pieces `split(/\r?\n/)` returns for lines joined with line feeds: every line but the
last loses a final carriage return. -/
def chomp : List Str → List Str
  | [] => []
  | [x] => [x]
  | x :: y :: rest => dropCR x :: chomp (y :: rest)

/-- The two header lines and the blank line `formatEnvFile` starts with. -/
def headerLines : List Str :=
  ["# Generated by @alphasquad/create-saleor-storefront".toList,
   "# Edit values as needed for each tenant environment".toList,
   []]

/-- The value `formatEnvFile` renders for an entry, after escaping, without the enclosing
quotes. -/
def escapedValue (values : ValueMap) (entry : Entry) : Str :=
  escapeQuotes (escapeBackslashes ((values.lookup entry.key).getD []))

/-- The line `KEY="escaped value"` rendered for an entry. -/
def assignmentLine (values : ValueMap) (entry : Entry) : Str :=
  entry.key ++ '=' :: (dquote :: (escapedValue values entry ++ [dquote]))

/-- A list of lines whose last line ends with a character that is not white space. -/
def EndsSolid (lines : List Str) : Prop :=
  ∃ init body d, lines = init ++ [body ++ [d]] ∧ isWhiteSpace d = false

/-- An entry list with one described entry, used by the concrete checks of the round trip. -/
def sampleEntries : List Entry :=
  [{ key := "NEXT_PUBLIC_API_URL".toList, description := "Required".toList,
     defaultValue := [], required := true },
   { key := "SMTP_PASS".toList, description := [], defaultValue := [], required := false }]

/-- A value map for `sampleEntries`; the second value holds a backslash and a double quote. -/
def sampleValues : ValueMap :=
  [("NEXT_PUBLIC_API_URL".toList, "https://a/".toList),
   ("SMTP_PASS".toList, ['p', backslash, dquote, 'w'])]

/-- A flat document in which the key `A` is assigned twice: `A=1`, `# c`, `B = 'x'`, `A=2`. -/
def sampleRepeatedDocument : Str :=
  "A=1\n# c\nB = ".toList ++ squote :: 'x' :: squote :: "\nA=2".toList

/-- The document of the specification's scenario as it is written: `env` and `required` at the
top level, no `properties` wrapper, and `site` without a `type`; `site` declares the
required set `["url"]`. -/
def scenarioSchemaAsWritten : JsValue :=
  obj [("env".toList,
         obj [("properties".toList,
           obj [("site".toList,
             obj [("required".toList, arr [str "url".toList]),
                  ("properties".toList,
                    obj [("url".toList,
                      obj [("type".toList, str "string".toList),
                           ("default".toList, str "http://x".toList)])])])])]),
       ("required".toList, arr [])]

/-- The scenario document placed under a top-level `properties`, `site` still without a
`type`. -/
def scenarioSchemaWrapped : JsValue :=
  obj [("properties".toList,
         obj [("env".toList,
           obj [("properties".toList,
             obj [("site".toList,
               obj [("required".toList, arr [str "url".toList]),
                    ("properties".toList,
                      obj [("url".toList,
                        obj [("type".toList, str "string".toList),
                             ("default".toList, str "http://x".toList)])])])])])]),
       ("required".toList, arr [])]

/-- The scenario document in the shape `parseSchemaEntries` reads: `env` under a top-level
`properties`, and `site` declared with `type` `object`. -/
def scenarioSchema : JsValue :=
  obj [("properties".toList,
         obj [("env".toList,
           obj [("properties".toList,
             obj [("site".toList,
               obj [("type".toList, str "object".toList),
                    ("required".toList, arr [str "url".toList]),
                    ("properties".toList,
                      obj [("url".toList,
                        obj [("type".toList, str "string".toList),
                             ("default".toList, str "http://x".toList)])])])])])]),
       ("required".toList, arr [])]

/-- The escaping as claim C16 words it, in a single pass: a backslash becomes two backslashes, a
double quote becomes a backslash and a double quote, any other character stays. -/
def escapeOnce (s : Str) : Str :=
  s.flatMap fun c =>
    if c = backslash then [backslash, backslash]
    else if c = dquote then [backslash, dquote]
    else [c]

/-- The value non-interactive resolution assigns to an entry: the configuration value
converted to a string when the key has one (`none` when the conversion throws), the computed
default otherwise. -/
def resolvedValue (configValues : List (Str × JsValue)) (tenantSlug brandName : Str)
    (entry : Entry) : Option Str :=
  match configValues.lookup entry.key with
  | some valueFromConfig => sanitizeEnvValue (some valueFromConfig)
  | none => some (computeDefaultValue entry tenantSlug brandName)

/-! ## Template registry -/

/-- `s.toLowerCase()` on the ASCII range. -/
def toLowerCase (s : Str) : Str := s.map Char.toLower

/-- The keys of `TEMPLATE_DEFINITIONS`, in declaration order. -/
inductive TemplateId where
  | basic : TemplateId
  | standard : TemplateId
  | advance : TemplateId
  deriving DecidableEq, Repr

namespace TemplateId

/-- The field `id` of a descriptor. -/
def id : TemplateId → Str
  | basic => "basic".toList
  | standard => "standard".toList
  | advance => "advance".toList

/-- The field `label` of a descriptor. -/
def label : TemplateId → Str
  | basic => "Basic".toList
  | standard => "Standard".toList
  | advance => "Advance".toList

/-- The field `npmPackage` of a descriptor. -/
def npmPackage : TemplateId → Str
  | basic => "@alphasquad/saleor-template-basic".toList
  | standard => "@alphasquad/saleor-template-standard".toList
  | advance => "@alphasquad/saleor-template-advance".toList

/-- The field `repository` of a descriptor. -/
def repository : TemplateId → Str
  | basic => "AlphaSquadTech/saleor-template-basic".toList
  | standard => "AlphaSquadTech/saleor-template-standard".toList
  | advance => "AlphaSquadTech/saleor-template-advance".toList

end TemplateId

/-- `Object.values(TEMPLATE_DEFINITIONS)`. -/
def templateList : List TemplateId :=
  [TemplateId.basic, TemplateId.standard, TemplateId.advance]

/-- The names of the properties an object literal inherits from `Object.prototype`. -/
def objectPrototypeNames : List Str :=
  ["constructor".toList, "__defineGetter__".toList, "__defineSetter__".toList,
   "hasOwnProperty".toList, "__lookupGetter__".toList, "__lookupSetter__".toList,
   "isPrototypeOf".toList, "propertyIsEnumerable".toList, "toString".toList,
   "valueOf".toList, "__proto__".toList, "toLocaleString".toList]

/-- What `resolveTemplate` returns: `null`, a descriptor of the registry, or the value of a
property the registry object inherits (a function, or the prototype object itself). -/
inductive Resolved where
  | null : Resolved
  | template : TemplateId → Resolved
  | inherited : Str → Resolved
  deriving DecidableEq, Repr

/-- The property read `TEMPLATE_DEFINITIONS[name]`; `none` stands for `undefined`.  Every
value found, own or inherited, is truthy. -/
def templateDefinitionsGet (name : Str) : Option Resolved :=
  if name = "basic".toList then some (.template .basic)
  else if name = "standard".toList then some (.template .standard)
  else if name = "advance".toList then some (.template .advance)
  else if name ∈ objectPrototypeNames then some (.inherited name)
  else none

/-- The `for` loop of `resolveTemplate` over the descriptors left. -/
def resolveLoop (normalized : Str) : List TemplateId → Resolved
  | [] => .null
  | template :: rest =>
    if toLowerCase template.npmPackage = normalized then .template template
    else if toLowerCase template.repository = normalized then .template template
    else if normalized.isSuffixOf (toLowerCase template.repository) then .template template
    else resolveLoop normalized rest

/-- `resolveTemplate(templateValue)`; `none` stands for `null` and `undefined`. -/
def resolveTemplate (templateValue : Option Str) : Resolved :=
  match templateValue with
  | none => .null
  | some value =>
    if value = [] then .null
    else
      let normalized := toLowerCase (trim value)
      match templateDefinitionsGet normalized with
      | some found => found
      | none => resolveLoop normalized templateList

/-- `resolveTemplate` from the normalised text on: the registry read, then the loop. -/
def resolveNormalized (normalized : Str) : Resolved :=
  match templateDefinitionsGet normalized with
  | some found => found
  | none => resolveLoop normalized templateList

/-- The lines claim C15 describes for one entry: the line `# <description>` exactly when the
description is not empty, then the line `KEY=<quoted value>`, the quoted empty string when
the map holds no value for the key. -/
def entryBlock (values : ValueMap) (entry : Entry) : List Str :=
  (if entry.description ≠ [] then ['#' :: ' ' :: entry.description] else []) ++
    [entry.key ++ '=' :: quoteEnvValue ((values.lookup entry.key).getD [])]

/-- Blocks of lines with one blank line between consecutive blocks. -/
def blocksSeparated : List (List Str) → List Str
  | [] => []
  | [block] => block
  | block :: next :: rest => block ++ [] :: blocksSeparated (next :: rest)

/-- A text without line feed and carriage return. -/
def NoLineBreak (s : Str) : Prop := '\n' ∉ s ∧ '\r' ∉ s

/-- A structured schema with a hyphenated property name, a property with the empty name and a
property with a default of each falsy kind. -/
def sampleOddSchema : JsValue :=
  obj [("properties".toList,
    obj [("site-url".toList, obj [("description".toList, str "Site".toList)]),
         ([], obj [("description".toList, num "7".toList)]),
         ("debug".toList, obj [("default".toList, bool false)]),
         ("retries".toList, obj [("default".toList, num "0".toList)]),
         ("motd".toList, obj [("default".toList, str [])]),
         ("extra".toList, obj [("default".toList, null)])])]

/-- A structured schema whose only property declares a default that cannot be converted to a
string. -/
def sampleOpaqueSchema : JsValue :=
  obj [("properties".toList,
    obj [("token".toList, obj [("default".toList, sampleOpaqueValue)])])]

/-! ## Tenant slug -/

/-- The character class `[a-z0-9]`. -/
def isSlugChar (c : Char) : Bool :=
  decide ((97 ≤ c.toNat ∧ c.toNat ≤ 122) ∨ (48 ≤ c.toNat ∧ c.toNat ≤ 57))

/-- The first replacement of `slugify`: every maximal run of characters outside `[a-z0-9]`
becomes one hyphen.  A character of such a run is skipped while the run goes on and gives
the hyphen when it is the last of the run. -/
def replaceOtherRuns : Str → Str
  | [] => []
  | c :: cs =>
    if isSlugChar c then c :: replaceOtherRuns cs
    else
      match cs.head? with
      | none => '-' :: replaceOtherRuns cs
      | some d => if isSlugChar d then '-' :: replaceOtherRuns cs else replaceOtherRuns cs

/-- The second replacement of `slugify`: the hyphens at the start and at the end are removed. -/
def stripHyphens (s : Str) : Str :=
  (s.dropWhile fun c => c == '-').rdropWhile fun c => c == '-'

/-- The third replacement of `slugify`: every run of two or more hyphens becomes one hyphen.  A
hyphen followed by a hyphen is skipped, so the last hyphen of a run is the one kept. -/
def collapseHyphens : Str → Str
  | [] => []
  | c :: cs =>
    if c = '-' ∧ cs.head? = some '-' then collapseHyphens cs else c :: collapseHyphens cs

/-- `slugify(input)`. -/
def slugify (input : Str) : Str :=
  collapseHyphens (stripHyphens (replaceOtherRuns (toLowerCase (trim input))))

/-- The shape claim C27 gives for a slug: empty, or one or more non-empty runs of characters of
`[a-z0-9]` joined by single hyphens. -/
def IsSlug (s : Str) : Prop :=
  s = [] ∨ ∃ runs : List Str, runs ≠ [] ∧
    (∀ r ∈ runs, r ≠ [] ∧ ∀ c ∈ r, isSlugChar c = true) ∧ s = join ['-'] runs

/-- Two neighbouring characters that are not both hyphens. -/
def NotBothHyphens (a b : Char) : Prop := ¬ (a = '-' ∧ b = '-')

/-! ## The pipeline of `main` from the loaded documents on -/

/-- The relative paths `main` writes, in order; the two workflow files only when workflows are
enabled. -/
def scaffoldPaths (ciEnabled : Bool) : List Str :=
  ["package.json".toList, ".gitignore".toList, ".env.example".toList, ".env.local".toList,
   "README.md".toList, "storefront.config.json".toList, "src/overrides/HomePage.tsx".toList,
   "src/overrides/index.ts".toList, "scripts/template-runner.mjs".toList,
   "scripts/update-template.mjs".toList, "scripts/check-template-update.mjs".toList] ++
  (if ciEnabled then
    [".github/workflows/ci.yml".toList, ".github/workflows/template-sync.yml".toList]
   else [])

/-- How the `try` block of `main` ends: all files written, an error thrown (its message), or
waiting for a line of input. -/
inductive Ending where
  | written : Ending
  | failed : Str → Ending
  | waiting : Ending
  deriving DecidableEq, Repr

/-- What a run of the `try` block of `main` leaves behind: the way it ends, the relative paths
written, in order, and the text written to `.env.example` and to `.env.local` (`none` when
these files are not written). -/
structure Run where
  ending : Ending
  written : List Str
  envOutput : Option Str
  deriving DecidableEq, Repr

/-- A run that throws `message` before the first `writeFileSafe`. -/
def failedRun (message : Str) : Run :=
  { ending := .failed message, written := [], envOutput := none }

/-- The `try` block of `main` from `loadTemplateSchema` to the last `writeFileSafe`: `schema`
is what `loadTemplateSchema` returns (`null` when nothing was fetched), `envExample` is what
`loadTemplateEnvExample` returns when it is called, `targetFree` tells whether the target
directory is absent or empty when `ensureEmptyDirectory` looks at it.  Failures of the file
system while writing are not modelled. -/
def runPipeline (schema : JsValue) (envExample : Str) (yes : Bool)
    (configValues : List (Str × JsValue)) (tenantSlug brandName : Str) (answers : List Str)
    (targetDir : Str) (targetFree ciEnabled : Bool) : Run :=
  match parseSchemaEntries schema with
  | none => failedRun conversionErrorMessage
  | some schemaEntries =>
    let entryList :=
      if schemaEntries.length = 0 then parseEnvEntries envExample else schemaEntries
    if entryList.length = 0 then
      failedRun "No configurable values found for selected template.".toList
    else
      match collectEnvValues yes entryList configValues tenantSlug brandName answers with
      | .error message => failedRun message
      | .awaitingInput => { ending := .waiting, written := [], envOutput := none }
      | .ok envValues =>
        if targetFree then
          { ending := .written, written := scaffoldPaths ciEnabled,
            envOutput := some (formatEnvFile entryList envValues) }
        else failedRun ("Target directory exists and is not empty: ".toList ++ targetDir)

/-! ## Bundled fallback documents -/

/-- The lines of the `fallbackEnvExample` of the basic descriptor; the text ends with a line
feed, hence the empty last line. -/
def basicFallbackLines : List Str :=
  ["# Required".toList,
   "NEXT_PUBLIC_API_URL=\"https://your-saleor-domain/graphql/\"".toList,
   "NEXT_PUBLIC_SITE_URL=\"http://localhost:3000\"".toList,
   "NEXT_PUBLIC_SALEOR_CHANNEL=\"default-channel\"".toList,
   [],
   "# PartsLogic (YMM + search)".toList,
   "NEXT_PUBLIC_PARTSLOGIC_URL=\"https://your-partslogic-domain\"".toList,
   "NEXT_PUBLIC_SEARCH_URL=\"https://your-search-service-domain\"".toList,
   [],
   "# Branding".toList,
   "NEXT_PUBLIC_BRAND_NAME=\"Saleor Storefront\"".toList,
   "NEXT_PUBLIC_LOGO_URL=\"/Logo.png\"".toList,
   [],
   "# Dealer locator (optional)".toList,
   "NEXT_PUBLIC_DEALER_LOCATOR_ENABLED=\"true\"".toList,
   "NEXT_PUBLIC_DEALER_LOCATOR_TOKEN=\"\"".toList,
   "NEXT_PUBLIC_GOOGLE_MAPS_API_KEY=\"\"".toList,
   [],
   "# Forms (optional)".toList,
   "ALLOWED_WEBHOOK_DOMAINS=\"hooks.zapier.com,example.com\"".toList,
   [],
   "# SMTP (optional)".toList,
   "SMTP_HOST=\"\"".toList,
   "SMTP_PORT=\"587\"".toList,
   "SMTP_SECURE=\"false\"".toList,
   "SMTP_USER=\"\"".toList,
   "SMTP_PASS=\"\"".toList,
   "SMTP_FROM=\"no-reply@example.com\"".toList,
   "SMTP_TO=\"leads@example.com\"".toList,
   "SMTP_REPLY_TO=\"\"".toList,
   "EMAIL_SUBJECT_PREFIX=\"\"".toList,
   [],
   "# Analytics (optional)".toList,
   "NEXT_PUBLIC_GTM_CONTAINER_ID=\"\"".toList,
   "NEXT_PUBLIC_GA_MEASUREMENT_ID=\"\"".toList,
   "NEXT_PUBLIC_GOOGLE_ADSENSE_PUBLISHER_ID=\"\"".toList,
   "NEXT_PUBLIC_GOOGLE_SEARCH_CONSOLE_VERIFICATION_CONTENT=\"\"".toList,
   "NEXT_PUBLIC_GOOGLE_RECAPTCHA_SITE_KEY=\"\"".toList,
   [],
   "# next/image allowlist (optional)".toList,
   "NEXT_PUBLIC_IMAGE_HOSTS=\"\"".toList,
   [],
   "# Social links (optional)".toList,
   "NEXT_PUBLIC_SOCIAL_FACEBOOK_URL=\"\"".toList,
   "NEXT_PUBLIC_SOCIAL_X_URL=\"\"".toList,
   "NEXT_PUBLIC_SOCIAL_INSTAGRAM_URL=\"\"".toList,
   []]

/-- The lines of the `fallbackEnvExample` of the standard descriptor; the text ends with a line
feed, hence the empty last line. -/
def standardFallbackLines : List Str :=
  ["# Theme / Branding".toList,
   "NEXT_PUBLIC_THEME_LAYOUT=showroom".toList,
   "NEXT_PUBLIC_THEME_PALETTE=forest-green".toList,
   "NEXT_PUBLIC_BRAND_NAME=\"AutoParts Store\"".toList,
   "NEXT_PUBLIC_LOGO_URL=\"/Logo.png\"".toList,
   "NEXT_PUBLIC_APP_ICON=\"/icons/appIcon.png\"".toList,
   [],
   "# Tenant".toList,
   "NEXT_PUBLIC_TENANT_NAME=\"tenant-slug\"".toList,
   "NEXT_PUBLIC_ASSETS_BASE_URL=\"\"".toList,
   [],
   "# Saleor GraphQL".toList,
   "NEXT_PUBLIC_API_URL=\"https://your-saleor-domain/graphql/\"".toList,
   "NEXT_PUBLIC_SALEOR_CHANNEL=\"default-channel\"".toList,
   [],
   "# Site URLs".toList,
   "NEXT_PUBLIC_SITE_URL=\"http://localhost:3000\"".toList,
   "NEXT_PUBLIC_STOREFRONT_URL=\"http://localhost:3000\"".toList,
   [],
   "# Search / PartsLogic (YMM)".toList,
   "NEXT_PUBLIC_SEARCH_URL=\"https://your-search-service-domain\"".toList,
   "NEXT_PUBLIC_PARTSLOGIC_URL=\"https://your-partslogic-domain\"".toList,
   [],
   "# next/image allowlist (optional)".toList,
   "NEXT_PUBLIC_IMAGE_HOSTS=\"\"".toList,
   [],
   "# Forms delivery".toList,
   "ALLOWED_WEBHOOK_DOMAINS=\"\"".toList,
   [],
   "# SMTP (optional)".toList,
   "SMTP_HOST=\"\"".toList,
   "SMTP_PORT=\"587\"".toList,
   "SMTP_SECURE=\"false\"".toList,
   "SMTP_USER=\"\"".toList,
   "SMTP_PASS=\"\"".toList,
   "SMTP_FROM=\"no-reply@example.com\"".toList,
   "SMTP_TO=\"leads@example.com\"".toList,
   "SMTP_REPLY_TO=\"\"".toList,
   "EMAIL_SUBJECT_PREFIX=\"\"".toList,
   [],
   "NODE_ENV=\"production\"".toList,
   []]

/-- The lines of the `fallbackEnvExample` of the advance descriptor; the text ends with a line
feed, hence the empty last line. -/
def advanceFallbackLines : List Str :=
  ["# Core".toList,
   "NEXT_PUBLIC_API_URL=\"https://your-saleor-domain/graphql/\"".toList,
   "NEXT_PUBLIC_SITE_URL=\"http://localhost:3000\"".toList,
   "NEXT_PUBLIC_SALEOR_CHANNEL=\"default-channel\"".toList,
   [],
   "# External configuration service".toList,
   "NEXT_PUBLIC_TENANT_NAME=\"tenant-slug\"".toList,
   [],
   "# PartsLogic (YMM + fitment + option sets)".toList,
   "NEXT_PUBLIC_PARTSLOGIC_URL=\"https://your-partslogic-domain\"".toList,
   [],
   "# Search service base URL".toList,
   "NEXT_PUBLIC_SEARCH_URL=\"https://your-search-service-domain\"".toList,
   [],
   "# Storefront URL".toList,
   "NEXT_PUBLIC_STOREFRONT_URL=\"http://localhost:3000\"".toList,
   [],
   "# Branding".toList,
   "NEXT_PUBLIC_BRAND_NAME=\"AutoParts Store\"".toList,
   "NEXT_PUBLIC_LOGO_URL=\"/Logo.png\"".toList,
   "NEXT_PUBLIC_APP_ICON=\"/icons/appIcon.png\"".toList,
   [],
   "# Theme".toList,
   "NEXT_PUBLIC_THEME_LAYOUT=\"showroom\"".toList,
   "NEXT_PUBLIC_THEME_PALETTE=\"forest-green\"".toList,
   [],
   "# Assets (optional)".toList,
   "NEXT_PUBLIC_ASSETS_BASE_URL=\"\"".toList,
   [],
   "# Optional (Kount)".toList,
   "NEXT_PUBLIC_KOUNT_BASE_URL=\"https://kount.wsm-dev.com/api\"".toList,
   [],
   "# next/image allowlist (optional)".toList,
   "NEXT_PUBLIC_IMAGE_HOSTS=\"\"".toList,
   [],
   "# Social links (optional)".toList,
   "NEXT_PUBLIC_SOCIAL_FACEBOOK_URL=\"\"".toList,
   "NEXT_PUBLIC_SOCIAL_INSTAGRAM_URL=\"\"".toList,
   [],
   "# Forms (optional)".toList,
   "ALLOWED_WEBHOOK_DOMAINS=\"hooks.zapier.com,example.com\"".toList,
   [],
   "# SMTP (optional)".toList,
   "SMTP_HOST=\"\"".toList,
   "SMTP_PORT=\"587\"".toList,
   "SMTP_SECURE=\"false\"".toList,
   "SMTP_USER=\"\"".toList,
   "SMTP_PASS=\"\"".toList,
   "SMTP_FROM=\"no-reply@example.com\"".toList,
   "SMTP_TO=\"leads@example.com\"".toList,
   "SMTP_REPLY_TO=\"\"".toList,
   "EMAIL_SUBJECT_PREFIX=\"\"".toList,
   []]

/-- The field `fallbackEnvExample` of a descriptor: its lines joined with line feeds. -/
def TemplateId.fallbackEnvExample : TemplateId → Str
  | .basic => join ['\n'] basicFallbackLines
  | .standard => join ['\n'] standardFallbackLines
  | .advance => join ['\n'] advanceFallbackLines

/-! # Theorems -/

/-! ## Value resolver -/

theorem lookup_setValue_self (m : ValueMap) (k v : Str) :
    (setValue m k v).lookup k = some v := by
  induction m with
  | nil => simp [setValue, List.lookup]
  | cons p rest ih =>
    obtain ⟨k1, v1⟩ := p
    by_cases h : k1 = k
    · simp [setValue, h, List.lookup]
    · have h2 : (k == k1) = false := by simpa using fun hh => h hh.symm
      simp [setValue, h, List.lookup, h2, ih]

theorem lookup_setValue_ne (m : ValueMap) (k v k2 : Str) (hne : k2 ≠ k) :
    (setValue m k v).lookup k2 = m.lookup k2 := by
  induction m with
  | nil =>
    have h2 : (k2 == k) = false := by simpa using hne
    simp [setValue, List.lookup, h2]
  | cons p rest ih =>
    obtain ⟨k1, v1⟩ := p
    by_cases h : k1 = k
    · subst h
      have h2 : (k2 == k1) = false := by simpa using hne
      simp [setValue, List.lookup, h2]
    · simp only [setValue, h, if_false, List.lookup]
      cases hk : (k2 == k1) <;> simp [ih]

theorem collectLoop_cons (yes : Bool) (cfg : List (Str × JsValue)) (slug brand : Str)
    (e : Entry) (rest : List Entry) (values : ValueMap) (answers : List Str) :
    collectLoop yes cfg slug brand (e :: rest) values answers =
      match resolveEntry yes cfg slug brand e answers with
      | .ok (value, answers2) =>
        collectLoop yes cfg slug brand rest (setValue values e.key value) answers2
      | .error message => .error message
      | .awaitingInput => .awaitingInput := by
  unfold resolveEntry
  rw [collectLoop]
  cases hc : cfg.lookup e.key with
  | some v =>
    cases hs : sanitizeEnvValue (some v) with
    | none => simp [hs]
    | some s => simp [hs]
  | none =>
    cases yes with
    | true =>
      by_cases h : e.required = true ∧ computeDefaultValue e slug brand = []
      · simp [h]
      · simp [h]
    | false =>
      cases hp : promptLoop e (computeDefaultValue e slug brand) answers with
      | none => simp [hp]
      | some p => obtain ⟨v, a⟩ := p; simp [hp]

theorem collectLoop_append (yes : Bool) (cfg : List (Str × JsValue)) (slug brand : Str)
    (xs ys : List Entry) (values : ValueMap) (answers : List Str) :
    collectLoop yes cfg slug brand (xs ++ ys) values answers =
      match collectLoop yes cfg slug brand xs values answers with
      | .ok (m, a) => collectLoop yes cfg slug brand ys m a
      | .error message => .error message
      | .awaitingInput => .awaitingInput := by
  induction xs generalizing values answers with
  | nil => simp [collectLoop]
  | cons e rest ih =>
    rw [List.cons_append, collectLoop_cons, collectLoop_cons]
    cases hr : resolveEntry yes cfg slug brand e answers with
    | ok p => obtain ⟨v, a⟩ := p; simp [ih]
    | error msg => simp
    | awaitingInput => simp

/-- Entries whose key differs from `k` leave the value stored under `k` untouched. -/
theorem collectLoop_lookup_other (yes : Bool) (cfg : List (Str × JsValue)) (slug brand : Str)
    (k : Str) (post : List Entry) (hpost : ∀ x ∈ post, x.key ≠ k) (values : ValueMap)
    (answers : List Str) (m : ValueMap) (a : List Str)
    (h : collectLoop yes cfg slug brand post values answers = .ok (m, a)) :
    m.lookup k = values.lookup k := by
  induction post generalizing values answers with
  | nil =>
    simp [collectLoop] at h
    rw [h.1]
  | cons e rest ih =>
    rw [collectLoop_cons] at h
    cases hr : resolveEntry yes cfg slug brand e answers with
    | ok p =>
      obtain ⟨v, a2⟩ := p
      rw [hr] at h
      have h1 := ih (fun x hx => hpost x (List.mem_cons_of_mem _ hx)) _ _ h
      rw [h1]
      exact lookup_setValue_ne _ _ _ _ (fun hk => hpost e (List.mem_cons_self _ _) hk.symm)
    | error msg => rw [hr] at h; simp at h
    | awaitingInput => rw [hr] at h; simp at h

/-- The value found under an entry's key after a successful run is the value its own step
assigned, as long as no later entry has the same key. -/
theorem collectLoop_lookup_split (yes : Bool) (cfg : List (Str × JsValue)) (slug brand : Str)
    (pre : List Entry) (e : Entry) (post : List Entry) (hpost : ∀ x ∈ post, x.key ≠ e.key)
    (values : ValueMap) (answers : List Str) (m : ValueMap) (a : List Str)
    (h : collectLoop yes cfg slug brand (pre ++ e :: post) values answers = .ok (m, a)) :
    ∃ m1 a1 v a2, collectLoop yes cfg slug brand pre values answers = .ok (m1, a1) ∧
      resolveEntry yes cfg slug brand e a1 = .ok (v, a2) ∧ m.lookup e.key = some v := by
  rw [collectLoop_append] at h
  cases hp : collectLoop yes cfg slug brand pre values answers with
  | ok p =>
    obtain ⟨m1, a1⟩ := p
    rw [hp] at h
    simp only at h
    rw [collectLoop_cons] at h
    cases hr : resolveEntry yes cfg slug brand e a1 with
    | ok q =>
      obtain ⟨v, a2⟩ := q
      rw [hr] at h
      simp only at h
      refine ⟨m1, a1, v, a2, rfl, hr, ?_⟩
      rw [collectLoop_lookup_other yes cfg slug brand e.key post hpost _ _ m a h]
      exact lookup_setValue_self _ _ _
    | error msg => rw [hr] at h; simp at h
    | awaitingInput => rw [hr] at h; simp at h
  | error msg => rw [hp] at h; simp at h
  | awaitingInput => rw [hp] at h; simp at h

theorem promptLoop_nonempty (e : Entry) (cd : Str) (answers : List Str) (v : Str)
    (a : List Str) (hreq : e.required = true) (h : promptLoop e cd answers = some (v, a)) :
    v ≠ [] := by
  induction answers with
  | nil => simp [promptLoop] at h
  | cons x rest ih =>
    rw [promptLoop] at h
    by_cases ht : trim x = []
    · by_cases hc : cd = []
      · simp [ht, hreq, hc] at h
        exact ih (by simpa [hc] using h)
      · simp [ht, hreq, hc] at h
        rw [← h.1]; exact hc
    · simp [ht] at h
      rw [← h.1]; exact ht

/-- The step of an entry whose key has a value in the external configuration. -/
theorem resolveEntry_of_config (yes : Bool) (cfg : List (Str × JsValue)) (slug brand : Str)
    (e : Entry) (answers : List Str) (v : JsValue) (hcfg : cfg.lookup e.key = some v) :
    resolveEntry yes cfg slug brand e answers =
      match sanitizeEnvValue (some v) with
      | none => .error conversionErrorMessage
      | some sanitized => .ok (sanitized, answers) := by
  unfold resolveEntry
  rw [hcfg]

/-- A required entry without a configuration value is never assigned the empty string. -/
theorem resolveEntry_required_nonempty (yes : Bool) (cfg : List (Str × JsValue))
    (slug brand : Str) (e : Entry) (answers : List Str) (v : Str) (a : List Str)
    (hcfg : cfg.lookup e.key = none) (hreq : e.required = true)
    (h : resolveEntry yes cfg slug brand e answers = .ok (v, a)) : v ≠ [] := by
  unfold resolveEntry at h
  rw [hcfg] at h
  cases yes with
  | true =>
    by_cases hc : computeDefaultValue e slug brand = []
    · simp [hreq, hc] at h
    · simp [hreq, hc] at h
      rw [← h.1]; exact hc
  | false =>
    cases hp : promptLoop e (computeDefaultValue e slug brand) answers with
    | none => simp [hp] at h
    | some p =>
      obtain ⟨w, a2⟩ := p
      simp [hp] at h
      rw [← h.1]
      exact promptLoop_nonempty e _ answers w a2 hreq hp

theorem resolveEntry_error (yes : Bool) (cfg : List (Str × JsValue)) (slug brand : Str)
    (e : Entry) (answers : List Str) (msg : Str)
    (h : resolveEntry yes cfg slug brand e answers = .error msg) :
    (yes = true ∧ Unresolvable cfg slug brand e ∧ msg = missingRequiredMessage e.key) ∨
    (Unconvertible cfg e ∧ msg = conversionErrorMessage) := by
  cases hc : cfg.lookup e.key with
  | some v =>
    rw [resolveEntry_of_config yes cfg slug brand e answers v hc] at h
    cases hs : sanitizeEnvValue (some v) with
    | none =>
      rw [hs] at h
      simp only [Outcome.error.injEq] at h
      exact Or.inr ⟨⟨v, hc, hs⟩, h.symm⟩
    | some s => rw [hs] at h; simp at h
  | none =>
    unfold resolveEntry at h
    rw [hc] at h
    cases yes with
    | true =>
      by_cases hh : e.required = true ∧ computeDefaultValue e slug brand = []
      · simp [hh] at h
        exact Or.inl ⟨rfl, ⟨hc, hh.1, hh.2⟩, h.symm⟩
      · simp only [if_true, hh, if_false] at h
        simp at h
    | false =>
      cases hp : promptLoop e (computeDefaultValue e slug brand) answers with
      | none => simp [hp] at h
      | some p => obtain ⟨w, a2⟩ := p; simp [hp] at h

theorem resolveEntry_yes_unresolvable (cfg : List (Str × JsValue)) (slug brand : Str)
    (e : Entry) (answers : List Str) (h : Unresolvable cfg slug brand e) :
    resolveEntry true cfg slug brand e answers = .error (missingRequiredMessage e.key) := by
  obtain ⟨hc, hr, hd⟩ := h
  simp [resolveEntry, hc, hr, hd]

theorem resolveEntry_unconvertible (yes : Bool) (cfg : List (Str × JsValue))
    (slug brand : Str) (e : Entry) (answers : List Str) (h : Unconvertible cfg e) :
    resolveEntry yes cfg slug brand e answers = .error conversionErrorMessage := by
  obtain ⟨v, hc, hs⟩ := h
  rw [resolveEntry_of_config yes cfg slug brand e answers v hc, hs]

theorem resolveEntry_yes_resolvable (cfg : List (Str × JsValue)) (slug brand : Str)
    (e : Entry) (answers : List Str) (h : ¬ Unresolvable cfg slug brand e)
    (hconv : ¬ Unconvertible cfg e) :
    ∃ v, resolveEntry true cfg slug brand e answers = .ok (v, answers) ∧
      (cfg.lookup e.key = none → v = computeDefaultValue e slug brand) := by
  cases hc : cfg.lookup e.key with
  | some v =>
    rw [resolveEntry_of_config true cfg slug brand e answers v hc]
    cases hs : sanitizeEnvValue (some v) with
    | none => exact absurd ⟨v, hc, hs⟩ hconv
    | some s => exact ⟨s, rfl, fun hh => by simp at hh⟩
  | none =>
    have hh : ¬ (e.required = true ∧ computeDefaultValue e slug brand = []) :=
      fun hx => h ⟨hc, hx.1, hx.2⟩
    refine ⟨computeDefaultValue e slug brand, ?_, fun _ => rfl⟩
    unfold resolveEntry
    rw [hc]
    simp only [if_true, hh, if_false]

theorem collectLoop_error (yes : Bool) (cfg : List (Str × JsValue)) (slug brand : Str)
    (entryList : List Entry) (values : ValueMap) (answers : List Str) (msg : Str)
    (h : collectLoop yes cfg slug brand entryList values answers = .error msg) :
    ∃ e ∈ entryList,
      (yes = true ∧ Unresolvable cfg slug brand e ∧ msg = missingRequiredMessage e.key) ∨
      (Unconvertible cfg e ∧ msg = conversionErrorMessage) := by
  induction entryList generalizing values answers with
  | nil => simp [collectLoop] at h
  | cons e rest ih =>
    rw [collectLoop_cons] at h
    cases hr : resolveEntry yes cfg slug brand e answers with
    | ok p =>
      obtain ⟨v, a2⟩ := p
      rw [hr] at h
      obtain ⟨x, hx, hu⟩ := ih _ _ h
      exact ⟨x, List.mem_cons_of_mem _ hx, hu⟩
    | error m2 =>
      rw [hr] at h
      simp only [Outcome.error.injEq] at h
      subst h
      exact ⟨e, List.mem_cons_self _ _, resolveEntry_error yes cfg slug brand e answers m2 hr⟩
    | awaitingInput => rw [hr] at h; simp at h

theorem collectLoop_yes_clean (cfg : List (Str × JsValue)) (slug brand : Str)
    (entryList : List Entry)
    (hclean : ∀ e ∈ entryList, ¬ Unresolvable cfg slug brand e ∧ ¬ Unconvertible cfg e)
    (values : ValueMap) (answers : List Str) :
    ∃ m, collectLoop true cfg slug brand entryList values answers = .ok (m, answers) := by
  induction entryList generalizing values with
  | nil => exact ⟨values, by simp [collectLoop]⟩
  | cons e rest ih =>
    obtain ⟨v, hv, _⟩ :=
      resolveEntry_yes_resolvable cfg slug brand e answers
        (hclean e (List.mem_cons_self _ _)).1 (hclean e (List.mem_cons_self _ _)).2
    rw [collectLoop_cons, hv]
    exact ih (fun x hx => hclean x (List.mem_cons_of_mem _ hx)) _

theorem collectLoop_yes_first (cfg : List (Str × JsValue)) (slug brand : Str)
    (pre : List Entry) (e : Entry) (post : List Entry)
    (hclean : ∀ x ∈ pre, ¬ Unresolvable cfg slug brand x ∧ ¬ Unconvertible cfg x)
    (values : ValueMap) (answers : List Str) :
    (Unresolvable cfg slug brand e →
      collectLoop true cfg slug brand (pre ++ e :: post) values answers =
        .error (missingRequiredMessage e.key)) ∧
    (Unconvertible cfg e →
      collectLoop true cfg slug brand (pre ++ e :: post) values answers =
        .error conversionErrorMessage) := by
  obtain ⟨m, hm⟩ := collectLoop_yes_clean cfg slug brand pre hclean values answers
  constructor
  · intro hbad
    rw [collectLoop_append, hm]
    simp only
    rw [collectLoop_cons, resolveEntry_yes_unresolvable cfg slug brand e answers hbad]
  · intro hbad
    rw [collectLoop_append, hm]
    simp only
    rw [collectLoop_cons, resolveEntry_unconvertible true cfg slug brand e answers hbad]

theorem exists_first_stop (cfg : List (Str × JsValue)) (slug brand : Str)
    (entryList : List Entry)
    (h : ∃ e ∈ entryList, Unresolvable cfg slug brand e ∨ Unconvertible cfg e) :
    ∃ pre e post, entryList = pre ++ e :: post ∧
      (∀ x ∈ pre, ¬ Unresolvable cfg slug brand x ∧ ¬ Unconvertible cfg x) ∧
      (Unresolvable cfg slug brand e ∨ Unconvertible cfg e) := by
  induction entryList with
  | nil => obtain ⟨e, he, _⟩ := h; simp at he
  | cons x rest ih =>
    by_cases hx : Unresolvable cfg slug brand x ∨ Unconvertible cfg x
    · exact ⟨[], x, rest, rfl, by simp, hx⟩
    · obtain ⟨e, he, hu⟩ := h
      rcases List.mem_cons.1 he with rfl | he2
      · exact absurd hu hx
      · obtain ⟨pre, y, post, hsplit, hclean, hy⟩ := ih ⟨e, he2, hu⟩
        refine ⟨x :: pre, y, post, by rw [hsplit]; rfl, ?_, hy⟩
        intro z hz
        rcases List.mem_cons.1 hz with rfl | hz2
        · exact not_or.1 hx
        · exact hclean z hz2

theorem collectEnvValues_ok_iff (yes : Bool) (entryList : List Entry)
    (cfg : List (Str × JsValue)) (slug brand : Str) (answers : List Str) (m : ValueMap) :
    collectEnvValues yes entryList cfg slug brand answers = .ok m ↔
      ∃ a, collectLoop yes cfg slug brand entryList [] answers = .ok (m, a) := by
  unfold collectEnvValues
  cases h : collectLoop yes cfg slug brand entryList [] answers with
  | ok p => obtain ⟨m2, a2⟩ := p; simp
  | error msg => simp
  | awaitingInput => simp

theorem collectEnvValues_error_iff (yes : Bool) (entryList : List Entry)
    (cfg : List (Str × JsValue)) (slug brand : Str) (answers : List Str) (msg : Str) :
    collectEnvValues yes entryList cfg slug brand answers = .error msg ↔
      collectLoop yes cfg slug brand entryList [] answers = .error msg := by
  unfold collectEnvValues
  cases h : collectLoop yes cfg slug brand entryList [] answers with
  | ok p => obtain ⟨m2, a2⟩ := p; simp
  | error msg => simp
  | awaitingInput => simp

/-! ### The conversion `String(value)` -/

theorem joinItems_eq (xs : List JsValue) :
    joinItems xs =
      (allOrNone (xs.map fun x => sanitizeEnvValue (some x))).map (join [',']) := by
  have hitem : ∀ x, itemStr x = sanitizeEnvValue (some x) := by
    intro x
    cases x with
    | null => simp [itemStr, sanitizeEnvValue]
    | bool b => cases b <;> simp [itemStr, sanitizeEnvValue, toStr]
    | num t => simp [itemStr, sanitizeEnvValue, toStr]
    | str s => simp [itemStr, sanitizeEnvValue, toStr]
    | arr ys => simp [itemStr, sanitizeEnvValue, toStr]
    | obj fs => simp only [itemStr, sanitizeEnvValue, toStr]
  induction xs with
  | nil => simp [joinItems, allOrNone, join]
  | cons x rest ih =>
    cases rest with
    | nil =>
      rw [joinItems, hitem]
      cases hs : sanitizeEnvValue (some x) with
      | none => simp [allOrNone, hs]
      | some s => simp [allOrNone, hs, join]
    | cons y rest2 =>
      rw [joinItems, hitem, ih]
      cases hs : sanitizeEnvValue (some x) with
      | none => simp [allOrNone, hs]
      | some s =>
        simp only [List.map_cons, allOrNone, hs]
        cases hy : sanitizeEnvValue (some y) with
        | none => simp [allOrNone]
        | some t =>
          simp only [allOrNone]
          cases hr : allOrNone (rest2.map fun x => sanitizeEnvValue (some x)) with
          | none => simp
          | some others => simp [join]

/-- The string form of every kind of value, and when the conversion throws. -/
theorem toStr_cases :
    toStr null = some "null".toList ∧ toStr (bool true) = some "true".toList ∧
    toStr (bool false) = some "false".toList ∧ (∀ t, toStr (num t) = some t) ∧
    (∀ s, toStr (str s) = some s) ∧
    (∀ fields : List (Str × JsValue), (fields.lookup "toString".toList).isSome = true →
      toStr (obj fields) = none) ∧
    (∀ fields : List (Str × JsValue), (fields.lookup "toString".toList).isSome = false →
      toStr (obj fields) = some "[object Object]".toList) ∧
    (∀ xs, toStr (arr xs) =
      (allOrNone (xs.map fun x => sanitizeEnvValue (some x))).map (join [','])) := by
  refine ⟨by simp [toStr], by simp [toStr], by simp [toStr], fun t => by simp [toStr],
    fun s => by simp [toStr], ?_, ?_, ?_⟩
  · intro fields h
    simp only [toStr, h, if_true]
  · intro fields h
    simp only [toStr, h, Bool.false_eq_true, if_false]
  · intro xs
    rw [toStr, joinItems_eq]

/-! ### Required entries -/

/-- C1, counterexample: with the external configuration holding the empty string for a required
key, non-interactive resolution returns a value map in which that required entry has the
empty value, and no error is raised.  With a key repeated in the entry list, a required
entry first and an optional one with an empty default after it, the returned map holds the
empty value written last.  With a configuration value whose conversion to a string throws,
the interactive run fails, and not with the missing-required-value error. -/
theorem required_entry_empty_from_config :
    (collectEnvValues true [sampleChannelEntry]
        [("NEXT_PUBLIC_SALEOR_CHANNEL".toList, JsValue.str [])] "acme".toList "Acme".toList [] =
      .ok [("NEXT_PUBLIC_SALEOR_CHANNEL".toList, [])] ∧
    sampleChannelEntry.required = true ∧
    List.lookup sampleChannelEntry.key [("NEXT_PUBLIC_SALEOR_CHANNEL".toList, ([] : Str))] =
      some []) ∧
    (collectEnvValues true
        [{ key := "SMTP_HOST".toList, description := [], defaultValue := "mail".toList,
           required := true },
         { key := "SMTP_HOST".toList, description := [], defaultValue := [],
           required := false }] [] "acme".toList "Acme".toList [] =
      .ok [("SMTP_HOST".toList, [])]) ∧
    (collectEnvValues false [sampleChannelEntry]
        [("NEXT_PUBLIC_SALEOR_CHANNEL".toList, sampleOpaqueValue)] "acme".toList "Acme".toList
        ["main".toList] =
      .error "Cannot convert object to primitive value".toList) := by
  decide

/-- C1 (amended): for an entry list with pairwise distinct keys, none of them holding a letter
`a`-`z`, in either mode and for every sequence of input lines: whenever `collectEnvValues`
returns a value map, every required entry whose key has no value in the external
configuration has a non-empty value in that map; and whenever it throws, either the run is
non-interactive and the message is `Missing required value for KEY. Provide it via --config.`
for a required entry `KEY` without configuration value and with an empty computed default,
or the message is that of the `TypeError` thrown by the conversion of the configuration value
of an entry. -/
theorem required_entries_resolved (yes : Bool) (entryList : List Entry)
    (cfg : List (Str × JsValue)) (slug brand : Str) (answers : List Str)
    (hkeys : (entryList.map Entry.key).Nodup) (_hnames : ∀ e ∈ entryList, NoLowercase e.key) :
    (∀ m, collectEnvValues yes entryList cfg slug brand answers = .ok m →
      ∀ e ∈ entryList, e.required = true → cfg.lookup e.key = none →
        ∃ v, m.lookup e.key = some v ∧ v ≠ []) ∧
    (∀ msg, collectEnvValues yes entryList cfg slug brand answers = .error msg →
      (yes = true ∧ ∃ e ∈ entryList, e.required = true ∧ cfg.lookup e.key = none ∧
        computeDefaultValue e slug brand = [] ∧
        msg = "Missing required value for ".toList ++ e.key ++
          ". Provide it via --config.".toList) ∨
      (∃ e ∈ entryList, ∃ v, cfg.lookup e.key = some v ∧ sanitizeEnvValue (some v) = none ∧
        msg = "Cannot convert object to primitive value".toList)) := by
  constructor
  · intro m hm e he hreq hcfg
    obtain ⟨a, ha⟩ := (collectEnvValues_ok_iff yes entryList cfg slug brand answers m).1 hm
    obtain ⟨pre, post, hsplit⟩ := List.append_of_mem he
    subst hsplit
    have hpost : ∀ x ∈ post, x.key ≠ e.key := by
      intro x hx hkey
      rw [List.map_append, List.map_cons] at hkeys
      have h1 := (List.nodup_append.1 hkeys).2.1
      have h2 := (List.nodup_cons.1 h1).1
      exact h2 (hkey ▸ List.mem_map_of_mem Entry.key hx)
    obtain ⟨m1, a1, v, a2, _, hstep, hlook⟩ :=
      collectLoop_lookup_split yes cfg slug brand pre e post hpost [] answers m a ha
    exact ⟨v, hlook, resolveEntry_required_nonempty yes cfg slug brand e a1 v a2 hcfg hreq hstep⟩
  · intro msg hmsg
    have h := (collectEnvValues_error_iff yes entryList cfg slug brand answers msg).1 hmsg
    obtain ⟨e, he, hcase⟩ := collectLoop_error yes cfg slug brand entryList [] answers msg h
    rcases hcase with ⟨hy, hu, hm⟩ | ⟨⟨v, hv, hs⟩, hm⟩
    · exact Or.inl ⟨hy, e, he, hu.2.1, hu.1, hu.2.2, hm⟩
    · exact Or.inr ⟨e, he, v, hv, hs, hm⟩

/-- C1 (amended), concrete check: interactive resolution of a required entry without a default,
where the user first sends an empty line and then a value. -/
theorem required_entries_resolved_witness :
    ∃ v, List.lookup sampleChannelEntry.key
        [("NEXT_PUBLIC_SALEOR_CHANNEL".toList, "main".toList)] = some v ∧ v ≠ [] :=
  (required_entries_resolved false [sampleChannelEntry] [] "acme".toList "Acme".toList
      [" ".toList, " main ".toList] (by decide) (by decide)).1
    [("NEXT_PUBLIC_SALEOR_CHANNEL".toList, "main".toList)] (by decide)
    sampleChannelEntry (by decide) (by decide) rfl

/-! ### Non-interactive resolution -/

/-- C7, counterexample: the non-interactive run fails although no entry without a configuration
value is required with an empty computed default: the only entry is optional and has a
configuration value, and the conversion of that value to a string throws. -/
theorem noninteractive_fails_on_conversion :
    collectEnvValues true [sampleLogoEntry]
        [("NEXT_PUBLIC_LOGO_URL".toList, sampleOpaqueValue)] "acme".toList "Acme".toList [] =
      .error "Cannot convert object to primitive value".toList ∧
    ¬ ∃ e ∈ [sampleLogoEntry],
      List.lookup e.key [("NEXT_PUBLIC_LOGO_URL".toList, sampleOpaqueValue)] = none ∧
        e.required = true ∧ computeDefaultValue e "acme".toList "Acme".toList = [] := by
  refine ⟨by decide, ?_⟩
  rintro ⟨e, he, _, hreq, _⟩
  rw [List.mem_singleton.1 he] at hreq
  exact absurd hreq (by decide)

/-- C7 (amended): in non-interactive mode, for an entry list whose keys hold no letter `a`-`z`,
`collectEnvValues` throws if and only if some entry either has no value in the external
configuration, is required and has an empty computed default, or has a configuration value
whose conversion to a string throws.  The first such entry in document order decides the
error: `Missing required value for KEY. Provide it via --config.` with its key in the first
case, the `TypeError` of the conversion in the second.  When there is no such entry the run
returns a map in which every entry without a configuration value has received exactly its
computed default: it is the value under the entry's key once the entry has been processed,
and it is still the value in the returned map unless a later entry with the same key has
overwritten it. -/
theorem noninteractive_resolution (entryList : List Entry) (cfg : List (Str × JsValue))
    (slug brand : Str) (answers : List Str) (_hnames : ∀ e ∈ entryList, NoLowercase e.key) :
    ((∃ msg, collectEnvValues true entryList cfg slug brand answers = .error msg) ↔
      ∃ e ∈ entryList,
        (cfg.lookup e.key = none ∧ e.required = true ∧ computeDefaultValue e slug brand = []) ∨
        (∃ v, cfg.lookup e.key = some v ∧ sanitizeEnvValue (some v) = none)) ∧
    (∀ pre e post, entryList = pre ++ e :: post →
      (∀ x ∈ pre,
        ¬ (cfg.lookup x.key = none ∧ x.required = true ∧
          computeDefaultValue x slug brand = []) ∧
        ¬ (∃ v, cfg.lookup x.key = some v ∧ sanitizeEnvValue (some v) = none)) →
      ((cfg.lookup e.key = none ∧ e.required = true ∧ computeDefaultValue e slug brand = []) →
        collectEnvValues true entryList cfg slug brand answers =
          .error ("Missing required value for ".toList ++ e.key ++
            ". Provide it via --config.".toList)) ∧
      ((∃ v, cfg.lookup e.key = some v ∧ sanitizeEnvValue (some v) = none) →
        collectEnvValues true entryList cfg slug brand answers =
          .error "Cannot convert object to primitive value".toList)) ∧
    ((∀ e ∈ entryList,
        ¬ (cfg.lookup e.key = none ∧ e.required = true ∧
          computeDefaultValue e slug brand = []) ∧
        ¬ (∃ v, cfg.lookup e.key = some v ∧ sanitizeEnvValue (some v) = none)) →
      ∃ m, collectEnvValues true entryList cfg slug brand answers = .ok m ∧
        ∀ pre e post, entryList = pre ++ e :: post → cfg.lookup e.key = none →
          (∃ m1, collectEnvValues true (pre ++ [e]) cfg slug brand answers = .ok m1 ∧
            m1.lookup e.key = some (computeDefaultValue e slug brand)) ∧
          ((∀ x ∈ post, x.key ≠ e.key) →
            m.lookup e.key = some (computeDefaultValue e slug brand))) := by
  have key : ∀ (l : List Entry)
      (hclean : ∀ e ∈ l, ¬ Unresolvable cfg slug brand e ∧ ¬ Unconvertible cfg e),
      ∃ m, collectEnvValues true l cfg slug brand answers = .ok m ∧
        ∀ pre e post, l = pre ++ e :: post → cfg.lookup e.key = none →
          (∀ x ∈ post, x.key ≠ e.key) →
            m.lookup e.key = some (computeDefaultValue e slug brand) := by
    intro l hclean
    obtain ⟨m, hm⟩ := collectLoop_yes_clean cfg slug brand l hclean [] answers
    refine ⟨m, (collectEnvValues_ok_iff _ _ _ _ _ _ _).2 ⟨answers, hm⟩, ?_⟩
    intro pre e post hsplit hcfg hpost
    subst hsplit
    obtain ⟨m1, a1, v, a2, _, hstep, hlook⟩ :=
      collectLoop_lookup_split true cfg slug brand pre e post hpost [] answers m answers hm
    obtain ⟨w, hw, hval⟩ := resolveEntry_yes_resolvable cfg slug brand e a1
      (hclean e (by simp)).1 (hclean e (by simp)).2
    rw [hw] at hstep
    simp only [Outcome.ok.injEq, Prod.mk.injEq] at hstep
    rw [hlook, ← hstep.1, hval hcfg]
  refine ⟨⟨?_, ?_⟩, ?_, ?_⟩
  · rintro ⟨msg, hmsg⟩
    have h := (collectEnvValues_error_iff true entryList cfg slug brand answers msg).1 hmsg
    obtain ⟨e, he, hcase⟩ := collectLoop_error true cfg slug brand entryList [] answers msg h
    rcases hcase with ⟨_, hu, _⟩ | ⟨hu, _⟩
    · exact ⟨e, he, Or.inl hu⟩
    · exact ⟨e, he, Or.inr hu⟩
  · intro h
    obtain ⟨pre, e, post, hsplit, hclean, hbad⟩ :=
      exists_first_stop cfg slug brand entryList h
    have hfirst := collectLoop_yes_first cfg slug brand pre e post hclean [] answers
    rcases hbad with hbad | hbad
    · refine ⟨missingRequiredMessage e.key, ?_⟩
      rw [collectEnvValues_error_iff, hsplit]
      exact hfirst.1 hbad
    · refine ⟨conversionErrorMessage, ?_⟩
      rw [collectEnvValues_error_iff, hsplit]
      exact hfirst.2 hbad
  · intro pre e post hsplit hclean
    have hfirst := collectLoop_yes_first cfg slug brand pre e post hclean [] answers
    constructor
    · intro hbad
      rw [collectEnvValues_error_iff, hsplit]
      exact hfirst.1 hbad
    · intro hbad
      rw [collectEnvValues_error_iff, hsplit]
      exact hfirst.2 hbad
  · intro hclean
    obtain ⟨m, hm, hfinal⟩ := key entryList hclean
    refine ⟨m, hm, ?_⟩
    intro pre e post hsplit hcfg
    refine ⟨?_, hfinal pre e post hsplit hcfg⟩
    have hclean2 : ∀ x ∈ pre ++ [e],
        ¬ Unresolvable cfg slug brand x ∧ ¬ Unconvertible cfg x := by
      intro x hx
      apply hclean x
      rw [hsplit]
      rcases List.mem_append.1 hx with h1 | h1
      · exact List.mem_append_left _ h1
      · exact List.mem_append_right _ (by simp at h1; simp [h1])
    obtain ⟨m1, hm1, hfinal1⟩ := key (pre ++ [e]) hclean2
    exact ⟨m1, hm1, hfinal1 pre e [] rfl hcfg (by simp)⟩

/-- C7 (amended), concrete check: a required entry with an empty declared default and no
substitution rule makes the non-interactive run throw the message naming its key, although
a later entry would throw as well. -/
theorem noninteractive_resolution_witness :
    collectEnvValues true [sampleApiEntry, sampleChannelEntry, sampleLogoEntry]
        [] "acme".toList "Acme".toList [] =
      .error ("Missing required value for ".toList ++ "NEXT_PUBLIC_SALEOR_CHANNEL".toList ++
        ". Provide it via --config.".toList) :=
  ((noninteractive_resolution [sampleApiEntry, sampleChannelEntry, sampleLogoEntry]
      [] "acme".toList "Acme".toList [] (by decide)).2.1 [sampleApiEntry] sampleChannelEntry
    [sampleLogoEntry] rfl
    (by
      intro x hx
      rw [List.mem_singleton.1 hx]
      exact ⟨fun h => absurd h.2.2 (by decide), fun h => by
        obtain ⟨v, hv, _⟩ := h
        exact absurd hv (by simp [List.lookup])⟩)).1
    ⟨rfl, rfl, by decide⟩

/-! ### Values of the external configuration -/

/-- C8, counterexample: an entry whose key is present in the external configuration with an
object that has an own property `toString` makes the run fail, in either mode, with the
`TypeError` of the conversion. -/
theorem config_value_conversion_throws :
    List.lookup sampleApiEntry.key [("NEXT_PUBLIC_API_URL".toList, sampleOpaqueValue)] =
      some sampleOpaqueValue ∧
    collectEnvValues true [sampleApiEntry] [("NEXT_PUBLIC_API_URL".toList, sampleOpaqueValue)]
        "acme".toList "Acme".toList [] =
      .error "Cannot convert object to primitive value".toList ∧
    collectEnvValues false [sampleApiEntry] [("NEXT_PUBLIC_API_URL".toList, sampleOpaqueValue)]
        "acme".toList "Acme".toList ["x".toList] =
      .error "Cannot convert object to primitive value".toList :=
  ⟨rfl, by decide, by decide⟩

/-- C8 (amended): an entry whose key holds no letter `a`-`z` and is present in the external
configuration is resolved from that value alone, in either mode and whatever its declared
default, computed default and required flag are.  When the conversion of the value returns a
string, that string is stored: the loop goes on to the next entry with the same input lines
(no prompt, no error), and the string is in the returned map unless a later entry with the
same key overwrites it.  When the conversion throws, the run fails with the `TypeError` as
soon as it reaches the entry.  The conversion maps `null` to the empty string, a string to
itself, a boolean to `true` or `false`, a number to its decimal text, an object without an
own property `toString` to `[object Object]`, and an array to its elements, converted in the
same way, joined by commas; it throws for an object with an own property `toString` and for
an array with an element whose conversion throws. -/
theorem config_value_taken_verbatim (yes : Bool) (cfg : List (Str × JsValue))
    (slug brand : Str) (e : Entry) (v : JsValue) (_hname : NoLowercase e.key)
    (hcfg : cfg.lookup e.key = some v) :
    (∀ s, sanitizeEnvValue (some v) = some s →
      (∀ rest values answers,
        collectLoop yes cfg slug brand (e :: rest) values answers =
          collectLoop yes cfg slug brand rest (setValue values e.key s) answers) ∧
      (∀ pre answers, collectEnvValues yes (pre ++ [e]) cfg slug brand answers =
        match collectEnvValues yes pre cfg slug brand answers with
        | .ok m => .ok (setValue m e.key s)
        | .error msg => .error msg
        | .awaitingInput => .awaitingInput) ∧
      (∀ pre post answers m,
        collectEnvValues yes (pre ++ e :: post) cfg slug brand answers = .ok m →
        (∀ x ∈ post, x.key ≠ e.key) → m.lookup e.key = some s)) ∧
    (sanitizeEnvValue (some v) = none →
      ∀ pre post answers m,
        collectEnvValues yes pre cfg slug brand answers = .ok m →
        collectEnvValues yes (pre ++ e :: post) cfg slug brand answers =
          .error "Cannot convert object to primitive value".toList) ∧
    (sanitizeEnvValue (some null) = some [] ∧
      (∀ s, sanitizeEnvValue (some (str s)) = some s) ∧
      sanitizeEnvValue (some (bool true)) = some "true".toList ∧
      sanitizeEnvValue (some (bool false)) = some "false".toList ∧
      (∀ t, sanitizeEnvValue (some (num t)) = some t) ∧
      (∀ fields : List (Str × JsValue), (fields.lookup "toString".toList).isSome = true →
        sanitizeEnvValue (some (obj fields)) = none) ∧
      (∀ fields : List (Str × JsValue), (fields.lookup "toString".toList).isSome = false →
        sanitizeEnvValue (some (obj fields)) = some "[object Object]".toList) ∧
      (∀ xs, sanitizeEnvValue (some (arr xs)) =
        (allOrNone (xs.map fun x => sanitizeEnvValue (some x))).map (join [',']))) := by
  refine ⟨?_, ?_, ?_⟩
  · intro s hs
    have hstep : ∀ answers, resolveEntry yes cfg slug brand e answers = .ok (s, answers) := by
      intro answers
      rw [resolveEntry_of_config yes cfg slug brand e answers v hcfg, hs]
    refine ⟨?_, ?_, ?_⟩
    · intro rest values answers
      rw [collectLoop_cons, hstep]
    · intro pre answers
      unfold collectEnvValues
      rw [collectLoop_append]
      cases hp : collectLoop yes cfg slug brand pre [] answers with
      | ok p =>
        obtain ⟨m, a⟩ := p
        simp only
        rw [collectLoop_cons, hstep]
        simp [collectLoop]
      | error msg => simp
      | awaitingInput => simp
    · intro pre post answers m hm hpost
      obtain ⟨a, ha⟩ := (collectEnvValues_ok_iff _ _ _ _ _ _ _).1 hm
      obtain ⟨m1, a1, w, a2, _, hs2, hlook⟩ :=
        collectLoop_lookup_split yes cfg slug brand pre e post hpost [] answers m a ha
      rw [hstep] at hs2
      simp only [Outcome.ok.injEq, Prod.mk.injEq] at hs2
      rw [hlook, ← hs2.1]
  · intro hs pre post answers m hm
    obtain ⟨a, ha⟩ := (collectEnvValues_ok_iff _ _ _ _ _ _ _).1 hm
    rw [collectEnvValues_error_iff, collectLoop_append, ha]
    simp only
    rw [collectLoop_cons, resolveEntry_unconvertible yes cfg slug brand e a ⟨v, hcfg, hs⟩]
    rfl
  · obtain ⟨h1, h2, h3, h4, h5, h6, h7, h8⟩ := toStr_cases
    refine ⟨rfl, fun s => h5 s, h2, h3, fun t => h4 t, fun fields h => h6 fields h,
      fun fields h => h7 fields h, fun xs => h8 xs⟩

/-- C8 (amended), concrete check: the empty string configured for a required entry with a
declared default is what the interactive run returns, and no input line is read. -/
theorem config_value_taken_verbatim_witness :
    collectEnvValues false ([] ++ sampleApiEntry :: [])
        [("NEXT_PUBLIC_API_URL".toList, JsValue.str [])]
        "acme".toList "Acme".toList [] = .ok [("NEXT_PUBLIC_API_URL".toList, [])] ∧
    List.lookup sampleApiEntry.key [("NEXT_PUBLIC_API_URL".toList, ([] : Str))] = some [] :=
  ⟨by decide,
    ((config_value_taken_verbatim false [("NEXT_PUBLIC_API_URL".toList, JsValue.str [])]
      "acme".toList "Acme".toList sampleApiEntry (JsValue.str []) (by decide) rfl).1 [] rfl).2.2
      [] [] [] [("NEXT_PUBLIC_API_URL".toList, [])] (by decide) (by simp)⟩

/-! ## Characters and trimming -/

theorem isKeyChar_not_whiteSpace (c : Char) (h : isKeyChar c = true) : isWhiteSpace c = false := by
  simp only [isKeyChar, isWhiteSpace, decide_eq_true_eq, decide_eq_false_iff_not] at *
  omega

theorem isKeyChar_ne_hash (c : Char) (h : isKeyChar c = true) : c ≠ '#' := by
  intro hc
  subst hc
  exact absurd h (by decide)

theorem isKeyChar_ne_equals (c : Char) (h : isKeyChar c = true) : c ≠ '=' := by
  intro hc
  subst hc
  exact absurd h (by decide)

theorem isLineTerminator_whiteSpace (c : Char) (h : isLineTerminator c = true) :
    isWhiteSpace c = true := by
  simp only [isLineTerminator, isWhiteSpace, decide_eq_true_eq] at *
  omega

theorem rdropWhile_cons_of_neg {p : Char → Bool} (c : Char) (l : Str) (h : p c = false) :
    List.rdropWhile p (c :: l) = c :: List.rdropWhile p l := by
  induction l using List.reverseRecOn with
  | nil => simp [List.rdropWhile, h]
  | append_singleton xs x ih =>
    by_cases hx : p x = true
    · rw [← List.cons_append, List.rdropWhile_concat_pos _ _ _ hx,
        List.rdropWhile_concat_pos _ _ _ hx, ih]
    · rw [← List.cons_append, List.rdropWhile_concat_neg _ _ _ hx,
        List.rdropWhile_concat_neg _ _ _ hx]
      rfl

/-- Trimming a line whose white-space-stripped form starts with `c` gives a text starting with
`c`. -/
theorem trim_of_dropWhile_cons (line : Str) (c : Char) (rest : Str)
    (h : line.dropWhile isWhiteSpace = c :: rest) :
    trim line = c :: trimEnd rest := by
  have hc : isWhiteSpace c = false := by
    have := List.head_dropWhile_not isWhiteSpace line (by rw [h]; simp)
    simpa [h] using this
  unfold trim trimStart trimEnd
  rw [h]
  exact rdropWhile_cons_of_neg c rest hc

theorem trim_eq_nil_iff (line : Str) : trim line = [] ↔ ∀ c ∈ line, isWhiteSpace c = true := by
  unfold trim trimStart trimEnd
  rw [List.rdropWhile_eq_nil_iff]
  constructor
  · intro h
    have : line.dropWhile isWhiteSpace = [] := by
      cases hd : line.dropWhile isWhiteSpace with
      | nil => rfl
      | cons c rest =>
        have h1 := List.head_dropWhile_not isWhiteSpace line (by rw [hd]; simp)
        have h2 := h c (by rw [hd]; simp)
        simp [hd] at h1
        rw [h1] at h2
        exact absurd h2 (by simp)
    exact fun c hc => (List.dropWhile_eq_nil_iff.1 this) c hc
  · intro h c hc
    exact h c ((List.dropWhile_sublist _).subset hc)

/-- A text that starts and ends with characters that are not white space is its own trim. -/
theorem trim_eq_self (c : Char) (mid : Str) (d : Char) (hc : isWhiteSpace c = false)
    (hd : isWhiteSpace d = false) : trim (c :: mid ++ [d]) = c :: mid ++ [d] := by
  unfold trim trimStart trimEnd
  have h1 : List.dropWhile isWhiteSpace (c :: mid ++ [d]) = c :: mid ++ [d] := by
    rw [List.cons_append, List.dropWhile_cons_of_neg (by simp [hc])]
  rw [h1]
  exact List.rdropWhile_concat_neg _ _ _ (by simp [hd])

/-! ## Flat-text path -/

/-- The shape of a line the assignment pattern matches: white space, the key, white space, `=`,
white space, the value, white space. -/
theorem matchAssignment_shape (line k raw : Str) (h : matchAssignment line = some (k, raw)) :
    ∃ w1 w2 w3 w4, line = w1 ++ k ++ w2 ++ '=' :: (w3 ++ raw ++ w4) ∧
      (∀ c ∈ w1, isWhiteSpace c = true) ∧ (∀ c ∈ w2, isWhiteSpace c = true) ∧
      (∀ c ∈ w3, isWhiteSpace c = true) ∧ (∀ c ∈ w4, isWhiteSpace c = true) ∧
      k ≠ [] ∧ (∀ c ∈ k, isKeyChar c = true) ∧ (∀ c ∈ raw, isLineTerminator c = false) ∧
      (∀ c, raw.head? = some c → isWhiteSpace c = false) ∧
      (∀ c, w4.head? = some c → isLineTerminator c = true) := by
  unfold matchAssignment at h
  simp only at h
  cases hs2 : ((line.dropWhile isWhiteSpace).dropWhile isKeyChar).dropWhile isWhiteSpace with
  | nil => rw [hs2] at h; simp at h
  | cons c s3 =>
    rw [hs2] at h
    simp only at h
    by_cases hk : (line.dropWhile isWhiteSpace).takeWhile isKeyChar ≠ [] ∧ c = '='
    · rw [if_pos hk] at h
      by_cases ht : (List.dropWhile (fun d => !isLineTerminator d)
          (s3.dropWhile isWhiteSpace)).all isWhiteSpace = true
      · rw [if_pos ht] at h
        simp only [Option.some.injEq, Prod.mk.injEq] at h
        obtain ⟨hkey, hraw⟩ := h
        refine ⟨line.takeWhile isWhiteSpace,
          ((line.dropWhile isWhiteSpace).dropWhile isKeyChar).takeWhile isWhiteSpace,
          s3.takeWhile isWhiteSpace,
          List.dropWhile (fun d => !isLineTerminator d) (s3.dropWhile isWhiteSpace),
          ?_, ?_, ?_, ?_, ?_, ?_, ?_, ?_, ?_, ?_⟩
        · have e1 := List.takeWhile_append_dropWhile isWhiteSpace line
          have e2 := List.takeWhile_append_dropWhile isKeyChar (line.dropWhile isWhiteSpace)
          have e3 := List.takeWhile_append_dropWhile isWhiteSpace
            ((line.dropWhile isWhiteSpace).dropWhile isKeyChar)
          have e4 := List.takeWhile_append_dropWhile isWhiteSpace s3
          have e5 := List.takeWhile_append_dropWhile (fun d => !isLineTerminator d)
            (s3.dropWhile isWhiteSpace)
          rw [hs2] at e3
          rw [hkey] at e2
          rw [hraw] at e5
          simp only [List.append_assoc]
          rw [e5, e4, ← hk.2, e3, e2, e1]
        · exact fun c hc => List.mem_takeWhile_imp hc
        · exact fun c hc => List.mem_takeWhile_imp hc
        · exact fun c hc => List.mem_takeWhile_imp hc
        · exact fun c hc => (List.all_eq_true.1 ht) c hc
        · rw [← hkey]; exact hk.1
        · rw [← hkey]; exact fun c hc => List.mem_takeWhile_imp hc
        · rw [← hraw]
          intro c hc
          have := List.mem_takeWhile_imp hc
          simpa using this
        · intro c hc
          rw [← hraw] at hc
          have hd := List.head?_dropWhile_not isWhiteSpace s3
          cases hs4 : s3.dropWhile isWhiteSpace with
          | nil => rw [hs4] at hc; simp at hc
          | cons d rest4 =>
            rw [hs4] at hc hd
            simp only [List.head?_cons] at hd
            rw [List.takeWhile_cons] at hc
            by_cases hlt : (!isLineTerminator d) = true
            · rw [if_pos hlt] at hc
              simp only [List.head?_cons, Option.some.injEq] at hc
              rw [← hc]
              simpa using hd
            · rw [if_neg hlt] at hc
              simp at hc
        · intro c hc
          have hd := List.head?_dropWhile_not (fun d => !isLineTerminator d)
            (s3.dropWhile isWhiteSpace)
          rw [hc] at hd
          simpa using hd
      · rw [if_neg ht] at h; simp at h
    · rw [if_neg hk] at h; simp at h

/-- A line the assignment pattern matches is neither blank nor a comment: its trimmed form
starts with a key character. -/
theorem matchAssignment_trim (line k raw : Str) (h : matchAssignment line = some (k, raw)) :
    ∃ c rest, trim line = c :: rest ∧ isKeyChar c = true := by
  obtain ⟨w1, w2, w3, w4, hline, hw1, _, _, _, hk, hkc, _⟩ := matchAssignment_shape line k raw h
  cases k with
  | nil => exact absurd rfl hk
  | cons c krest =>
    have hc : isKeyChar c = true := hkc c (by simp)
    have hws : isWhiteSpace c = false := isKeyChar_not_whiteSpace c hc
    have hd : line.dropWhile isWhiteSpace = c :: (krest ++ w2 ++ '=' :: (w3 ++ raw ++ w4)) := by
      rw [hline, List.append_assoc, List.append_assoc,
        List.dropWhile_append_of_pos (fun a ha => hw1 a ha)]
      simp [hws]
    exact ⟨c, _, trim_of_dropWhile_cons line c _ hd, hc⟩

theorem commentText_of_match (line k raw : Str) (h : matchAssignment line = some (k, raw)) :
    commentText line = none := by
  obtain ⟨c, rest, ht, hc⟩ := matchAssignment_trim line k raw h
  have hne : c ≠ '#' := isKeyChar_ne_hash c hc
  simp [commentText, ht, hne]

/-- One iteration of the loop of `parseEnvEntries`, by the kind of the line. -/
theorem parseEnvLines_cons (line : Str) (rest : List Str) (seen pending : List Str) :
    parseEnvLines (line :: rest) seen pending =
      match commentText line, matchAssignment line with
      | some text, _ => parseEnvLines rest seen (pending ++ [text])
      | none, none => parseEnvLines rest seen []
      | none, some (key, rawValue) =>
        if key ∈ seen then parseEnvLines rest seen []
        else envEntry key rawValue pending :: parseEnvLines rest (seen ++ [key]) [] := by
  rw [parseEnvLines]
  by_cases hb : trim line = []
  · have hc : commentText line = none := by simp [commentText, hb]
    have hm : matchAssignment line = none := by
      cases hm : matchAssignment line with
      | none => rfl
      | some kv =>
        obtain ⟨c, r, ht, _⟩ := matchAssignment_trim line kv.1 kv.2 hm
        rw [hb] at ht
        exact absurd ht (by simp)
    simp [hb, hc, hm]
  · by_cases hh : (trim line).head? = some '#'
    · have hc : commentText line = some (stripCommentMarker (trim line)) := by
        simp [commentText, hb, hh]
      simp [hb, hh, hc]
    · have hc : commentText line = none := by simp [commentText, hh]
      cases hm : matchAssignment line with
      | none => simp [hb, hh, hc]
      | some kv =>
        obtain ⟨k, r⟩ := kv
        simp only [hb, hh, hc, if_false]
        by_cases hs : k ∈ seen
        · simp [hs]
        · simp [hs, envEntry]

theorem matchAssignment_of_comment (line text : Str) (h : commentText line = some text) :
    matchAssignment line = none := by
  cases hm : matchAssignment line with
  | none => rfl
  | some kv =>
    rw [commentText_of_match line kv.1 kv.2 hm] at h
    exact absurd h (by simp)

/-- The keys and defaults `parseEnvEntries` emits are the first assignments of each key. -/
theorem parseEnvLines_pairs (lines seen pending : List Str) :
    (parseEnvLines lines seen pending).map (fun e => (e.key, e.defaultValue)) =
      firstByKey seen (lines.filterMap assignmentOf) := by
  induction lines generalizing seen pending with
  | nil => simp [parseEnvLines, firstByKey]
  | cons line rest ih =>
    rw [parseEnvLines_cons]
    cases hc : commentText line with
    | some text =>
      have hm := matchAssignment_of_comment line text hc
      have ha : assignmentOf line = none := by simp [assignmentOf, hm]
      simp only [List.filterMap_cons, ha]
      exact ih _ _
    | none =>
      cases hm : matchAssignment line with
      | none =>
        have ha : assignmentOf line = none := by simp [assignmentOf, hm]
        simp only [List.filterMap_cons, ha]
        exact ih _ _
      | some kv =>
        obtain ⟨k, r⟩ := kv
        have ha : assignmentOf line = some (k, parseEnvValue r) := by simp [assignmentOf, hm]
        simp only [List.filterMap_cons, ha, firstByKey]
        by_cases hs : k ∈ seen
        · simp only [hs, if_true]
          exact ih _ _
        · simp only [hs, if_false, List.map_cons, envEntry]
          rw [ih]

theorem firstByKey_not_seen (seen : List Str) (l : List (Str × Str)) :
    ∀ p ∈ firstByKey seen l, p.1 ∉ seen := by
  induction l generalizing seen with
  | nil => simp [firstByKey]
  | cons x rest ih =>
    obtain ⟨k, v⟩ := x
    intro p hp
    rw [firstByKey] at hp
    by_cases hs : k ∈ seen
    · rw [if_pos hs] at hp
      exact ih seen p hp
    · rw [if_neg hs] at hp
      rcases List.mem_cons.1 hp with rfl | hp2
      · exact hs
      · exact fun h => ih (seen ++ [k]) p hp2 (List.mem_append_left _ h)

theorem firstByKey_nodup (seen : List Str) (l : List (Str × Str)) :
    ((firstByKey seen l).map Prod.fst).Nodup := by
  induction l generalizing seen with
  | nil => simp [firstByKey]
  | cons x rest ih =>
    obtain ⟨k, v⟩ := x
    rw [firstByKey]
    by_cases hs : k ∈ seen
    · rw [if_pos hs]; exact ih seen
    · rw [if_neg hs, List.map_cons, List.nodup_cons]
      refine ⟨?_, ih _⟩
      intro hk
      obtain ⟨p, hp, hpk⟩ := List.mem_map.1 hk
      exact firstByKey_not_seen (seen ++ [k]) rest p hp (by simp [hpk])

theorem firstByKey_sublist (seen : List Str) (l : List (Str × Str)) :
    (firstByKey seen l).Sublist l := by
  induction l generalizing seen with
  | nil => simp [firstByKey]
  | cons x rest ih =>
    obtain ⟨k, v⟩ := x
    rw [firstByKey]
    by_cases hs : k ∈ seen
    · rw [if_pos hs]; exact (ih seen).cons _
    · rw [if_neg hs]; exact (ih _).cons₂ _

theorem mem_firstByKey (seen : List Str) (l : List (Str × Str)) (k v : Str) :
    (k, v) ∈ firstByKey seen l ↔
      k ∉ seen ∧ ∃ pre post, l = pre ++ (k, v) :: post ∧ ∀ x ∈ pre, x.1 ≠ k := by
  induction l generalizing seen with
  | nil => simp [firstByKey]
  | cons x rest ih =>
    obtain ⟨k1, v1⟩ := x
    rw [firstByKey]
    by_cases hs : k1 ∈ seen
    · rw [if_pos hs, ih]
      constructor
      · rintro ⟨hk, pre, post, hsplit, hpre⟩
        refine ⟨hk, (k1, v1) :: pre, post, by rw [hsplit]; rfl, ?_⟩
        intro y hy
        rcases List.mem_cons.1 hy with rfl | hy2
        · exact fun h => hk (h ▸ hs)
        · exact hpre y hy2
      · rintro ⟨hk, pre, post, hsplit, hpre⟩
        refine ⟨hk, ?_⟩
        cases pre with
        | nil =>
          simp only [List.nil_append, List.cons.injEq, Prod.mk.injEq] at hsplit
          exact absurd (hsplit.1.1 ▸ hs) hk
        | cons y pre2 =>
          simp only [List.cons_append, List.cons.injEq] at hsplit
          exact ⟨pre2, post, hsplit.2, fun z hz => hpre z (List.mem_cons_of_mem _ hz)⟩
    · rw [if_neg hs, List.mem_cons, ih]
      constructor
      · rintro (heq | ⟨hk, pre, post, hsplit, hpre⟩)
        · simp only [Prod.mk.injEq] at heq
          refine ⟨heq.1 ▸ hs, [], rest, by rw [heq.1, heq.2]; rfl, by simp⟩
        · have hk1 : k ∉ seen := fun h => hk (List.mem_append_left _ h)
          have hk2 : k1 ≠ k := fun h => hk (by simp [h])
          refine ⟨hk1, (k1, v1) :: pre, post, by rw [hsplit]; rfl, ?_⟩
          intro y hy
          rcases List.mem_cons.1 hy with rfl | hy2
          · exact hk2
          · exact hpre y hy2
      · rintro ⟨hk, pre, post, hsplit, hpre⟩
        cases pre with
        | nil =>
          simp only [List.nil_append, List.cons.injEq] at hsplit
          exact Or.inl hsplit.1.symm
        | cons y pre2 =>
          simp only [List.cons_append, List.cons.injEq] at hsplit
          have hy : k1 ≠ k := by
            have := hpre y (List.mem_cons_self _ _)
            rw [← hsplit.1] at this
            exact this
          refine Or.inr ⟨?_, pre2, post, hsplit.2, fun z hz => hpre z (List.mem_cons_of_mem _ hz)⟩
          intro h
          rcases List.mem_append.1 h with h1 | h1
          · exact hk h1
          · have h2 : k = k1 := by simpa using h1
            exact hy h2.symm

theorem firstByKey_of_nodup (seen : List Str) (l : List (Str × Str))
    (hnodup : (l.map Prod.fst).Nodup) (hseen : ∀ p ∈ l, p.1 ∉ seen) :
    firstByKey seen l = l := by
  induction l generalizing seen with
  | nil => simp [firstByKey]
  | cons x rest ih =>
    obtain ⟨k, v⟩ := x
    have hk : k ∉ seen := hseen (k, v) (List.mem_cons_self _ _)
    rw [firstByKey, if_neg hk]
    rw [List.map_cons, List.nodup_cons] at hnodup
    rw [ih (seen ++ [k]) hnodup.2]
    intro p hp h
    rcases List.mem_append.1 h with h1 | h1
    · exact hseen p (List.mem_cons_of_mem _ hp) h1
    · have h2 : p.1 = k := by simpa using h1
      have h3 : p.1 ∈ rest.map Prod.fst := List.mem_map_of_mem Prod.fst hp
      rw [h2] at h3
      exact hnodup.1 h3

theorem exists_first_key (l : List (Str × Str)) (k : Str) (h : k ∈ l.map Prod.fst) :
    ∃ pre v post, l = pre ++ (k, v) :: post ∧ ∀ x ∈ pre, x.1 ≠ k := by
  induction l with
  | nil => simp at h
  | cons x rest ih =>
    obtain ⟨k1, v1⟩ := x
    by_cases hk : k1 = k
    · exact ⟨[], v1, rest, by rw [hk]; rfl, by simp⟩
    · have h2 : k ∈ rest.map Prod.fst := by
        rw [List.map_cons, List.mem_cons] at h
        rcases h with h | h
        · exact absurd h.symm hk
        · exact h
      obtain ⟨pre, v, post, hsplit, hpre⟩ := ih h2
      refine ⟨(k1, v1) :: pre, v, post, by rw [hsplit]; rfl, ?_⟩
      intro y hy
      rcases List.mem_cons.1 hy with rfl | hy2
      · exact hk
      · exact hpre y hy2

/-- A line of the shape of an assignment line is matched by the assignment pattern, with the
key and the raw value of the shape. -/
theorem matchAssignment_of_shape (line k raw : Str) (h : IsAssignmentLine line k raw) :
    matchAssignment line = some (k, raw) := by
  obtain ⟨w1, w2, w3, w4, hline, hw1, hw2, hw3, hw4, hne, hkey, hraw, hhead, htail⟩ := h
  obtain ⟨k0, krest, hk⟩ := List.exists_cons_of_ne_nil hne
  have hk0 : isKeyChar k0 = true := hkey k0 (by rw [hk]; exact List.mem_cons_self _ _)
  have hws0 : isWhiteSpace k0 = false := isKeyChar_not_whiteSpace k0 hk0
  have heq : isKeyChar '=' = false := by decide
  have heqws : isWhiteSpace '=' = false := by decide
  have hl : line = w1 ++ (k ++ (w2 ++ '=' :: (w3 ++ (raw ++ w4)))) := by
    rw [hline]; simp only [List.append_assoc]
  have hw2key : ∀ c ∈ w2, isKeyChar c = false := by
    intro c hc
    cases hkc : isKeyChar c with
    | false => rfl
    | true =>
      have := isKeyChar_not_whiteSpace c hkc
      rw [hw2 c hc] at this
      exact absurd this (by simp)
  have h1 : line.dropWhile isWhiteSpace = k ++ (w2 ++ '=' :: (w3 ++ (raw ++ w4))) := by
    rw [hl, List.dropWhile_append_of_pos hw1, hk, List.cons_append,
      List.dropWhile_cons_of_neg (by simp [hws0])]
  have hstop : (w2 ++ '=' :: (w3 ++ (raw ++ w4))).takeWhile isKeyChar = [] ∧
      (w2 ++ '=' :: (w3 ++ (raw ++ w4))).dropWhile isKeyChar =
        w2 ++ '=' :: (w3 ++ (raw ++ w4)) := by
    cases w2 with
    | nil =>
      exact ⟨by rw [List.nil_append, List.takeWhile_cons_of_neg (by simp [heq])],
        by rw [List.nil_append, List.dropWhile_cons_of_neg (by simp [heq])]⟩
    | cons d rest2 =>
      have hd : isKeyChar d = false := hw2key d (List.mem_cons_self _ _)
      exact ⟨by rw [List.cons_append, List.takeWhile_cons_of_neg (by simp [hd])],
        by rw [List.cons_append, List.dropWhile_cons_of_neg (by simp [hd])]⟩
  have h2 : (k ++ (w2 ++ '=' :: (w3 ++ (raw ++ w4)))).takeWhile isKeyChar = k := by
    rw [List.takeWhile_append_of_pos hkey, hstop.1, List.append_nil]
  have h3 : (k ++ (w2 ++ '=' :: (w3 ++ (raw ++ w4)))).dropWhile isKeyChar =
      w2 ++ '=' :: (w3 ++ (raw ++ w4)) := by
    rw [List.dropWhile_append_of_pos hkey, hstop.2]
  have h4 : (w2 ++ '=' :: (w3 ++ (raw ++ w4))).dropWhile isWhiteSpace =
      '=' :: (w3 ++ (raw ++ w4)) := by
    rw [List.dropWhile_append_of_pos hw2, List.dropWhile_cons_of_neg (by simp [heqws])]
  have hw4lt : w4.takeWhile (fun d => !isLineTerminator d) = [] ∧
      w4.dropWhile (fun d => !isLineTerminator d) = w4 := by
    cases w4 with
    | nil => exact ⟨rfl, rfl⟩
    | cons d rest4 =>
      have hd : isLineTerminator d = true := htail d rfl
      exact ⟨by rw [List.takeWhile_cons_of_neg (by simp [hd])],
        by rw [List.dropWhile_cons_of_neg (by simp [hd])]⟩
  have hrawall : ∀ c ∈ raw, (!isLineTerminator c) = true := by
    intro c hc
    simp [hraw c hc]
  have h5 : (w3 ++ (raw ++ w4)).dropWhile isWhiteSpace = raw ++ w4.dropWhile isWhiteSpace ∨
      ((w3 ++ (raw ++ w4)).dropWhile isWhiteSpace = raw ++ w4 ∧ raw ≠ []) := by
    rw [List.dropWhile_append_of_pos hw3]
    cases raw with
    | nil => exact Or.inl rfl
    | cons r0 rr =>
      have hr0 : isWhiteSpace r0 = false := hhead r0 rfl
      exact Or.inr ⟨by rw [List.cons_append, List.dropWhile_cons_of_neg (by simp [hr0])],
        by simp⟩
  have hw4all : w4.dropWhile isWhiteSpace = [] := List.dropWhile_eq_nil_iff.2 hw4
  have h6 : ((w3 ++ (raw ++ w4)).dropWhile isWhiteSpace).takeWhile
      (fun d => !isLineTerminator d) = raw ∧
      (((w3 ++ (raw ++ w4)).dropWhile isWhiteSpace).dropWhile
        (fun d => !isLineTerminator d)).all isWhiteSpace = true := by
    rcases h5 with h5 | ⟨h5, _⟩
    · rw [h5, hw4all, List.append_nil]
      exact ⟨List.takeWhile_eq_self_iff.2 hrawall,
        by rw [List.dropWhile_eq_nil_iff.2 hrawall]; rfl⟩
    · rw [h5, List.takeWhile_append_of_pos hrawall, List.dropWhile_append_of_pos hrawall,
        hw4lt.1, hw4lt.2, List.append_nil]
      exact ⟨rfl, List.all_eq_true.2 hw4⟩
  unfold matchAssignment
  simp only [h1, h2, h3, h4]
  rw [if_pos ⟨hne, trivial⟩, h6.1, if_pos h6.2]

/-- The assignment pattern matches exactly the lines of the shape of an assignment line. -/
theorem matchAssignment_iff (line k raw : Str) :
    matchAssignment line = some (k, raw) ↔ IsAssignmentLine line k raw :=
  ⟨matchAssignment_shape line k raw, matchAssignment_of_shape line k raw⟩

theorem filter_filter_of_imp {α : Type} (p q : α → Bool) (l : List α)
    (h : ∀ a, q a = true → p a = true) : (l.filter p).filter q = l.filter q := by
  induction l with
  | nil => rfl
  | cons a rest ih =>
    by_cases hq : q a = true
    · rw [List.filter_cons_of_pos (h a hq), List.filter_cons_of_pos hq,
        List.filter_cons_of_pos hq, ih]
    · by_cases hp : p a = true
      · rw [List.filter_cons_of_pos hp, List.filter_cons_of_neg hq,
          List.filter_cons_of_neg hq, ih]
      · rw [List.filter_cons_of_neg hp, List.filter_cons_of_neg hq, ih]

/-- The loop's bookkeeping with the set of keys seen agrees with the order of first
occurrence. -/
theorem firstByKey_eq (seen : List Str) (l : List (Str × Str)) :
    firstByKey seen l = (firstOccurrences l).filter fun q => decide (q.1 ∉ seen) := by
  induction l generalizing seen with
  | nil => simp [firstByKey, firstOccurrences]
  | cons x rest ih =>
    obtain ⟨k, v⟩ := x
    rw [firstByKey, firstOccurrences]
    by_cases hk : k ∈ seen
    · rw [if_pos hk, ih, List.filter_cons_of_neg (by simpa using hk)]
      symm
      apply filter_filter_of_imp
      intro a ha
      simp only [decide_eq_true_eq] at ha ⊢
      exact fun h => ha (h ▸ hk)
    · rw [if_neg hk, ih, List.filter_cons_of_pos (by simpa using hk)]
      congr 1
      rw [List.filter_filter]
      apply List.filter_congr
      intro a _
      simp [not_or]

theorem firstByKey_nil_eq (l : List (Str × Str)) : firstByKey [] l = firstOccurrences l := by
  rw [firstByKey_eq]
  exact List.filter_eq_self.2 (fun a _ => by simp)

theorem parseEnvLines_keys_nodup (lines seen pending : List Str) :
    ((parseEnvLines lines seen pending).map Entry.key).Nodup := by
  have h := firstByKey_nodup seen (lines.filterMap assignmentOf)
  rw [← parseEnvLines_pairs lines seen pending, List.map_map] at h
  exact h

/-- C4: the key/default pairs of the entries `parseEnvEntries` returns are the pairs (key,
parsed value) of the assignment lines of the document, in document order, reduced to the
first occurrence of each key: one entry for each key that occurs on an assignment line, in
order of first occurrence, with the parsed value of that first occurrence as default, later
assignments of the key being dropped.  A line counts as an assignment line exactly when it
has the shape white space, key over `[A-Z0-9_]`, white space, `=`, white space, value, white
space; such a line is neither blank nor a comment, and no other line contributes a pair. -/
theorem parseEnvEntries_first_assignment (envText : Str) :
    (parseEnvEntries envText).map (fun e => (e.key, e.defaultValue)) =
      firstOccurrences ((splitLines envText).filterMap assignmentOf) ∧
    (∀ line k v, assignmentOf line = some (k, v) ↔
      ∃ raw, IsAssignmentLine line k raw ∧ v = parseEnvValue raw) ∧
    (∀ line k raw, IsAssignmentLine line k raw → commentText line = none ∧ trim line ≠ []) ∧
    ((parseEnvEntries envText).map Entry.key).Nodup ∧
    (∀ k v, (k, v) ∈ (parseEnvEntries envText).map (fun e => (e.key, e.defaultValue)) ↔
      ∃ pre post, (splitLines envText).filterMap assignmentOf = pre ++ (k, v) :: post ∧
        ∀ x ∈ pre, x.1 ≠ k) ∧
    (∀ k, k ∈ (parseEnvEntries envText).map Entry.key ↔
      ∃ line ∈ splitLines envText, ∃ raw, IsAssignmentLine line k raw) := by
  have hpairs := parseEnvLines_pairs (splitLines envText) [] []
  have hmem : ∀ k v, (k, v) ∈ (parseEnvEntries envText).map (fun e => (e.key, e.defaultValue)) ↔
      ∃ pre post, (splitLines envText).filterMap assignmentOf = pre ++ (k, v) :: post ∧
        ∀ x ∈ pre, x.1 ≠ k := by
    intro k v
    unfold parseEnvEntries
    rw [hpairs, mem_firstByKey]
    simp
  have hassign : ∀ line k v, assignmentOf line = some (k, v) ↔
      ∃ raw, IsAssignmentLine line k raw ∧ v = parseEnvValue raw := by
    intro line k v
    unfold assignmentOf
    constructor
    · intro h
      cases hm : matchAssignment line with
      | none => rw [hm] at h; simp at h
      | some kv =>
        obtain ⟨k2, raw⟩ := kv
        rw [hm] at h
        simp only [Option.map_some', Option.some.injEq, Prod.mk.injEq] at h
        refine ⟨raw, ?_, h.2.symm⟩
        rw [← h.1]
        exact (matchAssignment_iff line k2 raw).1 hm
    · rintro ⟨raw, hshape, hv⟩
      rw [(matchAssignment_iff line k raw).2 hshape, hv]
      rfl
  refine ⟨?_, hassign, ?_, parseEnvLines_keys_nodup _ _ _, hmem, ?_⟩
  · unfold parseEnvEntries
    rw [hpairs, firstByKey_nil_eq]
  · intro line k raw hshape
    have hm := (matchAssignment_iff line k raw).2 hshape
    refine ⟨commentText_of_match line k raw hm, ?_⟩
    obtain ⟨c, rest, ht, _⟩ := matchAssignment_trim line k raw hm
    rw [ht]
    simp
  · intro k
    constructor
    · intro hk
      obtain ⟨e, he, hek⟩ := List.mem_map.1 hk
      have h1 : (k, e.defaultValue) ∈
          (parseEnvEntries envText).map (fun e => (e.key, e.defaultValue)) :=
        List.mem_map.2 ⟨e, he, by rw [hek]⟩
      obtain ⟨pre, post, hsplit, _⟩ := (hmem k e.defaultValue).1 h1
      have h2 : (k, e.defaultValue) ∈ (splitLines envText).filterMap assignmentOf := by
        rw [hsplit]; simp
      obtain ⟨line, hline, ha⟩ := List.mem_filterMap.1 h2
      obtain ⟨raw, hshape, _⟩ := (hassign line k e.defaultValue).1 ha
      exact ⟨line, hline, raw, hshape⟩
    · rintro ⟨line, hline, raw, hshape⟩
      have h2 : (k, parseEnvValue raw) ∈ (splitLines envText).filterMap assignmentOf :=
        List.mem_filterMap.2 ⟨line, hline, (hassign line k _).2 ⟨raw, hshape, rfl⟩⟩
      have h3 : k ∈ ((splitLines envText).filterMap assignmentOf).map Prod.fst :=
        List.mem_map.2 ⟨_, h2, rfl⟩
      obtain ⟨pre, v, post, hsplit, hpre⟩ := exists_first_key _ k h3
      obtain ⟨e, he, hek⟩ := List.mem_map.1 ((hmem k v).2 ⟨pre, post, hsplit, hpre⟩)
      simp only [Prod.mk.injEq] at hek
      exact List.mem_map.2 ⟨e, he, hek.1⟩

theorem testRequired_iff (s : Str) :
    testRequired s = true ↔
      ∃ pre w post, s = pre ++ w ++ post ∧ w.map Char.toLower = "required".toList := by
  induction s with
  | nil =>
    simp only [testRequired, Bool.false_eq_true, false_iff]
    rintro ⟨pre, w, post, hs, hw⟩
    have h1 : w = [] := by
      have := congrArg List.length hs
      simp at this
      exact List.eq_nil_of_length_eq_zero (by omega)
    rw [h1] at hw
    exact absurd hw (by decide)
  | cons c cs ih =>
    rw [testRequired, Bool.or_eq_true, ih]
    constructor
    · rintro (h | ⟨pre, w, post, hs, hw⟩)
      · refine ⟨[], (c :: cs).take 8, (c :: cs).drop 8, by simp, ?_⟩
        simpa [requiredAtStart] using h
      · exact ⟨c :: pre, w, post, by rw [hs]; rfl, hw⟩
    · rintro ⟨pre, w, post, hs, hw⟩
      cases pre with
      | nil =>
        left
        have hlen : w.length = 8 := by
          have := congrArg List.length hw
          simpa using this
        have ht : (c :: cs).take 8 = w := by
          rw [hs, List.nil_append, List.take_append_of_le_length (by omega)]
          exact List.take_of_length_le (by omega)
        simp [requiredAtStart, ht, hw]
      | cons p pre2 =>
        right
        simp only [List.cons_append, List.cons.injEq] at hs
        exact ⟨pre2, w, post, hs.2, hw⟩

theorem parseEnvLines_required (lines seen pending : List Str) :
    ∀ e ∈ parseEnvLines lines seen pending,
      e.required = (decide (e.key ∈ REQUIRED_ENV_KEYS) || testRequired e.description) := by
  induction lines generalizing seen pending with
  | nil => simp [parseEnvLines]
  | cons line rest ih =>
    rw [parseEnvLines_cons]
    cases hc : commentText line with
    | some text => exact ih _ _
    | none =>
      cases hm : matchAssignment line with
      | none => exact ih _ _
      | some kv =>
        obtain ⟨k, r⟩ := kv
        simp only
        by_cases hs : k ∈ seen
        · rw [if_pos hs]; exact ih _ _
        · rw [if_neg hs]
          intro e he
          rcases List.mem_cons.1 he with rfl | he2
          · rfl
          · exact ih _ _ e he2

/-- C9: an entry emitted by `parseEnvEntries` is required if and only if its key is
`NEXT_PUBLIC_API_URL`, `NEXT_PUBLIC_SITE_URL` or `NEXT_PUBLIC_SALEOR_CHANNEL`, or its
description contains the letters of `required` in any letter case; and the document
`# Required` followed by `NEXT_PUBLIC_API_URL="https://a/"` gives the single entry with
description `Required`, default `https://a/` and required `true`. -/
theorem parseEnvEntries_required_flag :
    (∀ (envText : Str) (e : Entry), e ∈ parseEnvEntries envText →
      (e.required = true ↔
        (e.key = "NEXT_PUBLIC_API_URL".toList ∨ e.key = "NEXT_PUBLIC_SITE_URL".toList ∨
          e.key = "NEXT_PUBLIC_SALEOR_CHANNEL".toList) ∨
        ∃ pre w post, e.description = pre ++ w ++ post ∧
          w.map Char.toLower = "required".toList)) ∧
    parseEnvEntries sampleFlatDocument =
      [{ key := "NEXT_PUBLIC_API_URL".toList, description := "Required".toList,
         defaultValue := "https://a/".toList, required := true }] := by
  constructor
  · intro envText e he
    rw [parseEnvLines_required _ _ _ e he, Bool.or_eq_true, testRequired_iff,
      decide_eq_true_eq]
    simp [REQUIRED_ENV_KEYS]
  · decide

theorem commentText_of_isCommentLine (line : Str) (h : isCommentLine line = true) :
    commentText line = some (stripCommentMarker (trim line)) := by
  simp only [isCommentLine, decide_eq_true_eq] at h
  have hne : trim line ≠ [] := by
    intro h0
    rw [h0] at h
    simp at h
  simp [commentText, h, hne]

theorem commentText_of_not_isCommentLine (line : Str) (h : isCommentLine line = false) :
    commentText line = none := by
  simp only [isCommentLine, decide_eq_false_iff_not] at h
  simp [commentText, h]

theorem parseEnvLines_key_not_seen (lines seen pending : List Str) :
    ∀ e ∈ parseEnvLines lines seen pending, e.key ∉ seen := by
  intro e he
  have h1 : (e.key, e.defaultValue) ∈
      (parseEnvLines lines seen pending).map (fun e => (e.key, e.defaultValue)) :=
    List.mem_map.2 ⟨e, he, rfl⟩
  rw [parseEnvLines_pairs] at h1
  exact firstByKey_not_seen _ _ _ h1

/-- A run of comment lines only extends the pending description. -/
theorem parseEnvLines_comment_run (cs rest seen pending : List Str)
    (hcs : ∀ c ∈ cs, isCommentLine c = true) :
    parseEnvLines (cs ++ rest) seen pending =
      parseEnvLines rest seen (pending ++ cs.map fun c => stripCommentMarker (trim c)) := by
  induction cs generalizing pending with
  | nil => simp
  | cons c cs2 ih =>
    rw [List.cons_append, parseEnvLines_cons,
      commentText_of_isCommentLine c (hcs c (List.mem_cons_self _ _))]
    simp only
    rw [ih _ (fun x hx => hcs x (List.mem_cons_of_mem _ hx))]
    simp

/-- After a block of lines that is empty or ends with a line that is not a comment, the pending
description is empty, and the keys seen are keys seen before or assigned in the block. -/
theorem parseEnvLines_after_block (before rest seen pending : List Str)
    (hstart : before = [] → pending = [])
    (hlast : ∀ l, before.getLast? = some l → isCommentLine l = false) :
    ∃ seen2, (∀ k ∈ seen2, k ∈ seen ∨ ∃ l ∈ before, ∃ r, matchAssignment l = some (k, r)) ∧
      parseEnvLines (before ++ rest) seen pending =
        parseEnvLines before seen pending ++ parseEnvLines rest seen2 [] := by
  induction before generalizing seen pending with
  | nil =>
    refine ⟨seen, fun k hk => Or.inl hk, ?_⟩
    rw [hstart rfl]
    simp [parseEnvLines]
  | cons line before2 ih =>
    have hlast2 : ∀ l, before2.getLast? = some l → isCommentLine l = false := by
      intro l hl
      apply hlast l
      cases before2 with
      | nil => simp at hl
      | cons b bs => rw [List.getLast?_cons_cons]; exact hl
    have hline : before2 = [] → commentText line = none := by
      intro hb
      apply commentText_of_not_isCommentLine
      apply hlast line
      rw [hb]; rfl
    rw [List.cons_append, parseEnvLines_cons, parseEnvLines_cons]
    cases hc : commentText line with
    | some text =>
      obtain ⟨seen2, hseen2, heq⟩ := ih seen (pending ++ [text])
        (fun hb => by rw [hline hb] at hc; exact absurd hc (by simp)) hlast2
      refine ⟨seen2, ?_, heq⟩
      intro k hk
      rcases hseen2 k hk with h | ⟨l, hl, r, hr⟩
      · exact Or.inl h
      · exact Or.inr ⟨l, List.mem_cons_of_mem _ hl, r, hr⟩
    | none =>
      cases hm : matchAssignment line with
      | none =>
        obtain ⟨seen2, hseen2, heq⟩ := ih seen [] (fun _ => rfl) hlast2
        refine ⟨seen2, ?_, heq⟩
        intro k hk
        rcases hseen2 k hk with h | ⟨l, hl, r, hr⟩
        · exact Or.inl h
        · exact Or.inr ⟨l, List.mem_cons_of_mem _ hl, r, hr⟩
      | some kv =>
        obtain ⟨k1, r1⟩ := kv
        simp only
        by_cases hs : k1 ∈ seen
        · simp only [if_pos hs]
          obtain ⟨seen2, hseen2, heq⟩ := ih seen [] (fun _ => rfl) hlast2
          refine ⟨seen2, ?_, heq⟩
          intro k hk
          rcases hseen2 k hk with h | ⟨l, hl, r, hr⟩
          · exact Or.inl h
          · exact Or.inr ⟨l, List.mem_cons_of_mem _ hl, r, hr⟩
        · simp only [if_neg hs]
          obtain ⟨seen2, hseen2, heq⟩ := ih (seen ++ [k1]) [] (fun _ => rfl) hlast2
          refine ⟨seen2, ?_, by rw [heq]; rfl⟩
          intro k hk
          rcases hseen2 k hk with h | ⟨l, hl, r, hr⟩
          · rcases List.mem_append.1 h with h1 | h1
            · exact Or.inl h1
            · have hk1 : k = k1 := by simpa using h1
              exact Or.inr ⟨line, List.mem_cons_self _ _, r1, by rw [hm, hk1]⟩
          · exact Or.inr ⟨l, List.mem_cons_of_mem _ hl, r, hr⟩

/-- The entry emitted for the first assignment of a key carries the comment run right before
the assignment line. -/
theorem parseEnvLines_description (before cs : List Str) (line : Str) (after : List Str)
    (k raw : Str)
    (hcs : ∀ c ∈ cs, isCommentLine c = true)
    (hmax : ∀ l, before.getLast? = some l → isCommentLine l = false)
    (hline : matchAssignment line = some (k, raw))
    (hfirst : ∀ l ∈ before, ∀ r, matchAssignment l ≠ some (k, r)) :
    envEntry k raw (cs.map fun c => stripCommentMarker (trim c)) ∈
      parseEnvLines (before ++ cs ++ line :: after) [] [] := by
  obtain ⟨seen2, hseen2, heq⟩ :=
    parseEnvLines_after_block before (cs ++ line :: after) [] [] (fun _ => rfl) hmax
  rw [List.append_assoc, heq]
  apply List.mem_append_right
  rw [parseEnvLines_comment_run cs _ _ _ hcs, parseEnvLines_cons,
    commentText_of_match line k raw hline, hline]
  simp only
  have hk : k ∉ seen2 := by
    intro h
    rcases hseen2 k h with h1 | ⟨l, hl, r, hr⟩
    · simp at h1
    · exact hfirst l hl r hr
  rw [if_neg hk]
  simp

theorem exists_comment_suffix (pre : List Str) :
    ∃ before cs, pre = before ++ cs ∧ (∀ c ∈ cs, isCommentLine c = true) ∧
      ∀ l, before.getLast? = some l → isCommentLine l = false := by
  induction pre using List.reverseRecOn with
  | nil => exact ⟨[], [], rfl, by simp, by simp⟩
  | append_singleton xs x ih =>
    by_cases hx : isCommentLine x = true
    · obtain ⟨before, cs, hsplit, hcs, hlast⟩ := ih
      refine ⟨before, cs ++ [x], by rw [hsplit, List.append_assoc], ?_, hlast⟩
      intro c hc
      rcases List.mem_append.1 hc with h | h
      · exact hcs c h
      · rw [List.mem_singleton.1 h]; exact hx
    · refine ⟨xs ++ [x], [], by simp, by simp, ?_⟩
      intro l hl
      rw [List.getLast?_concat] at hl
      simp only [Option.some.injEq] at hl
      rw [← hl]
      simpa using hx

theorem parseEnvLines_origin (lines seen pending : List Str) :
    ∀ e ∈ parseEnvLines lines seen pending,
      ∃ pre line post raw, lines = pre ++ line :: post ∧
        matchAssignment line = some (e.key, raw) ∧
        ∀ l ∈ pre, ∀ r, matchAssignment l ≠ some (e.key, r) := by
  induction lines generalizing seen pending with
  | nil => simp [parseEnvLines]
  | cons line rest ih =>
    have step : ∀ (e : Entry) (s p : List Str), e ∈ parseEnvLines rest s p →
        (∀ r, matchAssignment line ≠ some (e.key, r)) →
        ∃ pre l post raw, line :: rest = pre ++ l :: post ∧
          matchAssignment l = some (e.key, raw) ∧
          ∀ l2 ∈ pre, ∀ r, matchAssignment l2 ≠ some (e.key, r) := by
      intro e s p he hne
      obtain ⟨pre, l, post, raw, hsplit, hm, hpre⟩ := ih s p e he
      refine ⟨line :: pre, l, post, raw, by rw [hsplit]; rfl, hm, ?_⟩
      intro l2 hl2 r
      rcases List.mem_cons.1 hl2 with rfl | h2
      · exact hne r
      · exact hpre l2 h2 r
    rw [parseEnvLines_cons]
    intro e he
    cases hc : commentText line with
    | some text =>
      rw [hc] at he
      have hm := matchAssignment_of_comment line text hc
      exact step e _ _ he (fun r => by rw [hm]; simp)
    | none =>
      rw [hc] at he
      cases hm : matchAssignment line with
      | none =>
        rw [hm] at he
        exact step e _ _ he (fun r => by rw [hm]; simp)
      | some kv =>
        obtain ⟨k1, r1⟩ := kv
        rw [hm] at he
        simp only at he
        by_cases hs : k1 ∈ seen
        · rw [if_pos hs] at he
          have hk := parseEnvLines_key_not_seen rest seen [] e he
          refine step e _ _ he (fun r hr => ?_)
          rw [hm] at hr
          simp only [Option.some.injEq, Prod.mk.injEq] at hr
          exact hk (hr.1 ▸ hs)
        · rw [if_neg hs] at he
          rcases List.mem_cons.1 he with rfl | he2
          · exact ⟨[], line, rest, r1, rfl, by simp [envEntry, hm], by simp⟩
          · have hk := parseEnvLines_key_not_seen rest (seen ++ [k1]) [] e he2
            refine step e _ _ he2 (fun r hr => ?_)
            rw [hm] at hr
            simp only [Option.some.injEq, Prod.mk.injEq] at hr
            exact hk (by simp [hr.1])

/-- C5, counterexample: for the document `# Required`, `A=1` the emitted description is
`Required`, whereas the comment line stripped of its leading `#` alone is ` Required` with
the space kept. -/
theorem description_drops_space_after_hash :
    (parseEnvEntries "# Required\nA=1".toList).map Entry.description = ["Required".toList] ∧
    splitLines "# Required\nA=1".toList = [] ++ ["# Required".toList] ++ "A=1".toList :: [] ∧
    descriptionAsWorded ["# Required".toList] = " Required".toList ∧
    "Required".toList ≠ descriptionAsWorded ["# Required".toList] := by
  decide

/-- C5 (amended): the description of an emitted entry is built from the maximal run of comment
lines immediately preceding the first assignment line of its key (the run starts after the
last line before it that is not a comment: a blank line, a non-matching line, an emitted
assignment or a dropped duplicate): each comment line is trimmed and stripped of its leading
`#` and of one white-space character following it, the texts are joined with single spaces,
and the joined text is trimmed.  The description is empty when no comment line immediately
precedes the assignment.  Every emitted entry arises this way. -/
theorem description_is_preceding_comment_run (envText : Str) :
    (∀ before cs line after k raw,
      splitLines envText = before ++ cs ++ line :: after →
      (∀ c ∈ cs, (trim c).head? = some '#') →
      (∀ l, before.getLast? = some l → (trim l).head? ≠ some '#') →
      matchAssignment line = some (k, raw) →
      (∀ l ∈ before, ∀ r, matchAssignment l ≠ some (k, r)) →
      (∃ e ∈ parseEnvEntries envText, e.key = k) ∧
      ∀ e ∈ parseEnvEntries envText, e.key = k →
        e.description = trim (join [' '] (cs.map fun c => stripCommentMarker (trim c)))) ∧
    (∀ e ∈ parseEnvEntries envText,
      ∃ before cs line after raw,
        splitLines envText = before ++ cs ++ line :: after ∧
        (∀ c ∈ cs, (trim c).head? = some '#') ∧
        (∀ l, before.getLast? = some l → (trim l).head? ≠ some '#') ∧
        matchAssignment line = some (e.key, raw) ∧
        (∀ l ∈ before ++ cs, ∀ r, matchAssignment l ≠ some (e.key, r)) ∧
        e.description = trim (join [' '] (cs.map fun c => stripCommentMarker (trim c))) ∧
        (cs = [] → e.description = [])) := by
  have hA : ∀ before cs line after k raw,
      splitLines envText = before ++ cs ++ line :: after →
      (∀ c ∈ cs, isCommentLine c = true) →
      (∀ l, before.getLast? = some l → isCommentLine l = false) →
      matchAssignment line = some (k, raw) →
      (∀ l ∈ before, ∀ r, matchAssignment l ≠ some (k, r)) →
      (∃ e ∈ parseEnvEntries envText, e.key = k) ∧
      ∀ e ∈ parseEnvEntries envText, e.key = k →
        e.description = trim (join [' '] (cs.map fun c => stripCommentMarker (trim c))) := by
    intro before cs line after k raw hsplit hcs hmax hline hfirst
    have hmem := parseEnvLines_description before cs line after k raw hcs hmax hline hfirst
    rw [← hsplit] at hmem
    refine ⟨⟨_, hmem, rfl⟩, ?_⟩
    intro e he hk
    have hnodup := parseEnvLines_keys_nodup (splitLines envText) [] []
    have heq := List.inj_on_of_nodup_map hnodup he hmem (by rw [hk]; rfl)
    rw [heq]
    rfl
  constructor
  · intro before cs line after k raw hsplit hcs hmax hline hfirst
    exact hA before cs line after k raw hsplit
      (fun c hc => by simpa [isCommentLine] using hcs c hc)
      (fun l hl => by simpa [isCommentLine] using hmax l hl) hline hfirst
  · intro e he
    obtain ⟨pre, line, post, raw, hsplit, hm, hpre⟩ :=
      parseEnvLines_origin (splitLines envText) [] [] e he
    obtain ⟨before, cs, hpre2, hcs, hmax⟩ := exists_comment_suffix pre
    have hsplit2 : splitLines envText = before ++ cs ++ line :: post := by
      rw [hsplit, hpre2]
    have hdesc := (hA before cs line post e.key raw hsplit2 hcs hmax hm
      (fun l hl => hpre l (by rw [hpre2]; exact List.mem_append_left _ hl))).2 e he rfl
    refine ⟨before, cs, line, post, raw, hsplit2,
      fun c hc => by simpa [isCommentLine] using hcs c hc,
      fun l hl => by simpa [isCommentLine] using hmax l hl, hm,
      fun l hl => hpre l (by rw [hpre2]; exact hl), hdesc, ?_⟩
    intro hnil
    rw [hdesc, hnil]
    rfl

/-- C5 (amended), concrete check: in the document `# Required`, `#  tenant API`, `A=1` the entry
`A` is described by both comment lines, the second keeping one of its two leading spaces. -/
theorem description_is_preceding_comment_run_witness :
    ∀ e ∈ parseEnvEntries sampleCommentedDocument, e.key = "A".toList →
      e.description = "Required  tenant API".toList :=
  ((description_is_preceding_comment_run sampleCommentedDocument).1
    [] ["# Required".toList, "#  tenant API".toList] "A=1".toList [] "A".toList "1".toList
    (by decide) (by decide) (by simp) (by decide) (by simp)).2

/-! ## Structured-schema path -/

theorem depth_le_depthFields (fields : List (Str × JsValue)) (k : Str) (v : JsValue)
    (h : (k, v) ∈ fields) : depth v ≤ depthFields fields := by
  induction fields with
  | nil => simp at h
  | cons x rest ih =>
    obtain ⟨k1, v1⟩ := x
    rw [depthFields]
    rcases List.mem_cons.1 h with heq | h2
    · simp only [Prod.mk.injEq] at heq
      rw [heq.2]
      exact Nat.le_max_left _ _
    · exact Nat.le_trans (ih h2) (Nat.le_max_right _ _)

theorem depth_le_depthItems (xs : List JsValue) (v : JsValue) (h : v ∈ xs) :
    depth v ≤ depthItems xs := by
  induction xs with
  | nil => simp at h
  | cons x rest ih =>
    rw [depthItems]
    rcases List.mem_cons.1 h with heq | h2
    · rw [heq]
      exact Nat.le_max_left _ _
    · exact Nat.le_trans (ih h2) (Nat.le_max_right _ _)

theorem mem_of_mem_indexed (i : Nat) (xs : List JsValue) (k : Str) (v : JsValue)
    (h : (k, v) ∈ indexed i xs) : v ∈ xs := by
  induction xs generalizing i with
  | nil => simp [indexed] at h
  | cons x rest ih =>
    rw [indexed] at h
    rcases List.mem_cons.1 h with heq | h2
    · simp only [Prod.mk.injEq] at heq
      rw [heq.2]
      exact List.mem_cons_self _ _
    · exact List.mem_cons_of_mem _ (ih _ h2)

theorem lookup_mem (fields : List (Str × JsValue)) (name : Str) (v : JsValue)
    (h : fields.lookup name = some v) : (name, v) ∈ fields := by
  induction fields with
  | nil => simp at h
  | cons x rest ih =>
    obtain ⟨k1, v1⟩ := x
    rw [List.lookup_cons] at h
    cases hk : (name == k1) with
    | true =>
      rw [hk] at h
      simp only [Option.some.injEq] at h
      have : name = k1 := by simpa using hk
      rw [this, h]
      exact List.mem_cons_self _ _
    | false =>
      rw [hk] at h
      exact List.mem_cons_of_mem _ (ih h)

theorem get_depth_lt (v : JsValue) (name : Str) (p : JsValue) (h : v.get name = some p) :
    depth p < depth v := by
  cases v with
  | obj fields =>
    rw [JsValue.get] at h
    rw [depth]
    exact Nat.lt_succ_of_le (depth_le_depthFields fields name p (lookup_mem fields name p h))
  | null => simp [JsValue.get] at h
  | bool b => simp [JsValue.get] at h
  | num t => simp [JsValue.get] at h
  | str s => simp [JsValue.get] at h
  | arr xs => simp [JsValue.get] at h

theorem isNamespace_get (prop : JsValue) (h : isNamespace prop = true) :
    ∃ p, prop.get "properties".toList = some p ∧ truthy p = true := by
  unfold isNamespace at h
  cases hp : prop.get "properties".toList with
  | none => rw [hp] at h; simp at h
  | some p =>
    rw [hp] at h
    simp only [Bool.and_eq_true] at h
    exact ⟨p, rfl, h.2⟩

/-- A namespace among the entries of a document is strictly shallower than the document. -/
theorem namespace_entry_depth (v : JsValue) (k : Str) (prop : JsValue)
    (hmem : (k, prop) ∈ entries v) (hns : isNamespace prop = true) :
    depth ((prop.get "properties".toList).getD null) + 1 < depth v := by
  obtain ⟨p, hp, _⟩ := isNamespace_get prop hns
  rw [hp]
  have h1 : depth p < depth prop := get_depth_lt prop _ p hp
  have h2 : depth prop < depth v := by
    cases v with
    | obj fields =>
      rw [JsValue.entries] at hmem
      rw [depth]
      exact Nat.lt_succ_of_le (depth_le_depthFields fields k prop hmem)
    | arr xs =>
      rw [JsValue.entries] at hmem
      rw [depth]
      exact Nat.lt_succ_of_le (depth_le_depthItems xs prop (mem_of_mem_indexed 0 xs k prop hmem))
    | str s =>
      rw [JsValue.entries] at hmem
      have h3 := mem_of_mem_indexed 0 _ k prop hmem
      obtain ⟨c, _, hc⟩ := List.mem_map.1 h3
      rw [← hc] at hp
      simp [JsValue.get] at hp
    | null => simp [JsValue.entries] at hmem
    | bool b => simp [JsValue.entries] at hmem
    | num t => simp [JsValue.entries] at hmem
  simp only [Option.getD_some]
  omega

theorem depth_propertiesOrEmpty (v : JsValue) : depth (propertiesOrEmpty v) ≤ depth v + 1 := by
  unfold propertiesOrEmpty
  by_cases h : truthy v = true
  · rw [if_pos h]; omega
  · rw [if_neg h]; simp [depth, depthFields]

theorem entries_propertiesOrEmpty_depth (v : JsValue) (k : Str) (prop : JsValue)
    (hmem : (k, prop) ∈ entries (propertiesOrEmpty v)) (hns : isNamespace prop = true) :
    depth ((prop.get "properties".toList).getD null) + 1 < depth v := by
  unfold propertiesOrEmpty at hmem
  by_cases h : truthy v = true
  · rw [if_pos h] at hmem
    exact namespace_entry_depth v k prop hmem hns
  · rw [if_neg h] at hmem
    simp [JsValue.entries] at hmem

theorem leafResultsFuel_succ (fuel : Nat) (properties : JsValue) (requiredSet : List JsValue)
    (pfx : Str) :
    leafResultsFuel (fuel + 1) properties requiredSet pfx =
      (entries (propertiesOrEmpty properties)).flatMap fun kp =>
        if isNamespace kp.2 then
          leafResultsFuel fuel ((kp.2.get "properties".toList).getD null)
            (requiredSetOf (kp.2.get "required".toList)) (fullKeyOf pfx kp.1)
        else [leafEntry requiredSet kp.1 (fullKeyOf pfx kp.1) kp.2] := by
  rw [leafResultsFuel]

theorem flatMap_congr_mem {α β : Type} (l : List α) (f g : α → List β)
    (h : ∀ a ∈ l, f a = g a) : l.flatMap f = l.flatMap g := by
  induction l with
  | nil => rfl
  | cons a rest ih =>
    rw [List.flatMap_cons, List.flatMap_cons, h a (List.mem_cons_self _ _),
      ih (fun b hb => h b (List.mem_cons_of_mem _ hb))]

/-- More fuel than the depth of the document changes nothing. -/
theorem leafResultsFuel_stable (fuel : Nat) (properties : JsValue)
    (requiredSet : List JsValue) (pfx : Str) (h : depth properties < fuel) :
    leafResultsFuel fuel properties requiredSet pfx =
      leafResultsFuel (depth properties + 1) properties requiredSet pfx := by
  induction fuel using Nat.strong_induction_on generalizing properties requiredSet pfx with
  | _ fuel ih =>
    cases fuel with
    | zero => omega
    | succ n =>
      rw [leafResultsFuel_succ, leafResultsFuel_succ]
      apply flatMap_congr_mem
      intro kp hkp
      by_cases hns : isNamespace kp.2 = true
      · rw [if_pos hns, if_pos hns]
        have hd := entries_propertiesOrEmpty_depth properties kp.1 kp.2 hkp hns
        rw [ih n (Nat.lt_succ_self n) _ _ _ (by omega)]
        rw [ih (depth properties) (by omega) _ _ _ (by omega)]
      · rw [if_neg hns, if_neg hns]

theorem leafResults_eq (properties : JsValue) (requiredSet : List JsValue) (pfx : Str) :
    leafResults properties requiredSet pfx =
      (entries (propertiesOrEmpty properties)).flatMap fun kp =>
        if isNamespace kp.2 then
          leafResults ((kp.2.get "properties".toList).getD null)
            (requiredSetOf (kp.2.get "required".toList)) (fullKeyOf pfx kp.1)
        else [leafEntry requiredSet kp.1 (fullKeyOf pfx kp.1) kp.2] := by
  unfold leafResults
  rw [leafResultsFuel_succ]
  apply flatMap_congr_mem
  intro kp hkp
  by_cases hns : isNamespace kp.2 = true
  · rw [if_pos hns, if_pos hns]
    have hd := entries_propertiesOrEmpty_depth properties kp.1 kp.2 hkp hns
    exact leafResultsFuel_stable _ _ _ _ (by omega)
  · rw [if_neg hns, if_neg hns]

theorem allEntries_append (xs ys : List (Option Entry)) :
    allEntries (xs ++ ys) =
      match allEntries xs with
      | none => none
      | some pushed => (allEntries ys).map fun others => pushed ++ others := by
  induction xs with
  | nil =>
    simp only [List.nil_append, allEntries]
    cases allEntries ys <;> rfl
  | cons x rest ih =>
    cases x with
    | none => rfl
    | some e =>
      have h1 : allEntries (some e :: rest ++ ys) =
          (allEntries (rest ++ ys)).map fun others => e :: others := rfl
      have h2 : allEntries (some e :: rest) =
          (allEntries rest).map fun others => e :: others := rfl
      rw [h1, h2, ih]
      cases allEntries rest with
      | none => rfl
      | some pushed =>
        cases allEntries ys with
        | none => rfl
        | some others => rfl

theorem allEntries_some_iff (l : List (Option Entry)) (es : List Entry) :
    allEntries l = some es ↔ l = es.map some := by
  induction l generalizing es with
  | nil =>
    simp only [allEntries, Option.some.injEq]
    constructor
    · intro h; rw [← h]; rfl
    · intro h
      cases es with
      | nil => rfl
      | cons e rest => simp at h
  | cons x rest ih =>
    cases x with
    | none =>
      simp only [allEntries]
      constructor
      · intro h; simp at h
      · intro h
        cases es with
        | nil => simp at h
        | cons e r => simp at h
    | some e =>
      simp only [allEntries]
      cases hr : allEntries rest with
      | none =>
        simp only [Option.map_none']
        constructor
        · intro h; simp at h
        · intro h
          cases es with
          | nil => simp at h
          | cons e2 r =>
            simp only [List.map_cons, List.cons.injEq] at h
            have := (ih r).2 h.2
            rw [hr] at this
            simp at this
      | some others =>
        simp only [Option.map_some', Option.some.injEq]
        have hrest := (ih others).1 hr
        constructor
        · intro h
          rw [← h, hrest]
          rfl
        · intro h
          cases es with
          | nil => simp at h
          | cons e2 r =>
            simp only [List.map_cons, List.cons.injEq, Option.some.injEq] at h
            have h2 := (ih r).2 h.2
            rw [hr] at h2
            simp only [Option.some.injEq] at h2
            rw [h.1, h2]

theorem allEntries_none_iff (l : List (Option Entry)) : allEntries l = none ↔ none ∈ l := by
  induction l with
  | nil => simp [allEntries]
  | cons x rest ih =>
    cases x with
    | none => simp [allEntries]
    | some e =>
      simp only [allEntries, Option.map_eq_none', ih, List.mem_cons]
      constructor
      · exact fun h => Or.inr h
      · rintro (h | h)
        · simp at h
        · exact h

theorem mem_of_allEntries (l : List (Option Entry)) (es : List Entry)
    (h : allEntries l = some es) (e : Entry) : e ∈ es ↔ some e ∈ l := by
  rw [(allEntries_some_iff l es).1 h, List.mem_map]
  constructor
  · intro he
    exact ⟨e, he, rfl⟩
  · rintro ⟨x, hx, hxe⟩
    simp only [Option.some.injEq] at hxe
    rw [← hxe]; exact hx

theorem pushAll_map_allEntries {α : Type} (l : List α) (f : α → List (Option Entry)) :
    pushAll (l.map fun a => allEntries (f a)) = allEntries (l.flatMap f) := by
  induction l with
  | nil => rfl
  | cons a rest ih =>
    rw [List.map_cons, List.flatMap_cons, allEntries_append]
    cases ha : allEntries (f a) with
    | none => rfl
    | some pushed =>
      simp only [pushAll]
      rw [ih]

/-- The traversal returns the entries of all the properties it reaches, unless the conversion
of one of their defaults throws. -/
theorem schemaEntriesFuel_all (fuel : Nat) (properties : JsValue) (requiredSet : List JsValue)
    (pfx : Str) :
    schemaEntriesFuel fuel properties requiredSet pfx =
      allEntries (leafResultsFuel fuel properties requiredSet pfx) := by
  induction fuel generalizing properties requiredSet pfx with
  | zero => rfl
  | succ n ih =>
    rw [schemaEntriesFuel, leafResultsFuel_succ, ← pushAll_map_allEntries]
    congr 1
    apply List.map_congr_left
    intro kp _
    by_cases hns : isNamespace kp.2 = true
    · simp only [hns, if_true]
      exact ih _ _ _
    · simp only [hns, if_false]
      cases leafEntry requiredSet kp.1 (fullKeyOf pfx kp.1) kp.2 <;> rfl

theorem schemaEntriesFromObject_all (properties : JsValue) (requiredSet : List JsValue)
    (pfx : Str) :
    schemaEntriesFromObject properties requiredSet pfx =
      allEntries (leafResults properties requiredSet pfx) :=
  schemaEntriesFuel_all _ _ _ _

/-- The recursion equation of `schemaEntriesFromObject`: the fuel of the embedding never runs
out. -/
theorem schemaEntriesFromObject_eq (properties : JsValue) (requiredSet : List JsValue)
    (pfx : Str) :
    schemaEntriesFromObject properties requiredSet pfx =
      pushAll ((entries (propertiesOrEmpty properties)).map fun kp =>
        if isNamespace kp.2 then
          schemaEntriesFromObject ((kp.2.get "properties".toList).getD null)
            (requiredSetOf (kp.2.get "required".toList)) (fullKeyOf pfx kp.1)
        else (leafEntry requiredSet kp.1 (fullKeyOf pfx kp.1) kp.2).map fun entry =>
          [entry]) := by
  rw [schemaEntriesFromObject_all, leafResults_eq, ← pushAll_map_allEntries]
  congr 1
  apply List.map_congr_left
  intro kp _
  by_cases hns : isNamespace kp.2 = true
  · simp only [hns, if_true]
    exact (schemaEntriesFromObject_all _ _ _).symm
  · simp only [hns, if_false]
    cases leafEntry requiredSet kp.1 (fullKeyOf pfx kp.1) kp.2 <;> rfl

theorem setHas_iff (requiredSet : List JsValue) (name : Str) :
    setHas requiredSet name = true ↔ JsValue.str name ∈ requiredSet := by
  unfold setHas
  rw [List.any_eq_true]
  constructor
  · rintro ⟨v, hv, h⟩
    cases v with
    | str s =>
      simp only [decide_eq_true_eq] at h
      rw [← h]; exact hv
    | null => simp at h
    | bool b => simp at h
    | num t => simp at h
    | arr xs => simp at h
    | obj fs => simp at h
  · intro h
    exact ⟨_, h, by simp⟩

theorem mem_requiredSetOf (v : Option JsValue) (x : JsValue) :
    x ∈ requiredSetOf v ↔ ∃ xs, v = some (JsValue.arr xs) ∧ x ∈ xs := by
  cases v with
  | none => simp [requiredSetOf]
  | some w =>
    cases w with
    | arr xs => simp [requiredSetOf]
    | null => simp [requiredSetOf]
    | bool b => simp [requiredSetOf]
    | num t => simp [requiredSetOf]
    | str s => simp [requiredSetOf]
    | obj fs => simp [requiredSetOf]

theorem parseSchemaEntries_eq (schema : JsValue) :
    parseSchemaEntries schema =
      match rootContainer schema with
      | some c =>
        schemaEntriesFromObject ((c.get "properties".toList).getD null)
          (requiredSetOf (c.get "required".toList)) []
      | none => some [] := by
  have hn : truthyOpt none = false := rfl
  have hb : ∀ f : JsValue → Option JsValue, (none : Option JsValue).bind f = none :=
    fun _ => rfl
  have hs : ∀ (x : JsValue) (f : JsValue → Option JsValue), (some x).bind f = f x :=
    fun _ _ => rfl
  cases schema with
  | null => rfl
  | bool b => rfl
  | num t => rfl
  | str s => rfl
  | arr xs => rfl
  | obj fs =>
    unfold parseSchemaEntries rootContainer
    simp only
    cases henv : ((JsValue.obj fs).get "properties".toList).bind fun p => p.get "env".toList with
    | none =>
      simp only [hb, hn, Bool.false_eq_true, if_false]
      by_cases h2 : truthyOpt ((JsValue.obj fs).get "properties".toList) = true
      · rw [if_pos h2, if_pos h2]
      · rw [if_neg h2, if_neg h2]
    | some env =>
      simp only [hs]
      by_cases h1 : truthyOpt (env.get "properties".toList) = true
      · simp only [h1, if_true]
      · by_cases h2 : truthyOpt ((JsValue.obj fs).get "properties".toList) = true
        · rw [if_neg h1, if_neg h1, if_pos h2, if_pos h2]
        · rw [if_neg h1, if_neg h1, if_neg h2, if_neg h2]

/-- Every result of the schema traversal below an object comes from a property that is not a
namespace, directly contained in an object reached through namespaces. -/
theorem schemaEntries_origin (n : Nat) :
    ∀ (c : JsValue) (pfx : Str) (r : Option Entry),
      depth ((c.get "properties".toList).getD null) ≤ n →
      r ∈ leafResults ((c.get "properties".toList).getD null)
        (requiredSetOf (c.get "required".toList)) pfx →
      ∃ container path name prop, Descends c path container ∧
        (name, prop) ∈ childrenOf container ∧ isNamespace prop = false ∧
        r = leafEntry (requiredSetOf (container.get "required".toList)) name
          (fullKeyOf (prefixAfter pfx path) name) prop := by
  induction n using Nat.strong_induction_on with
  | _ n ih =>
    intro c pfx r hn he
    rw [leafResults_eq, List.mem_flatMap] at he
    obtain ⟨kp, hkp, hmem⟩ := he
    by_cases hns : isNamespace kp.2 = true
    · rw [if_pos hns] at hmem
      have hd := entries_propertiesOrEmpty_depth _ kp.1 kp.2 hkp hns
      obtain ⟨container, path, name, prop, hdesc, hchild, hleaf, heq⟩ :=
        ih (depth ((kp.2.get "properties".toList).getD null)) (by omega) kp.2
          (fullKeyOf pfx kp.1) r (Nat.le_refl _) hmem
      exact ⟨container, kp.1 :: path, name, prop, Descends.into hkp hns hdesc, hchild, hleaf,
        heq⟩
    · rw [if_neg hns] at hmem
      refine ⟨c, [], kp.1, kp.2, Descends.here c, hkp, by simpa using hns, ?_⟩
      simpa using hmem

/-- Every property that is not a namespace and is reached through namespaces yields its
result. -/
theorem schemaEntries_complete (c container : JsValue) (path : List Str)
    (hdesc : Descends c path container) (pfx name : Str) (prop : JsValue)
    (hchild : (name, prop) ∈ childrenOf container) (hleaf : isNamespace prop = false) :
    leafEntry (requiredSetOf (container.get "required".toList)) name
        (fullKeyOf (prefixAfter pfx path) name) prop ∈
      leafResults ((c.get "properties".toList).getD null)
        (requiredSetOf (c.get "required".toList)) pfx := by
  induction hdesc generalizing pfx with
  | here c =>
    rw [leafResults_eq, List.mem_flatMap]
    refine ⟨(name, prop), hchild, ?_⟩
    simp only [hleaf, Bool.false_eq_true, if_false]
    exact List.mem_singleton.2 rfl
  | @into c2 n2 p2 path2 d2 hmem hns _ ih =>
    rw [leafResults_eq, List.mem_flatMap]
    refine ⟨(n2, p2), hmem, ?_⟩
    simp only [hns, if_true]
    exact ih (fullKeyOf pfx n2) hchild

/-! ### Keys of the structured-schema path -/

theorem fullKeyOf_of_ne_nil (pfx key : Str) (h : pfx ≠ []) :
    fullKeyOf pfx key = pfx ++ '_' :: key := by
  unfold fullKeyOf
  rw [if_pos h]

theorem join_cons_of_ne_nil (sep x : Str) (rest : List Str) (h : rest ≠ []) :
    join sep (x :: rest) = x ++ sep ++ join sep rest := by
  cases rest with
  | nil => exact absurd rfl h
  | cons y r => rfl

theorem fullKeyOf_prefixAfter (pfx : Str) (path : List Str) (name : Str) (h : pfx ≠ []) :
    fullKeyOf (prefixAfter pfx path) name = pfx ++ '_' :: join ['_'] (path ++ [name]) := by
  induction path generalizing pfx with
  | nil => exact fullKeyOf_of_ne_nil pfx name h
  | cons q qs ih =>
    have hq : fullKeyOf pfx q ≠ [] := by
      rw [fullKeyOf_of_ne_nil pfx q h]
      simp
    have h1 : prefixAfter pfx (q :: qs) = prefixAfter (fullKeyOf pfx q) qs := rfl
    rw [h1, ih _ hq, fullKeyOf_of_ne_nil pfx q h, List.cons_append,
      join_cons_of_ne_nil _ q (qs ++ [name]) (by simp)]
    simp only [List.append_assoc, List.cons_append, List.nil_append]

/-- Below the root, the key formed by the traversal is the underscore-joined path, unless the
path starts with an empty property name. -/
theorem fullKeyOf_root_path (path : List Str) (name : Str) (h : path.head? ≠ some []) :
    fullKeyOf (prefixAfter [] path) name = join ['_'] (path ++ [name]) := by
  cases path with
  | nil => rfl
  | cons p ps =>
    have hp : p ≠ [] := by
      intro hp
      exact h (by rw [hp]; rfl)
    have h1 : prefixAfter [] (p :: ps) = prefixAfter p ps := rfl
    rw [h1, fullKeyOf_prefixAfter p ps name hp, List.cons_append,
      join_cons_of_ne_nil _ p (ps ++ [name]) (by simp)]
    simp only [List.append_assoc, List.cons_append, List.nil_append]

/-- The key, description and required flag of the entry of a property, and its default. -/
theorem leafEntry_some (requiredSet : List JsValue) (name fullKey : Str) (prop : JsValue)
    (e : Entry) (h : leafEntry requiredSet name fullKey prop = some e) :
    e.key = toUpperCase fullKey ∧ e.required = setHas requiredSet name ∧
    (∀ d, prop.get "description".toList = some (JsValue.str d) → e.description = d) ∧
    ((∀ d, prop.get "description".toList ≠ some (JsValue.str d)) → e.description = []) ∧
    (∀ v, prop.get "default".toList = some v → toStr v = some e.defaultValue) ∧
    (prop.get "default".toList = none → e.defaultValue = []) := by
  unfold leafEntry at h
  cases hd : prop.get "default".toList with
  | none =>
    rw [hd] at h
    simp only [Option.map_some', Option.some.injEq] at h
    subst h
    refine ⟨rfl, rfl, ?_, ?_, fun v hv => by simp at hv, fun _ => rfl⟩
    · intro d hdesc
      simp only [hdesc]
    · intro hno
      cases hg : prop.get "description".toList with
      | none => rfl
      | some w =>
        cases w with
        | str d => exact absurd hg (hno d)
        | null => rfl
        | bool b => rfl
        | num t => rfl
        | arr xs => rfl
        | obj fs => rfl
  | some dv =>
    rw [hd] at h
    simp only at h
    cases hs : toStr dv with
    | none => rw [hs] at h; simp at h
    | some text =>
      rw [hs] at h
      simp only [Option.map_some', Option.some.injEq] at h
      subst h
      refine ⟨rfl, rfl, ?_, ?_, ?_, fun hv => by simp at hv⟩
      · intro d hdesc
        simp only [hdesc]
      · intro hno
        cases hg : prop.get "description".toList with
        | none => rfl
        | some w =>
          cases w with
          | str d => exact absurd hg (hno d)
          | null => rfl
          | bool b => rfl
          | num t => rfl
          | arr xs => rfl
          | obj fs => rfl
      · intro v hv
        simp only [Option.some.injEq] at hv
        rw [← hv, hs]

theorem leafEntry_none (requiredSet : List JsValue) (name fullKey : Str) (prop : JsValue) :
    leafEntry requiredSet name fullKey prop = none ↔
      ∃ d, prop.get "default".toList = some d ∧ toStr d = none := by
  unfold leafEntry
  cases hd : prop.get "default".toList with
  | none => simp
  | some dv =>
    cases hs : toStr dv with
    | none => simp [hs]
    | some text => simp [hs]

/-- When `parseSchemaEntries` returns, its entries are exactly the entries of the properties
that are not namespaces and are reached from the root through namespaces; the key of such an
entry is the upper-cased, underscore-joined path of property names unless the path starts
with an empty name. -/
theorem schemaEntries_are_leaves (schema : JsValue) (entryList : List Entry)
    (hparse : parseSchemaEntries schema = some entryList) (e : Entry) :
    e ∈ entryList ↔
      ∃ root container path name prop, rootContainer schema = some root ∧
        Descends root path container ∧ (name, prop) ∈ childrenOf container ∧
        isNamespace prop = false ∧
        leafEntry (requiredSetOf (container.get "required".toList)) name
          (fullKeyOf (prefixAfter [] path) name) prop = some e ∧
        (path.head? ≠ some [] → e.key = toUpperCase (join ['_'] (path ++ [name]))) := by
  rw [parseSchemaEntries_eq] at hparse
  cases hroot : rootContainer schema with
  | none =>
    rw [hroot] at hparse
    simp only [Option.some.injEq] at hparse
    rw [← hparse]
    simp
  | some root =>
    rw [hroot] at hparse
    simp only at hparse
    rw [schemaEntriesFromObject_all] at hparse
    rw [mem_of_allEntries _ _ hparse e]
    constructor
    · intro he
      obtain ⟨container, path, name, prop, hdesc, hchild, hleaf, heq⟩ :=
        schemaEntries_origin _ root [] (some e) (Nat.le_refl _) he
      refine ⟨root, container, path, name, prop, rfl, hdesc, hchild, hleaf, heq.symm, ?_⟩
      intro hpath
      rw [(leafEntry_some _ _ _ _ e heq.symm).1, fullKeyOf_root_path path name hpath]
    · rintro ⟨root2, container, path, name, prop, hroot2, hdesc, hchild, hleaf, heq, _⟩
      simp only [Option.some.injEq] at hroot2
      subst hroot2
      rw [← heq]
      exact schemaEntries_complete _ container path hdesc [] name prop hchild hleaf

/-- `parseSchemaEntries` throws exactly when a property that is not a namespace and is reached
from the root through namespaces declares a default whose conversion to a string throws. -/
theorem parseSchemaEntries_none (schema : JsValue) :
    parseSchemaEntries schema = none ↔
      ∃ root container path name prop d, rootContainer schema = some root ∧
        Descends root path container ∧ (name, prop) ∈ childrenOf container ∧
        isNamespace prop = false ∧ prop.get "default".toList = some d ∧ toStr d = none := by
  rw [parseSchemaEntries_eq]
  cases hroot : rootContainer schema with
  | none => simp
  | some root =>
    simp only
    rw [schemaEntriesFromObject_all, allEntries_none_iff]
    constructor
    · intro he
      obtain ⟨container, path, name, prop, hdesc, hchild, hleaf, heq⟩ :=
        schemaEntries_origin _ root [] none (Nat.le_refl _) he
      obtain ⟨d, hd, hs⟩ := (leafEntry_none _ _ _ _).1 heq.symm
      exact ⟨root, container, path, name, prop, d, rfl, hdesc, hchild, hleaf, hd, hs⟩
    · rintro ⟨root2, container, path, name, prop, d, hroot2, hdesc, hchild, hleaf, hd, hs⟩
      simp only [Option.some.injEq] at hroot2
      subst hroot2
      rw [← (leafEntry_none (requiredSetOf (container.get "required".toList)) name
        (fullKeyOf (prefixAfter [] path) name) prop).2 ⟨d, hd, hs⟩]
      exact schemaEntries_complete _ container path hdesc [] name prop hchild hleaf

/-- C10: every entry `parseSchemaEntries` emits is the entry of a property that is not a
namespace and sits directly in an object reached from the root through namespace
descriptors, and its required flag is true if and only if the `required` declaration of
that very object is an array listing the property's own name; the declarations of the
objects further out play no part. -/
theorem schema_required_is_local (schema : JsValue) (entryList : List Entry) (e : Entry)
    (hparse : parseSchemaEntries schema = some entryList) (he : e ∈ entryList) :
    ∃ root container path name prop, rootContainer schema = some root ∧
      Descends root path container ∧ (name, prop) ∈ childrenOf container ∧
      isNamespace prop = false ∧
      e.key = toUpperCase (fullKeyOf (prefixAfter [] path) name) ∧
      (e.required = true ↔
        ∃ xs, container.get "required".toList = some (JsValue.arr xs) ∧
          JsValue.str name ∈ xs) := by
  obtain ⟨root, container, path, name, prop, hroot, hdesc, hchild, hleaf, heq, _⟩ :=
    (schemaEntries_are_leaves schema entryList hparse e).1 he
  obtain ⟨hkey, hreq, _⟩ := leafEntry_some _ _ _ _ e heq
  refine ⟨root, container, path, name, prop, hroot, hdesc, hchild, hleaf, hkey, ?_⟩
  rw [hreq, setHas_iff, mem_requiredSetOf]

/-- C10, concrete check: in the sample schema the root requires `name` and `site` requires
`url`; the nested `url` is required, the nested `name` is not. -/
theorem schema_required_is_local_witness :
    parseSchemaEntries sampleNestedSchema =
      some [{ key := "SITE_URL".toList, description := [], defaultValue := "http://x".toList,
              required := true },
            { key := "SITE_NAME".toList, description := [], defaultValue := [],
              required := false }] ∧
    ∃ root container path name prop, rootContainer sampleNestedSchema = some root ∧
      Descends root path container ∧ (name, prop) ∈ childrenOf container ∧
      isNamespace prop = false ∧
      "SITE_NAME".toList = toUpperCase (fullKeyOf (prefixAfter [] path) name) ∧
      (false = true ↔
        ∃ xs, container.get "required".toList = some (JsValue.arr xs) ∧
          JsValue.str name ∈ xs) :=
  ⟨by decide,
    schema_required_is_local sampleNestedSchema
      [{ key := "SITE_URL".toList, description := [], defaultValue := "http://x".toList,
         required := true },
       { key := "SITE_NAME".toList, description := [], defaultValue := [],
         required := false }]
      { key := "SITE_NAME".toList, description := [], defaultValue := [], required := false }
      (by decide) (by decide)⟩

/-- C3, failing input: for a root namespace named by the empty string that contains `url`,
`parseSchemaEntries` emits the key `URL`, whereas the property names along the path, the
empty name and `url`, joined with an underscore and upper-cased give `_URL`. -/
theorem schema_key_drops_empty_segment :
    parseSchemaEntries sampleEmptyNameSchema =
      some [{ key := "URL".toList, description := [], defaultValue := [],
              required := false }] ∧
    toUpperCase (join ['_'] [[], "url".toList]) = "_URL".toList := by
  decide

/-- C6, failing input: `parseSchemaEntries` keeps both entries when two properties map to the
same key, for a nested path next to a sibling with the joined name and for two names that
differ only in letter case; the returned keys are not pairwise distinct. -/
theorem schema_keys_can_repeat :
    parseSchemaEntries sampleCollidingSchema =
      some [{ key := "SITE_URL".toList, description := [], defaultValue := [],
              required := false },
            { key := "SITE_URL".toList, description := [], defaultValue := "x".toList,
              required := false }] ∧
    ¬ (((parseSchemaEntries sampleCollidingSchema).getD []).map Entry.key).Nodup ∧
    parseSchemaEntries sampleCaseSchema =
      some [{ key := "PORT".toList, description := [], defaultValue := "1".toList,
              required := false },
            { key := "PORT".toList, description := [], defaultValue := "2".toList,
              required := false }] ∧
    ¬ (((parseSchemaEntries sampleCaseSchema).getD []).map Entry.key).Nodup := by
  decide

/-! ## Environment-file rendering and the round trip -/

theorem splitLines_of_no_lf (l : Str) (h : '\n' ∉ l) : splitLines l = [l] := by
  induction l with
  | nil => rfl
  | cons c cs ih =>
    have hc : c ≠ '\n' := fun hc => h (by rw [hc]; exact List.mem_cons_self _ _)
    have hcs : '\n' ∉ cs := fun hm => h (List.mem_cons_of_mem _ hm)
    have hhead : cs.head? ≠ some '\n' := by
      cases cs with
      | nil => simp
      | cons d ds =>
        simp only [List.head?_cons, ne_eq, Option.some.injEq]
        exact fun hd => hcs (by rw [hd]; exact List.mem_cons_self _ _)
    rw [splitLines, if_neg hc, if_neg (fun hh => hhead hh.2), ih hcs]

theorem splitLines_append_lf (l rest : Str) (h : '\n' ∉ l) :
    splitLines (l ++ '\n' :: rest) = dropCR l :: splitLines rest := by
  induction l with
  | nil => simp [splitLines, dropCR]
  | cons c cs ih =>
    have hc : c ≠ '\n' := fun hc => h (by rw [hc]; exact List.mem_cons_self _ _)
    have hcs : '\n' ∉ cs := fun hm => h (List.mem_cons_of_mem _ hm)
    rw [List.cons_append, splitLines, if_neg hc]
    cases cs with
    | nil =>
      by_cases hr : c = '\r'
      · simp [hr, splitLines, dropCR]
      · simp [hr, splitLines, dropCR]
    | cons d ds =>
      have hd : d ≠ '\n' := fun hd => hcs (by rw [hd]; exact List.mem_cons_self _ _)
      have hne : ¬ (c = '\r' ∧ ((d :: ds) ++ '\n' :: rest).head? = some '\n') := by
        simp [hd]
      rw [if_neg hne, ih hcs]
      simp only [dropCR, List.getLast?_cons_cons]
      by_cases hl : (d :: ds).getLast? = some '\r'
      · simp [hl]
      · simp [hl]

theorem join_cons_cons (sep x y : Str) (rest : List Str) :
    join sep (x :: y :: rest) = x ++ sep ++ join sep (y :: rest) := rfl

/-- Splitting lines that were joined with line feeds gives the lines back, a final carriage
return of a line before a line feed removed. -/
theorem splitLines_join (lines : List Str) (hne : lines ≠ [])
    (h : ∀ l ∈ lines, '\n' ∉ l) : splitLines (join ['\n'] lines) = chomp lines := by
  induction lines with
  | nil => exact absurd rfl hne
  | cons x rest ih =>
    cases rest with
    | nil => exact splitLines_of_no_lf x (h x (List.mem_cons_self _ _))
    | cons y rest2 =>
      rw [join_cons_cons, List.append_assoc, List.singleton_append,
        splitLines_append_lf x _ (h x (List.mem_cons_self _ _)),
        ih (by simp) (fun l hl => h l (List.mem_cons_of_mem _ hl))]
      rfl

theorem filterMap_chomp (lines : List Str)
    (h : ∀ l ∈ lines, assignmentOf (dropCR l) = assignmentOf l) :
    (chomp lines).filterMap assignmentOf = lines.filterMap assignmentOf := by
  induction lines with
  | nil => rfl
  | cons x rest ih =>
    cases rest with
    | nil => rfl
    | cons y rest2 =>
      rw [chomp, List.filterMap_cons, List.filterMap_cons (a := x),
        h x (List.mem_cons_self _ _), ih (fun l hl => h l (List.mem_cons_of_mem _ hl))]

theorem dquote_not_whiteSpace : isWhiteSpace dquote = false := by decide

theorem dquote_not_lineTerminator : isLineTerminator dquote = false := by decide

theorem backslash_not_lineTerminator : isLineTerminator backslash = false := by decide

theorem mem_escapeBackslashes (s : Str) (c : Char) (h : c ∈ escapeBackslashes s) :
    c ∈ s ∨ c = backslash := by
  unfold escapeBackslashes at h
  rw [List.mem_flatMap] at h
  obtain ⟨a, ha, hc⟩ := h
  by_cases hb : a = backslash
  · rw [if_pos hb] at hc
    right
    simpa using hc
  · rw [if_neg hb] at hc
    left
    rw [List.mem_singleton.1 hc]
    exact ha

theorem mem_escapeQuotes (s : Str) (c : Char) (h : c ∈ escapeQuotes s) :
    c ∈ s ∨ c = backslash ∨ c = dquote := by
  unfold escapeQuotes at h
  rw [List.mem_flatMap] at h
  obtain ⟨a, ha, hc⟩ := h
  by_cases hb : a = dquote
  · rw [if_pos hb] at hc
    right
    simpa using hc
  · rw [if_neg hb] at hc
    left
    rw [List.mem_singleton.1 hc]
    exact ha

/-- Escaping introduces no line terminator. -/
theorem escaped_no_lineTerminator (s : Str) (h : ∀ c ∈ s, isLineTerminator c = false) :
    ∀ c ∈ escapeQuotes (escapeBackslashes s), isLineTerminator c = false := by
  intro c hc
  rcases mem_escapeQuotes _ c hc with h1 | h1 | h1
  · rcases mem_escapeBackslashes _ c h1 with h2 | h2
    · exact h c h2
    · rw [h2]; exact backslash_not_lineTerminator
  · rw [h1]; exact backslash_not_lineTerminator
  · rw [h1]; exact dquote_not_lineTerminator

/-- A text without backslash and double quote is left as it is by the two replacements. -/
theorem escape_of_plain (s : Str) (h : ∀ c ∈ s, c ≠ backslash ∧ c ≠ dquote) :
    escapeQuotes (escapeBackslashes s) = s := by
  induction s with
  | nil => rfl
  | cons c cs ih =>
    have hc := h c (List.mem_cons_self _ _)
    have ih2 := ih (fun d hd => h d (List.mem_cons_of_mem _ hd))
    unfold escapeQuotes escapeBackslashes at *
    simp only [List.flatMap_cons, if_neg hc.1, List.singleton_append, if_neg hc.2]
    rw [ih2]

/-- The value between matching double quotes is returned verbatim. -/
theorem parseEnvValue_quoted (inner : Str) :
    parseEnvValue (dquote :: (inner ++ [dquote])) = inner := by
  have ht : trim (dquote :: (inner ++ [dquote])) = dquote :: (inner ++ [dquote]) :=
    trim_eq_self dquote inner dquote dquote_not_whiteSpace dquote_not_whiteSpace
  have h1 : (dquote :: (inner ++ [dquote])).getLast? = some dquote := by
    rw [← List.cons_append, List.getLast?_concat]
  unfold parseEnvValue
  simp only [ht]
  rw [if_pos ⟨Or.inl trivial, h1⟩]
  exact List.dropLast_concat

/-- The assignment pattern on a rendered line `KEY="..."`. -/
theorem matchAssignment_rendered (key inner : Str) (hne : key ≠ [])
    (hkey : ∀ c ∈ key, isKeyChar c = true)
    (hinner : ∀ c ∈ inner, isLineTerminator c = false) :
    matchAssignment (key ++ '=' :: (dquote :: (inner ++ [dquote]))) =
      some (key, dquote :: (inner ++ [dquote])) := by
  obtain ⟨k0, krest, hk⟩ := List.exists_cons_of_ne_nil hne
  have hk0 : isKeyChar k0 = true := hkey k0 (by rw [hk]; exact List.mem_cons_self _ _)
  have hws0 : isWhiteSpace k0 = false := isKeyChar_not_whiteSpace k0 hk0
  have heq : isKeyChar '=' = false := by decide
  have heqws : isWhiteSpace '=' = false := by decide
  have h1 : (key ++ '=' :: (dquote :: (inner ++ [dquote]))).dropWhile isWhiteSpace =
      key ++ '=' :: (dquote :: (inner ++ [dquote])) := by
    rw [hk, List.cons_append, List.dropWhile_cons_of_neg (by simp [hws0])]
  have h2 : (key ++ '=' :: (dquote :: (inner ++ [dquote]))).takeWhile isKeyChar = key := by
    rw [List.takeWhile_append_of_pos hkey, List.takeWhile_cons_of_neg (by simp [heq])]
    simp
  have h3 : (key ++ '=' :: (dquote :: (inner ++ [dquote]))).dropWhile isKeyChar =
      '=' :: (dquote :: (inner ++ [dquote])) := by
    rw [List.dropWhile_append_of_pos hkey, List.dropWhile_cons_of_neg (by simp [heq])]
  have h4 : ('=' :: (dquote :: (inner ++ [dquote]))).dropWhile isWhiteSpace =
      '=' :: (dquote :: (inner ++ [dquote])) := by
    rw [List.dropWhile_cons_of_neg (by simp [heqws])]
  have h5 : (dquote :: (inner ++ [dquote])).dropWhile isWhiteSpace =
      dquote :: (inner ++ [dquote]) := by
    rw [List.dropWhile_cons_of_neg (by simp [dquote_not_whiteSpace])]
  have hall : ∀ c ∈ dquote :: (inner ++ [dquote]), (!isLineTerminator c) = true := by
    intro c hc
    rcases List.mem_cons.1 hc with h | h
    · rw [h]; decide
    · rcases List.mem_append.1 h with h2 | h2
      · simp [hinner c h2]
      · rw [List.mem_singleton.1 h2]; decide
  have h6 : (dquote :: (inner ++ [dquote])).takeWhile (fun d => !isLineTerminator d) =
      dquote :: (inner ++ [dquote]) := List.takeWhile_eq_self_iff.2 hall
  have h7 : (dquote :: (inner ++ [dquote])).dropWhile (fun d => !isLineTerminator d) = [] :=
    List.dropWhile_eq_nil_iff.2 hall
  unfold matchAssignment
  simp only [h1, h2, h3, h4, h5, h6, h7]
  simp [hne]

theorem matchAssignment_hash (rest : Str) : matchAssignment ('#' :: rest) = none := by
  have hws : isWhiteSpace '#' = false := by decide
  have hk : isKeyChar '#' = false := by decide
  unfold matchAssignment
  simp only [List.dropWhile_cons_of_neg (show ¬ isWhiteSpace '#' = true by simp [hws]),
    List.takeWhile_cons_of_neg (show ¬ isKeyChar '#' = true by simp [hk]),
    List.dropWhile_cons_of_neg (show ¬ isKeyChar '#' = true by simp [hk])]
  simp

theorem matchAssignment_nil : matchAssignment [] = none := rfl

theorem entryLines_cons (values : ValueMap) (e : Entry) (rest : List Entry) :
    entryLines values (e :: rest) =
      (if e.description ≠ [] then ['#' :: ' ' :: e.description] else []) ++
        (assignmentLine values e :: [] :: entryLines values rest) := rfl

theorem join_append_singleton (sep : Str) (pre : List Str) (x : Str) (hne : pre ≠ []) :
    join sep (pre ++ [x]) = join sep pre ++ sep ++ x := by
  induction pre with
  | nil => exact absurd rfl hne
  | cons a rest ih =>
    cases rest with
    | nil => rfl
    | cons b rest2 =>
      rw [List.cons_append, List.cons_append, join_cons_cons, join_cons_cons,
        ← List.cons_append, ih (by simp)]
      simp only [List.append_assoc]

theorem join_endsSolid (sep : Str) (lines : List Str) (h : EndsSolid lines) :
    ∃ y d, join sep lines = y ++ [d] ∧ isWhiteSpace d = false := by
  obtain ⟨init, body, d, hl, hd⟩ := h
  by_cases hi : init = []
  · refine ⟨body, d, ?_, hd⟩
    rw [hl, hi]
    rfl
  · refine ⟨join sep init ++ sep ++ body, d, ?_, hd⟩
    rw [hl, join_append_singleton sep init _ hi]
    simp only [List.append_assoc]

/-- The final `trimEnd` of `formatEnvFile` removes exactly the line feed of the last blank
line, which the appended line feed puts back. -/
theorem trimEnd_join_blank (pre : List Str) (h : EndsSolid pre) :
    trimEnd (join ['\n'] (pre ++ [[]])) ++ ['\n'] = join ['\n'] (pre ++ [[]]) := by
  have hne : pre ≠ [] := by
    obtain ⟨init, body, d, hl, _⟩ := h
    rw [hl]
    simp
  obtain ⟨y, d, hy, hd⟩ := join_endsSolid ['\n'] pre h
  rw [join_append_singleton _ _ _ hne, hy, List.append_nil]
  unfold trimEnd
  rw [List.rdropWhile_concat_pos _ _ _ (by decide),
    List.rdropWhile_concat_neg _ _ _ (by simp [hd])]

theorem entryLines_endsSolid (values : ValueMap) (entryList : List Entry) (pre : List Str)
    (h : EndsSolid pre) :
    ∃ pre2, pre ++ [[]] ++ entryLines values entryList = pre2 ++ [[]] ∧ EndsSolid pre2 := by
  induction entryList generalizing pre with
  | nil => exact ⟨pre, by simp [entryLines], h⟩
  | cons e rest ih =>
    have hs : EndsSolid (pre ++ [[]] ++
        (if e.description ≠ [] then ['#' :: ' ' :: e.description] else []) ++
        [assignmentLine values e]) :=
      ⟨pre ++ [[]] ++ (if e.description ≠ [] then ['#' :: ' ' :: e.description] else []),
        e.key ++ '=' :: (dquote :: escapedValue values e), dquote,
        by simp [assignmentLine], dquote_not_whiteSpace⟩
    obtain ⟨pre2, hp, hs2⟩ := ih _ hs
    refine ⟨pre2, ?_, hs2⟩
    rw [← hp, entryLines_cons]
    simp only [List.append_assoc, List.singleton_append, List.cons_append, List.nil_append]

/-- The text `formatEnvFile` returns is its lines joined with line feeds. -/
theorem formatEnvFile_eq (entryList : List Entry) (values : ValueMap) :
    formatEnvFile entryList values =
      join ['\n'] (headerLines ++ entryLines values entryList) := by
  have hhead : EndsSolid ["# Generated by @alphasquad/create-saleor-storefront".toList,
      "# Edit values as needed for each tenant environment".toList] :=
    ⟨["# Generated by @alphasquad/create-saleor-storefront".toList],
      "# Edit values as needed for each tenant environmen".toList, 't', by decide, by decide⟩
  obtain ⟨pre2, hp, hs2⟩ := entryLines_endsSolid values entryList _ hhead
  have hl : headerLines ++ entryLines values entryList = pre2 ++ [[]] := by
    rw [← hp]
    rfl
  unfold formatEnvFile
  show trimEnd (join ['\n'] (headerLines ++ entryLines values entryList)) ++ ['\n'] = _
  rw [hl]
  exact trimEnd_join_blank pre2 hs2

theorem dropCR_hash (rest : Str) : ∃ rest2, dropCR ('#' :: rest) = '#' :: rest2 := by
  unfold dropCR
  cases rest with
  | nil => exact ⟨[], by simp⟩
  | cons c cs =>
    by_cases h : ('#' :: c :: cs).getLast? = some '\r'
    · rw [if_pos h]
      exact ⟨(c :: cs).dropLast, rfl⟩
    · rw [if_neg h]
      exact ⟨c :: cs, rfl⟩

theorem assignmentOf_hash (rest : Str) :
    assignmentOf (dropCR ('#' :: rest)) = assignmentOf ('#' :: rest) := by
  obtain ⟨rest2, h⟩ := dropCR_hash rest
  rw [h]
  simp [assignmentOf, matchAssignment_hash]

theorem dropCR_assignmentLine (values : ValueMap) (e : Entry) :
    dropCR (assignmentLine values e) = assignmentLine values e := by
  have h : (assignmentLine values e).getLast? = some dquote := by
    have : assignmentLine values e =
        (e.key ++ '=' :: (dquote :: escapedValue values e)) ++ [dquote] := by
      simp [assignmentLine]
    rw [this, List.getLast?_concat]
  unfold dropCR
  rw [h, if_neg (by decide)]

theorem assignmentOf_assignmentLine (values : ValueMap) (e : Entry) (hne : e.key ≠ [])
    (hkey : ∀ c ∈ e.key, isKeyChar c = true)
    (hval : ∀ c ∈ (values.lookup e.key).getD [], isLineTerminator c = false) :
    assignmentOf (assignmentLine values e) = some (e.key, escapedValue values e) := by
  have hm := matchAssignment_rendered e.key (escapedValue values e) hne hkey
    (escaped_no_lineTerminator _ hval)
  unfold assignmentOf assignmentLine
  rw [hm]
  simp [parseEnvValue_quoted]

theorem lf_not_mem_assignmentLine (values : ValueMap) (e : Entry)
    (hkey : ∀ c ∈ e.key, isKeyChar c = true)
    (hval : ∀ c ∈ (values.lookup e.key).getD [], isLineTerminator c = false) :
    '\n' ∉ assignmentLine values e := by
  intro h
  unfold assignmentLine at h
  rcases List.mem_append.1 h with h1 | h1
  · exact absurd (hkey _ h1) (by decide)
  · rcases List.mem_cons.1 h1 with h2 | h2
    · exact absurd h2 (by decide)
    · rcases List.mem_cons.1 h2 with h3 | h3
      · exact absurd h3 (by decide)
      · rcases List.mem_append.1 h3 with h4 | h4
        · exact absurd (escaped_no_lineTerminator _ hval _ h4) (by decide)
        · exact absurd (List.mem_singleton.1 h4) (by decide)

/-- Every rendered line is free of line feeds and is read the same with or without a final
carriage return; the assignments among the entry lines are those of the entries. -/
theorem entryLines_facts (values : ValueMap) (entryList : List Entry)
    (hvalid : ∀ e ∈ entryList, e.key ≠ [] ∧ ∀ c ∈ e.key, isKeyChar c = true)
    (hdesc : ∀ e ∈ entryList, '\n' ∉ e.description)
    (hvals : ∀ e ∈ entryList, ∀ c ∈ (values.lookup e.key).getD [],
      isLineTerminator c = false) :
    (∀ l ∈ entryLines values entryList,
      '\n' ∉ l ∧ assignmentOf (dropCR l) = assignmentOf l) ∧
    (entryLines values entryList).filterMap assignmentOf =
      entryList.map fun e => (e.key, escapedValue values e) := by
  induction entryList with
  | nil => simp [entryLines]
  | cons e rest ih =>
    obtain ⟨ih1, ih2⟩ := ih (fun x hx => hvalid x (List.mem_cons_of_mem _ hx))
      (fun x hx => hdesc x (List.mem_cons_of_mem _ hx))
      (fun x hx => hvals x (List.mem_cons_of_mem _ hx))
    obtain ⟨hne, hkey⟩ := hvalid e (List.mem_cons_self _ _)
    have hval := hvals e (List.mem_cons_self _ _)
    have hd := hdesc e (List.mem_cons_self _ _)
    have hassign := assignmentOf_assignmentLine values e hne hkey hval
    have hnil : assignmentOf [] = none := rfl
    rw [entryLines_cons]
    constructor
    · intro l hl
      rcases List.mem_append.1 hl with h1 | h1
      · by_cases hdne : e.description ≠ []
        · rw [if_pos hdne] at h1
          rw [List.mem_singleton.1 h1]
          refine ⟨?_, assignmentOf_hash _⟩
          intro hm
          rcases List.mem_cons.1 hm with h2 | h2
          · exact absurd h2 (by decide)
          · rcases List.mem_cons.1 h2 with h3 | h3
            · exact absurd h3 (by decide)
            · exact hd h3
        · rw [if_neg hdne] at h1
          simp at h1
      · rcases List.mem_cons.1 h1 with h2 | h2
        · rw [h2]
          exact ⟨lf_not_mem_assignmentLine values e hkey hval,
            by rw [dropCR_assignmentLine]⟩
        · rcases List.mem_cons.1 h2 with h3 | h3
          · rw [h3]
            exact ⟨by simp, rfl⟩
          · exact ih1 l h3
    · rw [List.filterMap_append, List.filterMap_cons, hassign, List.filterMap_cons, hnil, ih2]
      by_cases hdne : e.description ≠ []
      · rw [if_pos hdne]
        have hc : assignmentOf ('#' :: ' ' :: e.description) = none := by
          simp [assignmentOf, matchAssignment_hash]
        simp [hc]
      · rw [if_neg hdne]
        simp

/-- The keys and defaults read back from a rendered environment file. -/
theorem roundtrip_pairs (entryList : List Entry) (values : ValueMap)
    (hkeys : (entryList.map Entry.key).Nodup)
    (hvalid : ∀ e ∈ entryList, e.key ≠ [] ∧ ∀ c ∈ e.key, isKeyChar c = true)
    (hdesc : ∀ e ∈ entryList, '\n' ∉ e.description)
    (hvals : ∀ e ∈ entryList, ∀ c ∈ (values.lookup e.key).getD [],
      isLineTerminator c = false) :
    (parseEnvEntries (formatEnvFile entryList values)).map (fun e => (e.key, e.defaultValue)) =
      entryList.map fun e => (e.key, escapedValue values e) := by
  obtain ⟨hgood, hfm⟩ := entryLines_facts values entryList hvalid hdesc hvals
  have hall : ∀ l ∈ headerLines ++ entryLines values entryList,
      '\n' ∉ l ∧ assignmentOf (dropCR l) = assignmentOf l := by
    intro l hl
    rcases List.mem_append.1 hl with h1 | h1
    · have hh : ∀ x ∈ headerLines, '\n' ∉ x ∧ assignmentOf (dropCR x) = assignmentOf x := by
        decide
      exact hh l h1
    · exact hgood l h1
  have hhead : headerLines.filterMap assignmentOf = [] := by decide
  unfold parseEnvEntries
  rw [parseEnvLines_pairs, formatEnvFile_eq,
    splitLines_join _ (by simp [headerLines]) (fun l hl => (hall l hl).1),
    filterMap_chomp _ (fun l hl => (hall l hl).2), List.filterMap_append, hhead,
    List.nil_append, hfm]
  apply firstByKey_of_nodup
  · rw [List.map_map]
    exact hkeys
  · simp

/-- C2, counterexample: a value consisting of one double quote is rendered as `SMTP_PASS="\""`,
and the flat-text path reads back the two characters backslash and double quote, not the
value the map held.  Further, an entry whose key has a lowercase letter is not read back at
all, a value with a line feed is read back cut at the line feed together with a second
entry, and a description with a line feed can bring in an entry of its own. -/
theorem roundtrip_fails_on_quote :
    ((parseEnvEntries (formatEnvFile
        [{ key := "SMTP_PASS".toList, description := [], defaultValue := [], required := false }]
        [("SMTP_PASS".toList, [dquote])])).map (fun e => (e.key, e.defaultValue)) =
      [("SMTP_PASS".toList, [backslash, dquote])] ∧
    List.lookup "SMTP_PASS".toList [("SMTP_PASS".toList, [dquote])] = some [dquote] ∧
    [backslash, dquote] ≠ [dquote]) ∧
    (parseEnvEntries (formatEnvFile
        [{ key := "smtp_pass".toList, description := [], defaultValue := [], required := false }]
        [("smtp_pass".toList, "x".toList)])).map (fun e => (e.key, e.defaultValue)) = [] ∧
    (parseEnvEntries (formatEnvFile
        [{ key := "A".toList, description := [], defaultValue := [], required := false }]
        [("A".toList, "x\nB=1".toList)])).map (fun e => (e.key, e.defaultValue)) =
      [("A".toList, dquote :: "x".toList), ("B".toList, "1".toList ++ [dquote])] ∧
    (parseEnvEntries (formatEnvFile
        [{ key := "A".toList, description := "d\nX=1".toList, defaultValue := [],
           required := false }]
        [("A".toList, "x".toList)])).map (fun e => (e.key, e.defaultValue)) =
      [("X".toList, "1".toList), ("A".toList, "x".toList)] := by
  decide

/-- C2 (amended): for an entry list with pairwise distinct keys, each a non-empty string over
`[A-Z0-9_]`, whose descriptions contain no line feed, and a value map whose values for those
keys contain no line terminator (LF, CR, U+2028, U+2029), re-parsing the rendered file with
the flat-text path yields the same keys in the same order, and each default is the value of
the map for that key (the empty string when there is none) with every backslash doubled and
every double quote preceded by a backslash; it is the value itself when the values contain
neither character. -/
theorem roundtrip_recovers_escaped_values (entryList : List Entry) (values : ValueMap)
    (hkeys : (entryList.map Entry.key).Nodup)
    (hvalid : ∀ e ∈ entryList, e.key ≠ [] ∧ ∀ c ∈ e.key, isKeyChar c = true)
    (hdesc : ∀ e ∈ entryList, '\n' ∉ e.description)
    (hvals : ∀ e ∈ entryList, ∀ c ∈ (values.lookup e.key).getD [],
      isLineTerminator c = false) :
    (parseEnvEntries (formatEnvFile entryList values)).map (fun e => (e.key, e.defaultValue)) =
      entryList.map (fun e =>
        (e.key, escapeQuotes (escapeBackslashes ((values.lookup e.key).getD [])))) ∧
    ((∀ e ∈ entryList, ∀ c ∈ (values.lookup e.key).getD [], c ≠ backslash ∧ c ≠ dquote) →
      (parseEnvEntries (formatEnvFile entryList values)).map
          (fun e => (e.key, e.defaultValue)) =
        entryList.map (fun e => (e.key, (values.lookup e.key).getD []))) := by
  have h := roundtrip_pairs entryList values hkeys hvalid hdesc hvals
  refine ⟨h, ?_⟩
  intro hplain
  rw [h]
  apply List.map_congr_left
  intro e he
  simp only [escapedValue]
  rw [escape_of_plain _ (hplain e he)]

/-- C2 (amended), concrete check: a described entry and an entry whose value holds a backslash
and a double quote are read back with the second value escaped. -/
theorem roundtrip_recovers_escaped_values_witness :
    (parseEnvEntries (formatEnvFile sampleEntries sampleValues)).map
        (fun e => (e.key, e.defaultValue)) =
      [("NEXT_PUBLIC_API_URL".toList, "https://a/".toList),
       ("SMTP_PASS".toList, ['p', backslash, backslash, backslash, dquote, 'w'])] :=
  (roundtrip_recovers_escaped_values sampleEntries sampleValues (by decide) (by decide)
    (by decide) (by decide)).1

/-- C4, concrete check: in the document `A=1`, `# c`, `B = 'x'`, `A=2` the second assignment of
`A` is dropped and the entries keep the order of first occurrence. -/
theorem parseEnvEntries_first_assignment_witness :
    (parseEnvEntries sampleRepeatedDocument).map (fun e => (e.key, e.defaultValue)) =
      [("A".toList, "1".toList), ("B".toList, "x".toList)] ∧
    ((parseEnvEntries sampleRepeatedDocument).map Entry.key).Nodup :=
  ⟨by decide, (parseEnvEntries_first_assignment sampleRepeatedDocument).2.2.2.1⟩

/-! ## Scenario of the structured-schema path -/

/-- C11, counterexample: for the document as the scenario writes it `parseSchemaEntries` returns
no entry, because there is no top-level `properties`; iterating over the document itself
gives the entries `ENV` and `REQUIRED`; and under a top-level `properties` the descriptor
`site`, which has no `type`, is not entered and yields the entry `SITE`.  None of the three
results holds an entry with key `SITE_URL`. -/
theorem scenario_schema_as_written :
    parseSchemaEntries scenarioSchemaAsWritten = some [] ∧
    (schemaEntriesFromObject scenarioSchemaAsWritten [] []).map (List.map Entry.key) =
      some ["ENV".toList, "REQUIRED".toList] ∧
    parseSchemaEntries scenarioSchemaWrapped =
      some [{ key := "SITE".toList, description := [], defaultValue := [],
              required := false }] := by
  decide

/-- C11 (amended): with `env` placed under a top-level `properties` and `site` declared with
`type` `object`, required set `["url"]` and the property `url` of default `http://x`, the
structured-schema path yields exactly the entry with key `SITE_URL`, default `http://x` and
required `true`. -/
theorem scenario_schema_entry :
    parseSchemaEntries scenarioSchema =
      some [{ key := "SITE_URL".toList, description := [], defaultValue := "http://x".toList,
              required := true }] := by
  decide

/-! ## Default computer -/

/-- C12: for the key `NEXT_PUBLIC_TENANT_NAME` the computed default is the tenant slug, whatever
the declared default, the description, the required flag and the brand name are. -/
theorem tenant_key_resolves_to_slug (entry : Entry) (tenantSlug brandName : Str)
    (hkey : entry.key = "NEXT_PUBLIC_TENANT_NAME".toList) :
    computeDefaultValue entry tenantSlug brandName = tenantSlug := by
  unfold computeDefaultValue
  rw [if_pos hkey]

/-- C12, concrete check: a tenant entry with the placeholder default `tenant-slug`. -/
theorem tenant_key_resolves_to_slug_witness :
    computeDefaultValue
      { key := "NEXT_PUBLIC_TENANT_NAME".toList, description := "Tenant".toList,
        defaultValue := "tenant-slug".toList, required := false }
      "acme".toList "Acme".toList = "acme".toList :=
  tenant_key_resolves_to_slug _ _ _ rfl

/-- C13: for the key `NEXT_PUBLIC_BRAND_NAME` the computed default is the brand name when the
declared default is empty, `AutoParts Store` or `Saleor Storefront`, and the declared
default itself otherwise. -/
theorem brand_key_resolution (entry : Entry) (tenantSlug brandName : Str)
    (hkey : entry.key = "NEXT_PUBLIC_BRAND_NAME".toList) :
    ((entry.defaultValue = [] ∨ entry.defaultValue = "AutoParts Store".toList ∨
        entry.defaultValue = "Saleor Storefront".toList) →
      computeDefaultValue entry tenantSlug brandName = brandName) ∧
    (¬ (entry.defaultValue = [] ∨ entry.defaultValue = "AutoParts Store".toList ∨
        entry.defaultValue = "Saleor Storefront".toList) →
      computeDefaultValue entry tenantSlug brandName = entry.defaultValue) := by
  have h1 : ¬ entry.key = "NEXT_PUBLIC_TENANT_NAME".toList := by rw [hkey]; decide
  have h3 : ¬ entry.key = "NEXT_PUBLIC_SITE_URL".toList := by rw [hkey]; decide
  have h4 : ¬ entry.key = "NEXT_PUBLIC_STOREFRONT_URL".toList := by rw [hkey]; decide
  unfold computeDefaultValue
  constructor
  · intro h
    rw [if_neg h1, if_pos ⟨hkey, h⟩]
  · intro h
    rw [if_neg h1, if_neg (fun hh => h hh.2), if_neg h3, if_neg h4]

/-- C13, concrete check: the placeholder `AutoParts Store` is replaced by the brand name and a
declared default of its own is kept. -/
theorem brand_key_resolution_witness :
    computeDefaultValue
        { key := "NEXT_PUBLIC_BRAND_NAME".toList, description := [],
          defaultValue := "AutoParts Store".toList, required := false }
        "acme".toList "Acme".toList = "Acme".toList ∧
    computeDefaultValue
        { key := "NEXT_PUBLIC_BRAND_NAME".toList, description := [],
          defaultValue := "Parts Co".toList, required := false }
        "acme".toList "Acme".toList = "Parts Co".toList :=
  ⟨(brand_key_resolution _ _ _ rfl).1 (Or.inr (Or.inl rfl)),
    (brand_key_resolution
      { key := "NEXT_PUBLIC_BRAND_NAME".toList, description := [],
        defaultValue := "Parts Co".toList, required := false }
      "acme".toList "Acme".toList rfl).2 (by decide)⟩

/-- C14: for a key that is neither `NEXT_PUBLIC_TENANT_NAME` nor `NEXT_PUBLIC_BRAND_NAME` the
computed default is the declared default, except that `NEXT_PUBLIC_SITE_URL` and
`NEXT_PUBLIC_STOREFRONT_URL` with an empty declared default give `http://localhost:3000`;
and non-interactive resolution of a required `NEXT_PUBLIC_SITE_URL` entry with an empty
declared default and an empty external configuration returns the map with that value. -/
theorem other_keys_pass_default :
    (∀ (entry : Entry) (tenantSlug brandName : Str),
      entry.key ≠ "NEXT_PUBLIC_TENANT_NAME".toList →
      entry.key ≠ "NEXT_PUBLIC_BRAND_NAME".toList →
      computeDefaultValue entry tenantSlug brandName =
        if (entry.key = "NEXT_PUBLIC_SITE_URL".toList ∨
            entry.key = "NEXT_PUBLIC_STOREFRONT_URL".toList) ∧ entry.defaultValue = []
        then "http://localhost:3000".toList else entry.defaultValue) ∧
    (∀ (description tenantSlug brandName : Str) (answers : List Str),
      collectEnvValues true
          [{ key := "NEXT_PUBLIC_SITE_URL".toList, description := description,
             defaultValue := [], required := true }]
          [] tenantSlug brandName answers =
        .ok [("NEXT_PUBLIC_SITE_URL".toList, "http://localhost:3000".toList)]) := by
  constructor
  · intro entry tenantSlug brandName h1 h2
    unfold computeDefaultValue
    rw [if_neg h1, if_neg (fun hh => h2 hh.1)]
    by_cases h3 : entry.key = "NEXT_PUBLIC_SITE_URL".toList
    · rw [if_pos h3]
      by_cases hd : entry.defaultValue = []
      · rw [if_neg (fun hn => hn hd), if_pos ⟨Or.inl h3, hd⟩]
      · rw [if_pos hd, if_neg (fun hh => hd hh.2)]
    · rw [if_neg h3]
      by_cases h4 : entry.key = "NEXT_PUBLIC_STOREFRONT_URL".toList
      · rw [if_pos h4]
        by_cases hd : entry.defaultValue = []
        · rw [if_neg (fun hn => hn hd), if_pos ⟨Or.inr h4, hd⟩]
        · rw [if_pos hd, if_neg (fun hh => hd hh.2)]
      · rw [if_neg h4, if_neg]
        rintro ⟨h | h, _⟩
        · exact h3 h
        · exact h4 h
  · intro description tenantSlug brandName answers
    rfl

/-- C14, concrete check: the optional `NEXT_PUBLIC_LOGO_URL` keeps its declared default and a
`NEXT_PUBLIC_STOREFRONT_URL` without default gets the local-development address. -/
theorem other_keys_pass_default_witness :
    computeDefaultValue sampleLogoEntry "acme".toList "Acme".toList = "/Logo.png".toList ∧
    computeDefaultValue
        { key := "NEXT_PUBLIC_STOREFRONT_URL".toList, description := [], defaultValue := [],
          required := false }
        "acme".toList "Acme".toList = "http://localhost:3000".toList :=
  ⟨other_keys_pass_default.1 sampleLogoEntry "acme".toList "Acme".toList (by decide)
      (by decide),
    other_keys_pass_default.1
      { key := "NEXT_PUBLIC_STOREFRONT_URL".toList, description := [], defaultValue := [],
        required := false }
      "acme".toList "Acme".toList (by decide) (by decide)⟩

/-! ## Quoting -/

theorem escape_twice_eq_once (s : Str) : escapeQuotes (escapeBackslashes s) = escapeOnce s := by
  induction s with
  | nil => rfl
  | cons c cs ih =>
    have hcons : escapeQuotes (escapeBackslashes (c :: cs)) =
        escapeQuotes (if c = backslash then [backslash, backslash] else [c]) ++
          escapeQuotes (escapeBackslashes cs) := by
      unfold escapeQuotes escapeBackslashes
      rw [List.flatMap_cons, List.flatMap_append]
    have honce : escapeOnce (c :: cs) =
        (if c = backslash then [backslash, backslash]
          else if c = dquote then [backslash, dquote] else [c]) ++ escapeOnce cs := by
      unfold escapeOnce
      rw [List.flatMap_cons]
    rw [hcons, honce, ih]
    congr 1
    by_cases hb : c = backslash
    · rw [if_pos hb, if_pos hb]
      decide
    · rw [if_neg hb, if_neg hb]
      by_cases hq : c = dquote
      · rw [if_pos hq, hq]
        decide
      · rw [if_neg hq]
        unfold escapeQuotes
        simp [hq]

/-- C16: for every string `v`, `quoteEnvValue(v)` is a double quote, then `v` with every
backslash replaced by two backslashes, every double quote replaced by a backslash and a
double quote and every other character kept, in order, then a double quote: the two
successive replacements amount to one pass over `v`. -/
theorem quoteEnvValue_single_pass (v : Str) :
    quoteEnvValue v = dquote :: (escapeOnce v ++ [dquote]) ∧
    escapeOnce v = (v.map fun c =>
      if c = backslash then [backslash, backslash]
      else if c = dquote then [backslash, dquote]
      else [c]).flatten := by
  constructor
  · unfold quoteEnvValue
    simp only
    rw [escape_twice_eq_once]
    rfl
  · unfold escapeOnce
    rw [List.flatMap_def]

/-! ## Interactive answers -/

theorem trim_of_solid_ends (s : Str) (hne : s ≠ [])
    (hhead : ∀ c, s.head? = some c → isWhiteSpace c = false)
    (hlast : ∀ c, s.getLast? = some c → isWhiteSpace c = false) : trim s = s := by
  obtain ⟨c, rest, hs⟩ := List.exists_cons_of_ne_nil hne
  have hc : isWhiteSpace c = false := hhead c (by rw [hs]; rfl)
  unfold trim trimStart trimEnd
  have h1 : s.dropWhile isWhiteSpace = s := by
    rw [hs, List.dropWhile_cons_of_neg (by simp [hc])]
  rw [h1, List.rdropWhile_eq_self_iff]
  intro hl
  have := hlast (s.getLast hl) (List.getLast?_eq_getLast s hl)
  simp [this]

/-- C17, counterexample: the response ` x ` is stored as `x`, without its surrounding spaces, and
a response made of spaces only is not stored at all: the computed default is. -/
theorem interactive_answer_not_verbatim :
    collectEnvValues false [sampleLogoEntry] [] "acme".toList "Acme".toList [" x ".toList] =
      .ok [("NEXT_PUBLIC_LOGO_URL".toList, "x".toList)] ∧
    "x".toList ≠ " x ".toList ∧
    collectEnvValues false [sampleLogoEntry] [] "acme".toList "Acme".toList ["  ".toList] =
      .ok [("NEXT_PUBLIC_LOGO_URL".toList, "/Logo.png".toList)] := by
  decide

/-- C17 (amended): in interactive mode, for an entry without a value in the external
configuration and a response that is not made of white space only, the value stored for the
entry is the response with its surrounding white space trimmed, without any other change or
validation: the loop goes on with the next entry and the lines left.  The stored value is
the response as entered whenever the response neither starts nor ends with white space. -/
theorem interactive_answer_is_trimmed (cfg : List (Str × JsValue)) (slug brand : Str)
    (e : Entry) (answer : Str) (hcfg : cfg.lookup e.key = none) (hans : trim answer ≠ []) :
    (∀ rest values answers,
      collectLoop false cfg slug brand (e :: rest) values (answer :: answers) =
        collectLoop false cfg slug brand rest (setValue values e.key (trim answer)) answers) ∧
    (∀ answers, collectEnvValues false [e] cfg slug brand (answer :: answers) =
      .ok [(e.key, trim answer)]) ∧
    ((∀ c, answer.head? = some c → isWhiteSpace c = false) →
      (∀ c, answer.getLast? = some c → isWhiteSpace c = false) → trim answer = answer) := by
  have hstep : ∀ answers, resolveEntry false cfg slug brand e (answer :: answers) =
      .ok (trim answer, answers) := by
    intro answers
    simp [resolveEntry, hcfg, promptLoop, hans]
  refine ⟨?_, ?_, ?_⟩
  · intro rest values answers
    rw [collectLoop_cons, hstep]
  · intro answers
    unfold collectEnvValues
    rw [collectLoop_cons, hstep]
    rfl
  · intro hhead hlast
    have hne : answer ≠ [] := by
      intro h
      rw [h] at hans
      exact hans rfl
    exact trim_of_solid_ends answer hne hhead hlast

/-- C17 (amended), concrete check: the response `https://cdn/logo.png ` with a trailing space. -/
theorem interactive_answer_is_trimmed_witness :
    collectEnvValues false [sampleLogoEntry] [] "acme".toList "Acme".toList
        ["https://cdn/logo.png ".toList] =
      .ok [(sampleLogoEntry.key, trim "https://cdn/logo.png ".toList)] :=
  (interactive_answer_is_trimmed [] "acme".toList "Acme".toList sampleLogoEntry
    "https://cdn/logo.png ".toList rfl (by decide)).2.1 []

/-! ## Independence of the resolved values -/

theorem resolveEntry_yes_value (cfg : List (Str × JsValue)) (slug brand : Str) (e : Entry)
    (answers : List Str) (v : Str) (a : List Str)
    (h : resolveEntry true cfg slug brand e answers = .ok (v, a)) :
    resolvedValue cfg slug brand e = some v := by
  unfold resolvedValue
  cases hc : cfg.lookup e.key with
  | some w =>
    rw [resolveEntry_of_config true cfg slug brand e answers w hc] at h
    cases hs : sanitizeEnvValue (some w) with
    | none => rw [hs] at h; simp at h
    | some s =>
      rw [hs] at h
      simp only [Outcome.ok.injEq, Prod.mk.injEq] at h
      simp only
      rw [hs, h.1]
  | none =>
    unfold resolveEntry at h
    rw [hc] at h
    by_cases hh : e.required = true ∧ computeDefaultValue e slug brand = []
    · simp [hh] at h
    · simp only [if_true, hh, if_false, Outcome.ok.injEq, Prod.mk.injEq] at h
      simp only [Option.some.injEq]
      exact h.1

theorem computeDefaultValue_congr (e1 e2 : Entry) (slug brand : Str) (hkey : e1.key = e2.key)
    (hdef : e1.defaultValue = e2.defaultValue) :
    computeDefaultValue e1 slug brand = computeDefaultValue e2 slug brand := by
  unfold computeDefaultValue
  rw [hkey, hdef]

/-- In a successful non-interactive run over distinct keys every entry holds its resolved
value. -/
theorem collectEnvValues_yes_lookup (entryList : List Entry) (cfg : List (Str × JsValue))
    (slug brand : Str) (answers : List Str) (m : ValueMap)
    (hkeys : (entryList.map Entry.key).Nodup)
    (hm : collectEnvValues true entryList cfg slug brand answers = .ok m) (e : Entry)
    (he : e ∈ entryList) : m.lookup e.key = resolvedValue cfg slug brand e := by
  obtain ⟨a, ha⟩ := (collectEnvValues_ok_iff true entryList cfg slug brand answers m).1 hm
  obtain ⟨pre, post, hsplit⟩ := List.append_of_mem he
  subst hsplit
  have hpost : ∀ x ∈ post, x.key ≠ e.key := by
    intro x hx hkey
    rw [List.map_append, List.map_cons] at hkeys
    have h1 := (List.nodup_append.1 hkeys).2.1
    have h2 := (List.nodup_cons.1 h1).1
    exact h2 (hkey ▸ List.mem_map_of_mem Entry.key hx)
  obtain ⟨m1, a1, v, a2, _, hstep, hlook⟩ :=
    collectLoop_lookup_split true cfg slug brand pre e post hpost [] answers m a ha
  rw [hlook, resolveEntry_yes_value cfg slug brand e a1 v a2 hstep]

theorem collectLoop_yes_answers (cfg : List (Str × JsValue)) (slug brand : Str)
    (entryList : List Entry) (values : ValueMap) (answers : List Str) :
    collectLoop true cfg slug brand entryList values answers =
      match collectLoop true cfg slug brand entryList values [] with
      | .ok (m, _) => .ok (m, answers)
      | .error msg => .error msg
      | .awaitingInput => .awaitingInput := by
  induction entryList generalizing values with
  | nil => simp [collectLoop]
  | cons e rest ih =>
    rw [collectLoop, collectLoop]
    cases hc : cfg.lookup e.key with
    | some w =>
      simp only
      cases hs : sanitizeEnvValue (some w) with
      | none => rfl
      | some s => exact ih _
    | none =>
      simp only [if_true]
      by_cases hh : e.required = true ∧ computeDefaultValue e slug brand = []
      · rw [if_pos hh, if_pos hh]
      · rw [if_neg hh, if_neg hh]
        exact ih _

/-- C18: in non-interactive mode, for entry lists with pairwise distinct keys, the value a
successful run holds for an entry depends only on the entry's key and declared default, the
external configuration value of that key, the tenant slug and the brand name: two successful
runs that agree on these hold the same value under that key, whatever the other entries, the
other configuration values, the descriptions, the required flags and the input lines are.
The outcome of a run does not depend on the input lines at all. -/
theorem noninteractive_value_independent (slug brand : Str)
    (entries1 entries2 : List Entry) (cfg1 cfg2 : List (Str × JsValue))
    (answers1 answers2 : List Str) (m1 m2 : ValueMap) (e1 e2 : Entry)
    (hkeys1 : (entries1.map Entry.key).Nodup) (hkeys2 : (entries2.map Entry.key).Nodup)
    (hrun1 : collectEnvValues true entries1 cfg1 slug brand answers1 = .ok m1)
    (hrun2 : collectEnvValues true entries2 cfg2 slug brand answers2 = .ok m2)
    (he1 : e1 ∈ entries1) (he2 : e2 ∈ entries2) (hkey : e1.key = e2.key)
    (hdef : e1.defaultValue = e2.defaultValue)
    (hcfg : cfg1.lookup e1.key = cfg2.lookup e2.key) :
    m1.lookup e1.key = m2.lookup e2.key ∧
    (∃ v, m1.lookup e1.key = some v) ∧
    (∀ (entryList : List Entry) (cfg : List (Str × JsValue)) (answers answers' : List Str),
      collectEnvValues true entryList cfg slug brand answers =
        collectEnvValues true entryList cfg slug brand answers') := by
  have h1 := collectEnvValues_yes_lookup entries1 cfg1 slug brand answers1 m1 hkeys1 hrun1 e1 he1
  have h2 := collectEnvValues_yes_lookup entries2 cfg2 slug brand answers2 m2 hkeys2 hrun2 e2 he2
  have hsame : resolvedValue cfg1 slug brand e1 = resolvedValue cfg2 slug brand e2 := by
    unfold resolvedValue
    rw [hcfg, computeDefaultValue_congr e1 e2 slug brand hkey hdef]
  obtain ⟨a, ha⟩ := (collectEnvValues_ok_iff true entries1 cfg1 slug brand answers1 m1).1 hrun1
  have hsome : ∃ v, m1.lookup e1.key = some v := by
    obtain ⟨pre, post, hsplit⟩ := List.append_of_mem he1
    subst hsplit
    have hpost : ∀ x ∈ post, x.key ≠ e1.key := by
      intro x hx hk
      rw [List.map_append, List.map_cons] at hkeys1
      have k1 := (List.nodup_append.1 hkeys1).2.1
      have k2 := (List.nodup_cons.1 k1).1
      exact k2 (hk ▸ List.mem_map_of_mem Entry.key hx)
    obtain ⟨_, _, v, _, _, _, hlook⟩ :=
      collectLoop_lookup_split true cfg1 slug brand pre e1 post hpost [] answers1 m1 a ha
    exact ⟨v, hlook⟩
  refine ⟨?_, hsome, ?_⟩
  · rw [h1, h2, hsame]
  · intro entryList cfg answers answers'
    unfold collectEnvValues
    rw [collectLoop_yes_answers cfg slug brand entryList [] answers,
      collectLoop_yes_answers cfg slug brand entryList [] answers']
    cases collectLoop true cfg slug brand entryList [] [] with
    | ok p => rfl
    | error msg => rfl
    | awaitingInput => rfl

/-- C18, concrete check: the logo entry resolves to `/Logo.png` both alone and next to another
entry with a configuration value of its own. -/
theorem noninteractive_value_independent_witness :
    List.lookup sampleLogoEntry.key [("NEXT_PUBLIC_LOGO_URL".toList, "/Logo.png".toList)] =
      List.lookup sampleLogoEntry.key
        [("NEXT_PUBLIC_API_URL".toList, "https://b/".toList),
         ("NEXT_PUBLIC_LOGO_URL".toList, "/Logo.png".toList)] :=
  (noninteractive_value_independent "acme".toList "Acme".toList
    [sampleLogoEntry] [sampleApiEntry, sampleLogoEntry]
    [] [("NEXT_PUBLIC_API_URL".toList, JsValue.str "https://b/".toList)]
    [] ["unused".toList]
    [("NEXT_PUBLIC_LOGO_URL".toList, "/Logo.png".toList)]
    [("NEXT_PUBLIC_API_URL".toList, "https://b/".toList),
     ("NEXT_PUBLIC_LOGO_URL".toList, "/Logo.png".toList)]
    sampleLogoEntry sampleLogoEntry (by decide) (by decide) (by decide) (by decide)
    (by decide) (by decide) rfl rfl rfl).1

/-! ## Raw values of the flat-text path -/

/-- C20: `parseEnvValue` trims the raw text; when the trimmed text starts with a single or double
quote and ends with the same character, the characters between the two are returned as they
are, escapes included (for a trimmed text that is one quote character alone the result is
empty); in every other case, bare values and mismatched quotes included, the trimmed text is
returned unchanged. -/
theorem parseEnvValue_cases (raw : Str) :
    (∀ q inner, (q = dquote ∨ q = squote) → trim raw = q :: (inner ++ [q]) →
      parseEnvValue raw = inner) ∧
    (∀ q, (q = dquote ∨ q = squote) → trim raw = [q] → parseEnvValue raw = []) ∧
    ((¬ ∃ q, (q = dquote ∨ q = squote) ∧ (trim raw).head? = some q ∧
        (trim raw).getLast? = some q) →
      parseEnvValue raw = trim raw) := by
  refine ⟨?_, ?_, ?_⟩
  · intro q inner hq ht
    have hlast : (q :: (inner ++ [q])).getLast? = some q := by
      rw [← List.cons_append, List.getLast?_concat]
    unfold parseEnvValue
    simp only [ht]
    rw [if_pos ⟨hq, hlast⟩]
    exact List.dropLast_concat
  · intro q hq ht
    unfold parseEnvValue
    simp only [ht]
    rw [if_pos ⟨hq, rfl⟩]
    rfl
  · intro hno
    unfold parseEnvValue
    cases ht : trim raw with
    | nil => rfl
    | cons c rest =>
      simp only
      rw [if_neg]
      rintro ⟨hq, hlast⟩
      exact hno ⟨c, hq, by rw [ht]; rfl, by rw [ht]; exact hlast⟩

/-- C20, concrete check: a single-quoted value with surrounding spaces and a backslash escape
inside is returned without the quotes and with the escape untouched; a value with a double
quote in front and a single quote behind is returned trimmed only. -/
theorem parseEnvValue_cases_witness :
    parseEnvValue (' ' :: squote :: 'a' :: backslash :: dquote :: 'b' :: squote :: [' ']) =
      ['a', backslash, dquote, 'b'] ∧
    parseEnvValue (' ' :: dquote :: 'a' :: squote :: [' ']) = [dquote, 'a', squote] :=
  ⟨(parseEnvValue_cases
      (' ' :: squote :: 'a' :: backslash :: dquote :: 'b' :: squote :: [' '])).1 squote
      ['a', backslash, dquote, 'b'] (Or.inr rfl) (by decide),
    (parseEnvValue_cases (' ' :: dquote :: 'a' :: squote :: [' '])).2.2 (by
      rintro ⟨q, _, h1, h2⟩
      have e1 : trim (' ' :: dquote :: 'a' :: squote :: [' ']) = [dquote, 'a', squote] := by
        decide
      rw [e1] at h1 h2
      have a1 : dquote = q := by simpa using h1
      have a2 : squote = q := by simpa using h2
      exact absurd (a1.trans a2.symm) (by decide))⟩

/-! ## Template lookup -/

theorem resolveTemplate_some (value : Str) (h : toLowerCase (trim value) ≠ []) :
    resolveTemplate (some value) = resolveNormalized (toLowerCase (trim value)) := by
  have hne : value ≠ [] := by
    intro hv
    rw [hv] at h
    exact h rfl
  unfold resolveTemplate resolveNormalized
  simp only [hne, if_false]

set_option maxRecDepth 100000 in
theorem resolveNormalized_candidates :
    ∀ t ∈ templateList,
      ∀ n ∈ t.id :: toLowerCase t.npmPackage ::
          (toLowerCase t.repository).tails.filter (fun s => decide (s ≠ [])),
        resolveNormalized n = .template t := by
  decide

/-- C19: for each of the three descriptors `t` and every text `v` whose trimmed, lower-cased
form equals the identifier of `t`, equals the lower-cased package name of `t`, or is a
non-empty suffix of the lower-cased repository identifier of `t`, `resolveTemplate(v)`
returns `t`. -/
theorem resolveTemplate_finds (t : TemplateId) (v : Str)
    (h : toLowerCase (trim v) = t.id ∨ toLowerCase (trim v) = toLowerCase t.npmPackage ∨
      (toLowerCase (trim v) ≠ [] ∧ toLowerCase (trim v) <:+ toLowerCase t.repository)) :
    resolveTemplate (some v) = .template t := by
  have ht : t ∈ templateList := by cases t <;> decide
  have hid : t.id ≠ [] := by cases t <;> decide
  have hnpm : toLowerCase t.npmPackage ≠ [] := by cases t <;> decide
  have hmem : toLowerCase (trim v) ∈ t.id :: toLowerCase t.npmPackage ::
      (toLowerCase t.repository).tails.filter (fun s => decide (s ≠ [])) := by
    rcases h with h | h | ⟨h1, h2⟩
    · rw [h]
      exact List.mem_cons_self _ _
    · rw [h]
      exact List.mem_cons_of_mem _ (List.mem_cons_self _ _)
    · apply List.mem_cons_of_mem
      apply List.mem_cons_of_mem
      rw [List.mem_filter]
      exact ⟨(List.mem_tails _ _).2 h2, by simpa using h1⟩
  have hne : toLowerCase (trim v) ≠ [] := by
    rcases h with h | h | ⟨h1, _⟩
    · rw [h]; exact hid
    · rw [h]; exact hnpm
    · exact h1
  rw [resolveTemplate_some v hne]
  exact resolveNormalized_candidates t ht _ hmem

/-- C19, concrete check: the repository suffix ` Template-Standard ` in mixed case and with
surrounding spaces selects the standard descriptor. -/
theorem resolveTemplate_finds_witness :
    resolveTemplate (some " Template-Standard ".toList) = .template TemplateId.standard :=
  resolveTemplate_finds TemplateId.standard " Template-Standard ".toList
    (Or.inr (Or.inr ⟨by decide, by decide⟩))

/-! ## Layout of the environment file -/

theorem entryLines_eq_blocks (values : ValueMap) (e : Entry) (rest : List Entry) :
    entryLines values (e :: rest) =
      blocksSeparated ((e :: rest).map (entryBlock values)) ++ [[]] := by
  induction rest generalizing e with
  | nil =>
    rw [entryLines_cons]
    simp [entryLines, blocksSeparated, entryBlock, assignmentLine, escapedValue, quoteEnvValue]
  | cons e2 r ih =>
    rw [entryLines_cons, ih e2]
    simp [blocksSeparated, entryBlock, assignmentLine, escapedValue, quoteEnvValue]

theorem chomp_eq_self (lines : List Str) (h : ∀ l ∈ lines, dropCR l = l) :
    chomp lines = lines := by
  induction lines with
  | nil => rfl
  | cons x rest ih =>
    cases rest with
    | nil => rfl
    | cons y rest2 =>
      rw [chomp, h x (List.mem_cons_self _ _), ih (fun l hl => h l (List.mem_cons_of_mem _ hl))]

theorem dropCR_of_last (l : Str) (h : l.getLast? ≠ some '\r') : dropCR l = l := by
  unfold dropCR
  rw [if_neg h]

theorem escaped_no_break (s : Str) (c : Char) (hc : c ≠ backslash) (hq : c ≠ dquote)
    (h : c ∉ s) : c ∉ escapeQuotes (escapeBackslashes s) := by
  intro hm
  rcases mem_escapeQuotes _ c hm with h1 | h1 | h1
  · rcases mem_escapeBackslashes _ c h1 with h2 | h2
    · exact h h2
    · exact hc h2
  · exact hc h1
  · exact hq h1

/-- Without line breaks in keys, descriptions and values, no rendered entry line holds a line
feed or ends with a carriage return. -/
theorem entryLines_plain (values : ValueMap) (entryList : List Entry)
    (hkeys : ∀ e ∈ entryList, NoLineBreak e.key)
    (hdesc : ∀ e ∈ entryList, NoLineBreak e.description)
    (hvals : ∀ e ∈ entryList, NoLineBreak ((values.lookup e.key).getD [])) :
    ∀ l ∈ entryLines values entryList, '\n' ∉ l ∧ dropCR l = l := by
  induction entryList with
  | nil => simp [entryLines]
  | cons e rest ih =>
    have ih2 := ih (fun x hx => hkeys x (List.mem_cons_of_mem _ hx))
      (fun x hx => hdesc x (List.mem_cons_of_mem _ hx))
      (fun x hx => hvals x (List.mem_cons_of_mem _ hx))
    have hk := hkeys e (List.mem_cons_self _ _)
    have hd := hdesc e (List.mem_cons_self _ _)
    have hv := hvals e (List.mem_cons_self _ _)
    rw [entryLines_cons]
    intro l hl
    rcases List.mem_append.1 hl with h1 | h1
    · by_cases hdne : e.description ≠ []
      · rw [if_pos hdne] at h1
        rw [List.mem_singleton.1 h1]
        constructor
        · intro hm
          rcases List.mem_cons.1 hm with h2 | h2
          · exact absurd h2 (by decide)
          · rcases List.mem_cons.1 h2 with h3 | h3
            · exact absurd h3 (by decide)
            · exact hd.1 h3
        · apply dropCR_of_last
          intro hlast
          obtain ⟨c, cs, hcs⟩ := List.exists_cons_of_ne_nil hdne
          have h4 : ('#' :: ' ' :: e.description).getLast? = e.description.getLast? := by
            rw [hcs]
            rfl
          rw [h4] at hlast
          exact hd.2 (List.mem_of_getLast?_eq_some hlast)
      · rw [if_neg hdne] at h1
        simp at h1
    · rcases List.mem_cons.1 h1 with h2 | h2
      · rw [h2]
        refine ⟨?_, dropCR_assignmentLine values e⟩
        intro hm
        unfold assignmentLine at hm
        rcases List.mem_append.1 hm with h3 | h3
        · exact hk.1 h3
        · rcases List.mem_cons.1 h3 with h4 | h4
          · exact absurd h4 (by decide)
          · rcases List.mem_cons.1 h4 with h5 | h5
            · exact absurd h5 (by decide)
            · rcases List.mem_append.1 h5 with h6 | h6
              · exact escaped_no_break _ '\n' (by decide) (by decide) hv.1 h6
              · exact absurd (List.mem_singleton.1 h6) (by decide)
      · rcases List.mem_cons.1 h2 with h3 | h3
        · rw [h3]
          exact ⟨by simp, rfl⟩
        · exact ih2 l h3

/-- For the empty entry list, which `main` never passes on, `formatEnvFile` returns the two
header lines and the final line feed only: the blank line after the header, which would give
a text ending in two line feeds, is trimmed away. -/
theorem header_blank_line_missing_without_entries :
    formatEnvFile [] [] =
      "# Generated by @alphasquad/create-saleor-storefront\n# Edit values as needed for each tenant environment\n".toList ∧
    formatEnvFile [] [] ≠ join ['\n'] headerLines ++ ['\n'] ∧
    splitLines (formatEnvFile [] []) =
      ["# Generated by @alphasquad/create-saleor-storefront".toList,
       "# Edit values as needed for each tenant environment".toList, []] := by
  decide

/-- C15: for an entry list as `main` passes it to `formatEnvFile`, not empty and with keys
that hold no letter `a`-`z`, and for every value map, `formatEnvFile` returns, joined by line
feeds and ended by one line feed, the two header lines, a blank line, and then for each entry
in order the line `# <description>` exactly when the description is not empty followed by
the line `KEY=<quoted value>` (the quoted empty string when the map holds no value for the
key), with one blank line between consecutive entries; when keys, descriptions and values
hold no line break these are exactly the lines of the text; and the text ends with exactly
one line feed. -/
theorem formatEnvFile_layout (values : ValueMap) (entryList : List Entry)
    (hne : entryList ≠ []) (_hnames : ∀ x ∈ entryList, NoLowercase x.key) :
    formatEnvFile entryList values =
      join ['\n'] (headerLines ++ blocksSeparated (entryList.map (entryBlock values))) ++
        ['\n'] ∧
    ((∀ x ∈ entryList, NoLineBreak x.key ∧ NoLineBreak x.description ∧
        NoLineBreak ((values.lookup x.key).getD [])) →
      splitLines (formatEnvFile entryList values) =
        headerLines ++ blocksSeparated (entryList.map (entryBlock values)) ++ [[]]) ∧
    (∃ body c, formatEnvFile entryList values = body ++ [c, '\n'] ∧ c ≠ '\n') := by
  obtain ⟨e, rest, hcons⟩ := List.exists_cons_of_ne_nil hne
  subst hcons
  have hlines : headerLines ++ entryLines values (e :: rest) =
      (headerLines ++ blocksSeparated ((e :: rest).map (entryBlock values))) ++ [[]] := by
    rw [entryLines_eq_blocks, List.append_assoc]
  refine ⟨?_, ?_, ?_⟩
  · rw [formatEnvFile_eq, hlines, join_append_singleton _ _ _ (by simp [headerLines])]
    simp
  · intro hplain
    have hall : ∀ l ∈ headerLines ++ entryLines values (e :: rest),
        '\n' ∉ l ∧ dropCR l = l := by
      intro l hl
      rcases List.mem_append.1 hl with h1 | h1
      · have hh : ∀ x ∈ headerLines, '\n' ∉ x ∧ dropCR x = x := by decide
        exact hh l h1
      · exact entryLines_plain values (e :: rest) (fun x hx => (hplain x hx).1)
          (fun x hx => (hplain x hx).2.1) (fun x hx => (hplain x hx).2.2) l h1
    rw [formatEnvFile_eq, splitLines_join _ (by simp [headerLines]) (fun l hl => (hall l hl).1),
      chomp_eq_self _ (fun l hl => (hall l hl).2), hlines]
  · have hhead : EndsSolid ["# Generated by @alphasquad/create-saleor-storefront".toList,
        "# Edit values as needed for each tenant environment".toList] :=
      ⟨["# Generated by @alphasquad/create-saleor-storefront".toList],
        "# Edit values as needed for each tenant environmen".toList, 't', by decide, by decide⟩
    obtain ⟨pre2, hp, hs2⟩ := entryLines_endsSolid values (e :: rest) _ hhead
    have hl : headerLines ++ entryLines values (e :: rest) = pre2 ++ [[]] := by
      rw [← hp]
      rfl
    have hne2 : pre2 ≠ [] := by
      obtain ⟨init, body, d, hpre, _⟩ := hs2
      rw [hpre]
      simp
    obtain ⟨y, d, hy, hd⟩ := join_endsSolid ['\n'] pre2 hs2
    refine ⟨y, d, ?_, ?_⟩
    · rw [formatEnvFile_eq, hl, join_append_singleton _ _ _ hne2, hy]
      simp
    · intro hdn
      rw [hdn] at hd
      exact absurd hd (by decide)

/-- C15, concrete check: the lines of the file rendered for the two sample entries. -/
theorem formatEnvFile_layout_witness :
    splitLines (formatEnvFile sampleEntries sampleValues) =
      headerLines ++ blocksSeparated (sampleEntries.map (entryBlock sampleValues)) ++ [[]] :=
  (formatEnvFile_layout sampleValues sampleEntries (by decide) (by decide)).2.1 (by
    intro x hx
    have hall : ∀ y ∈ sampleEntries,
        ('\n' ∉ y.key ∧ '\r' ∉ y.key) ∧ ('\n' ∉ y.description ∧ '\r' ∉ y.description) ∧
          ('\n' ∉ (sampleValues.lookup y.key).getD [] ∧
            '\r' ∉ (sampleValues.lookup y.key).getD []) := by decide
    exact hall x hx)

/-! ## Keys of the resolved value map -/

theorem mem_keys_setValue (m : ValueMap) (key value k : Str) :
    k ∈ (setValue m key value).map Prod.fst ↔ k ∈ m.map Prod.fst ∨ k = key := by
  induction m with
  | nil => simp [setValue]
  | cons p rest ih =>
    obtain ⟨k1, v1⟩ := p
    by_cases h : k1 = key
    · subst h
      simp only [setValue, if_true, List.map_cons, List.mem_cons]
      tauto
    · simp only [setValue, if_neg h, List.map_cons, List.mem_cons, ih]
      tauto

theorem lookup_some_iff_mem_keys (m : ValueMap) (k : Str) :
    (∃ v, m.lookup k = some v) ↔ k ∈ m.map Prod.fst := by
  induction m with
  | nil => simp
  | cons p rest ih =>
    obtain ⟨k1, v1⟩ := p
    rw [List.lookup_cons]
    by_cases hk : k = k1
    · subst hk
      simp
    · have hb : (k == k1) = false := by simpa using hk
      rw [hb, List.map_cons, List.mem_cons]
      simp only [hk, false_or]
      exact ih

theorem collectLoop_keys (yes : Bool) (cfg : List (Str × JsValue)) (slug brand : Str)
    (entryList : List Entry) (values : ValueMap) (answers : List Str) (m : ValueMap)
    (a : List Str) (h : collectLoop yes cfg slug brand entryList values answers = .ok (m, a)) :
    ∀ k, k ∈ m.map Prod.fst ↔ k ∈ values.map Prod.fst ∨ k ∈ entryList.map Entry.key := by
  induction entryList generalizing values answers with
  | nil =>
    simp only [collectLoop, Outcome.ok.injEq, Prod.mk.injEq] at h
    intro k
    rw [h.1]
    simp
  | cons e rest ih =>
    rw [collectLoop_cons] at h
    cases hr : resolveEntry yes cfg slug brand e answers with
    | ok p =>
      obtain ⟨v, a2⟩ := p
      rw [hr] at h
      intro k
      rw [ih _ _ h, mem_keys_setValue, List.map_cons, List.mem_cons]
      tauto
    | error msg => rw [hr] at h; simp at h
    | awaitingInput => rw [hr] at h; simp at h

/-- C26: whenever `collectEnvValues` returns a value map, in either mode, for an entry list as
the normalisers produce it, with keys that hold no letter `a`-`z`, the keys of the map are
exactly the keys of the entry list: every entry has a value under its key, every key of the
map is the key of an entry, and a key that only the external configuration names is not in
the map. -/
theorem value_map_keys (yes : Bool) (entryList : List Entry) (cfg : List (Str × JsValue))
    (slug brand : Str) (answers : List Str) (m : ValueMap)
    (_hnames : ∀ e ∈ entryList, NoLowercase e.key)
    (hm : collectEnvValues yes entryList cfg slug brand answers = .ok m) :
    (∀ k, k ∈ m.map Prod.fst ↔ k ∈ entryList.map Entry.key) ∧
    (∀ e ∈ entryList, ∃ v, m.lookup e.key = some v) ∧
    (∀ k, k ∉ entryList.map Entry.key → m.lookup k = none) := by
  obtain ⟨a, ha⟩ := (collectEnvValues_ok_iff yes entryList cfg slug brand answers m).1 hm
  have hkeys : ∀ k, k ∈ m.map Prod.fst ↔ k ∈ entryList.map Entry.key := by
    intro k
    rw [collectLoop_keys yes cfg slug brand entryList [] answers m a ha k]
    simp
  have hlook := lookup_some_iff_mem_keys m
  refine ⟨hkeys, ?_, ?_⟩
  · intro e he
    exact (hlook e.key).2 ((hkeys e.key).2 (List.mem_map_of_mem Entry.key he))
  · intro k hk
    cases hl : m.lookup k with
    | none => rfl
    | some v => exact absurd ((hkeys k).1 ((hlook k).1 ⟨v, hl⟩)) hk

/-- C26, concrete check: a configuration that also names `EXTRA` leaves no such key in the map
returned for the logo entry. -/
theorem value_map_keys_witness :
    List.lookup "EXTRA".toList [("NEXT_PUBLIC_LOGO_URL".toList, "/Logo.png".toList)] = none :=
  (value_map_keys true [sampleLogoEntry] [("EXTRA".toList, JsValue.str "1".toList)]
    "acme".toList "Acme".toList [] [("NEXT_PUBLIC_LOGO_URL".toList, "/Logo.png".toList)]
    (by decide) (by decide)).2.2 "EXTRA".toList (by decide)

/-! ## Shape of the keys -/

theorem toUpper_not_lower (c : Char) :
    ¬ (97 ≤ (Char.toUpper c).toNat ∧ (Char.toUpper c).toNat ≤ 122) := by
  unfold Char.toUpper
  simp only
  by_cases h : c.toNat ≥ 97 ∧ c.toNat ≤ 122
  · rw [if_pos h]
    obtain ⟨h1, h2⟩ := h
    generalize c.toNat = n at h1 h2
    interval_cases n <;> decide
  · rw [if_neg h]
    exact h

/-- C21, failing input: for the property `site-url` the structured-schema path emits the key
`SITE-URL`, which holds a hyphen, and for the property with the empty name the empty key.
The line `formatEnvFile` renders for the first one is not an assignment line for the pattern
of the flat-text path, so the entry is lost when the written file is read back. -/
theorem schema_keys_not_canonical :
    (parseSchemaEntries sampleOddSchema).map (List.map Entry.key) =
      some ["SITE-URL".toList, [], "DEBUG".toList, "RETRIES".toList, "MOTD".toList,
        "EXTRA".toList] ∧
    isKeyChar '-' = false ∧
    matchAssignment ("SITE-URL=".toList ++ [dquote, 'x', dquote]) = none ∧
    parseEnvEntries (formatEnvFile
      [{ key := "SITE-URL".toList, description := [], defaultValue := [], required := false }]
      [("SITE-URL".toList, "x".toList)]) = [] := by
  decide

/-- Every entry produced from a flat document has a non-empty key made of uppercase letters,
digits and underscores only; every entry produced from a structured schema has a key
without any letter `a`-`z`. -/
theorem normalizer_key_shape :
    (∀ (envText : Str) (e : Entry), e ∈ parseEnvEntries envText →
      e.key ≠ [] ∧ ∀ c ∈ e.key, isKeyChar c = true) ∧
    (∀ (schema : JsValue) (entryList : List Entry) (e : Entry),
      parseSchemaEntries schema = some entryList → e ∈ entryList → NoLowercase e.key) := by
  constructor
  · intro envText e he
    obtain ⟨pre, line, post, raw, _, hm, _⟩ :=
      parseEnvLines_origin (splitLines envText) [] [] e he
    obtain ⟨_, _, _, _, _, _, _, _, _, hne, hkey, _⟩ := matchAssignment_shape line e.key raw hm
    exact ⟨hne, hkey⟩
  · intro schema entryList e hparse he c hc
    obtain ⟨root, container, path, name, prop, _, _, _, _, heq, _⟩ :=
      (schemaEntries_are_leaves schema entryList hparse e).1 he
    rw [(leafEntry_some _ _ _ _ e heq).1] at hc
    simp only [toUpperCase, List.mem_map] at hc
    obtain ⟨d, _, hd⟩ := hc
    rw [← hd]
    exact toUpper_not_lower d

/-! ## Description and default of schema entries -/

/-- Every property that is not a namespace and is reached from the root through namespaces has
its entry in the list `parseSchemaEntries` returns. -/
theorem schemaEntries_leaf_emitted (schema : JsValue) (entryList : List Entry)
    (hparse : parseSchemaEntries schema = some entryList) (root container : JsValue)
    (path : List Str) (name : Str) (prop : JsValue) (hroot : rootContainer schema = some root)
    (hdesc : Descends root path container) (hchild : (name, prop) ∈ childrenOf container)
    (hleaf : isNamespace prop = false) :
    ∃ e ∈ entryList, leafEntry (requiredSetOf (container.get "required".toList)) name
      (fullKeyOf (prefixAfter [] path) name) prop = some e := by
  rw [parseSchemaEntries_eq, hroot] at hparse
  simp only at hparse
  rw [schemaEntriesFromObject_all] at hparse
  have hm := schemaEntries_complete root container path hdesc [] name prop hchild hleaf
  rw [(allEntries_some_iff _ _).1 hparse] at hm
  obtain ⟨e, he, heq⟩ := List.mem_map.1 hm
  exact ⟨e, he, heq.symm⟩

/-- C23, counterexample: the only property of the sample schema is not a namespace and
declares a default, an object with an own property `toString`; the conversion of that
default throws, so `parseSchemaEntries` throws and no entry is emitted for the property. -/
theorem schema_default_conversion_throws :
    parseSchemaEntries sampleOpaqueSchema = none ∧
    isNamespace (obj [("default".toList, sampleOpaqueValue)]) = false ∧
    toStr sampleOpaqueValue = none := by
  decide

/-- C23 (amended): whenever `parseSchemaEntries` returns, every property of the schema that is
not a namespace and is reached from the root through namespaces has its entry among the
emitted ones, and every emitted entry comes from such a property `prop`; the description of
the entry is the `description` of `prop` when that is a string and empty otherwise, and the
default is the string form of the `default` of `prop` when one is declared and empty
otherwise.  `parseSchemaEntries` throws exactly when such a property declares a default whose
conversion to a string throws.  The string form of `null` is `null`, of a boolean `true` or
`false`, of a number its decimal text, of a string the string itself (`false`, `0` and the
empty string give `false`, `0` and the empty string), of an object without an own property
`toString` it is `[object Object]`, and of an array the string forms of its elements joined
by commas, with `null` elements rendered empty; the conversion throws for an object with
an own property `toString` and for an array with an element whose conversion throws. -/
theorem schema_description_and_default (schema : JsValue) :
    (∀ entryList, parseSchemaEntries schema = some entryList →
      (∀ root container path name prop, rootContainer schema = some root →
        Descends root path container → (name, prop) ∈ childrenOf container →
        isNamespace prop = false →
        ∃ e ∈ entryList,
          e.key = toUpperCase (fullKeyOf (prefixAfter [] path) name) ∧
          (∀ d, prop.get "description".toList = some (JsValue.str d) → e.description = d) ∧
          ((∀ d, prop.get "description".toList ≠ some (JsValue.str d)) →
            e.description = []) ∧
          (∀ v, prop.get "default".toList = some v → toStr v = some e.defaultValue) ∧
          (prop.get "default".toList = none → e.defaultValue = [])) ∧
      (∀ e ∈ entryList,
        ∃ root container path name prop, rootContainer schema = some root ∧
          Descends root path container ∧ (name, prop) ∈ childrenOf container ∧
          isNamespace prop = false ∧
          (∀ d, prop.get "description".toList = some (JsValue.str d) → e.description = d) ∧
          ((∀ d, prop.get "description".toList ≠ some (JsValue.str d)) →
            e.description = []) ∧
          (∀ v, prop.get "default".toList = some v → toStr v = some e.defaultValue) ∧
          (prop.get "default".toList = none → e.defaultValue = []))) ∧
    (parseSchemaEntries schema = none ↔
      ∃ root container path name prop d, rootContainer schema = some root ∧
        Descends root path container ∧ (name, prop) ∈ childrenOf container ∧
        isNamespace prop = false ∧ prop.get "default".toList = some d ∧ toStr d = none) ∧
    (toStr null = some "null".toList ∧ toStr (bool true) = some "true".toList ∧
      toStr (bool false) = some "false".toList ∧ (∀ t, toStr (num t) = some t) ∧
      (∀ s, toStr (str s) = some s) ∧
      (∀ fields : List (Str × JsValue), (fields.lookup "toString".toList).isSome = true →
        toStr (obj fields) = none) ∧
      (∀ fields : List (Str × JsValue), (fields.lookup "toString".toList).isSome = false →
        toStr (obj fields) = some "[object Object]".toList) ∧
      (∀ xs, toStr (arr xs) =
        (allOrNone (xs.map fun x => sanitizeEnvValue (some x))).map (join [',']))) := by
  refine ⟨?_, parseSchemaEntries_none schema, toStr_cases⟩
  intro entryList hparse
  constructor
  · intro root container path name prop hroot hdesc hchild hns
    obtain ⟨e, he, heq⟩ := schemaEntries_leaf_emitted schema entryList hparse root container
      path name prop hroot hdesc hchild hns
    obtain ⟨hkey, _, h1, h2, h3, h4⟩ := leafEntry_some _ _ _ _ e heq
    exact ⟨e, he, hkey, h1, h2, h3, h4⟩
  · intro e he
    obtain ⟨root, container, path, name, prop, hroot, hdesc, hchild, hns, heq, _⟩ :=
      (schemaEntries_are_leaves schema entryList hparse e).1 he
    obtain ⟨_, _, h1, h2, h3, h4⟩ := leafEntry_some _ _ _ _ e heq
    exact ⟨root, container, path, name, prop, hroot, hdesc, hchild, hns, h1, h2, h3, h4⟩

/-- C23 (amended), concrete check: the defaults `false`, `0`, the empty string and `null` of
the sample schema are rendered as `false`, `0`, the empty string and `null`; a description
that is a number is ignored. -/
theorem schema_description_and_default_witness :
    (parseSchemaEntries sampleOddSchema).map
        (List.map fun e => (e.description, e.defaultValue)) =
      some [("Site".toList, []), ([], []), ([], "false".toList), ([], "0".toList), ([], []),
        ([], "null".toList)] ∧
    toStr JsValue.null = some "null".toList :=
  ⟨by decide, (schema_description_and_default sampleOddSchema).2.2.1⟩

/-! ## Inherited names in the template lookup -/

/-- C24, failing input: for `constructor` and `__proto__`, also in other letter case and with
surrounding spaces, `resolveTemplate` returns what the registry object inherits under that
name, which is neither `null` nor one of the three descriptors. -/
theorem resolveTemplate_returns_inherited :
    resolveTemplate (some "constructor".toList) = .inherited "constructor".toList ∧
    resolveTemplate (some "__proto__".toList) = .inherited "__proto__".toList ∧
    resolveTemplate (some " Constructor ".toList) = .inherited "constructor".toList ∧
    Resolved.inherited "constructor".toList ≠ .null ∧
    (∀ t : TemplateId, Resolved.inherited "constructor".toList ≠ .template t) := by
  refine ⟨by decide, by decide, by decide, by decide, ?_⟩
  intro t
  cases t <;> decide

/-! ## Round trip for plain values -/

/-- C28, counterexample: the empty key is made of characters of `[A-Z0-9_]` only, and the line
rendered for it is not read back. -/
theorem roundtrip_drops_empty_key :
    (parseEnvEntries (formatEnvFile
        [{ key := [], description := [], defaultValue := [], required := false }]
        [([], "x".toList)])).map (fun e => (e.key, e.defaultValue)) = [] ∧
    (∀ c ∈ ([] : Str), isKeyChar c = true) ∧
    ([{ key := [], description := [], defaultValue := [], required := false }].map
      Entry.key).Nodup := by
  decide

/-- C28 (amended): for an entry list whose keys are pairwise distinct, non-empty and made of
`A`-`Z`, `0`-`9` and underscore only, whose descriptions hold no line feed, and a value map
whose values for those keys hold no double quote, no backslash and no line terminator,
re-parsing the rendered file returns entries with the same keys in the same order, each
with the map's value for its key as default, the empty string when the map has none. -/
theorem roundtrip_plain_values (entryList : List Entry) (values : ValueMap)
    (hkeys : (entryList.map Entry.key).Nodup)
    (hvalid : ∀ e ∈ entryList, e.key ≠ [] ∧ ∀ c ∈ e.key, isKeyChar c = true)
    (hdesc : ∀ e ∈ entryList, '\n' ∉ e.description)
    (hvals : ∀ e ∈ entryList, ∀ c ∈ (values.lookup e.key).getD [],
      c ≠ dquote ∧ c ≠ backslash ∧ isLineTerminator c = false) :
    (parseEnvEntries (formatEnvFile entryList values)).map Entry.key =
      entryList.map Entry.key ∧
    (parseEnvEntries (formatEnvFile entryList values)).map Entry.defaultValue =
      entryList.map (fun e => (values.lookup e.key).getD []) := by
  have h := roundtrip_pairs entryList values hkeys hvalid hdesc
    (fun e he c hc => (hvals e he c hc).2.2)
  have hplain : entryList.map (fun e => (e.key, escapedValue values e)) =
      entryList.map (fun e => (e.key, (values.lookup e.key).getD [])) := by
    apply List.map_congr_left
    intro e he
    simp only [escapedValue]
    rw [escape_of_plain _ (fun c hc => ⟨(hvals e he c hc).2.1, (hvals e he c hc).1⟩)]
  rw [hplain] at h
  constructor
  · have := congrArg (List.map Prod.fst) h
    simpa [List.map_map, Function.comp] using this
  · have := congrArg (List.map Prod.snd) h
    simpa [List.map_map, Function.comp] using this

/-- C28 (amended), concrete check: the API entry of the samples with a plain value. -/
theorem roundtrip_plain_values_witness :
    (parseEnvEntries (formatEnvFile [sampleApiEntry]
        [("NEXT_PUBLIC_API_URL".toList, "https://a/".toList)])).map Entry.defaultValue =
      ["https://a/".toList] :=
  (roundtrip_plain_values [sampleApiEntry]
    [("NEXT_PUBLIC_API_URL".toList, "https://a/".toList)] (by decide) (by decide) (by decide)
    (by decide)).2

/-! ## Tenant slug -/

theorem hyphen_not_slugChar : isSlugChar '-' = false := by decide

theorem replaceOtherRuns_spec (x : Str) :
    (∀ c ∈ replaceOtherRuns x, isSlugChar c = true ∨ c = '-') ∧
    List.Chain' NotBothHyphens (replaceOtherRuns x) ∧
    ((replaceOtherRuns x).head? = some '-' → ∃ d, x.head? = some d ∧ isSlugChar d = false) := by
  induction x with
  | nil => simp [replaceOtherRuns]
  | cons c cs ih =>
    obtain ⟨ih1, ih2, ih3⟩ := ih
    rw [replaceOtherRuns]
    by_cases hc : isSlugChar c = true
    · rw [if_pos hc]
      refine ⟨?_, ?_, ?_⟩
      · intro d hd
        rcases List.mem_cons.1 hd with h | h
        · left; rw [h]; exact hc
        · exact ih1 d h
      · apply List.Chain'.cons' ih2
        intro y _ hy
        have hne : c ≠ '-' := by
          intro h
          rw [h] at hc
          exact absurd hc (by decide)
        exact hne hy.1
      · intro h
        simp only [List.head?_cons, Option.some.injEq] at h
        rw [h] at hc
        exact absurd hc (by decide)
    · rw [if_neg hc]
      have hcf : isSlugChar c = false := by simpa using hc
      have hdash : (∀ d ∈ ('-' :: replaceOtherRuns cs), isSlugChar d = true ∨ d = '-') := by
        intro d hd
        rcases List.mem_cons.1 hd with h | h
        · right; exact h
        · exact ih1 d h
      cases hh : cs.head? with
      | none =>
        simp only
        refine ⟨hdash, ?_, fun _ => ⟨c, rfl, hcf⟩⟩
        apply List.Chain'.cons' ih2
        intro y hy hboth
        have hy2 : (replaceOtherRuns cs).head? = some '-' := by
          rw [← hboth.2]; exact hy
        obtain ⟨d, hd, _⟩ := ih3 hy2
        rw [hh] at hd
        exact absurd hd (by simp)
      | some d =>
        simp only
        by_cases hd : isSlugChar d = true
        · rw [if_pos hd]
          refine ⟨hdash, ?_, fun _ => ⟨c, rfl, hcf⟩⟩
          apply List.Chain'.cons' ih2
          intro y hy hboth
          have hy2 : (replaceOtherRuns cs).head? = some '-' := by
            rw [← hboth.2]; exact hy
          obtain ⟨d2, hd2, hd3⟩ := ih3 hy2
          rw [hh] at hd2
          simp only [Option.some.injEq] at hd2
          rw [hd2] at hd
          rw [hd] at hd3
          exact absurd hd3 (by simp)
        · rw [if_neg hd]
          exact ⟨ih1, ih2, fun _ => ⟨c, rfl, hcf⟩⟩

theorem collapseHyphens_of_chain (s : Str) (h : List.Chain' NotBothHyphens s) :
    collapseHyphens s = s := by
  induction s with
  | nil => rfl
  | cons c cs ih =>
    rw [collapseHyphens]
    have hno : ¬ (c = '-' ∧ cs.head? = some '-') := by
      rintro ⟨h1, h2⟩
      exact (List.Chain'.rel_head? h h2) ⟨h1, rfl⟩
    rw [if_neg hno, ih h.tail]

theorem stripHyphens_spec (s : Str) (hchars : ∀ c ∈ s, isSlugChar c = true ∨ c = '-')
    (hchain : List.Chain' NotBothHyphens s) :
    (∀ c ∈ stripHyphens s, isSlugChar c = true ∨ c = '-') ∧
    List.Chain' NotBothHyphens (stripHyphens s) ∧
    (stripHyphens s).head? ≠ some '-' ∧ (stripHyphens s).getLast? ≠ some '-' := by
  have hpre : stripHyphens s <+: s.dropWhile (fun c => c == '-') :=
    List.rdropWhile_prefix _ _
  have hsuf : s.dropWhile (fun c => c == '-') <:+ s := List.dropWhile_suffix _
  refine ⟨?_, ?_, ?_, ?_⟩
  · intro c hc
    exact hchars c (hsuf.subset (hpre.subset hc))
  · exact hchain.infix (hpre.isInfix.trans hsuf.isInfix)
  · intro hhead
    have hne : stripHyphens s ≠ [] := by
      intro h0
      rw [h0] at hhead
      simp at hhead
    obtain ⟨t, ht⟩ := hpre
    cases hs : stripHyphens s with
    | nil => exact hne hs
    | cons a rest =>
      rw [hs] at hhead ht
      simp only [List.head?_cons, Option.some.injEq] at hhead
      have h1 := List.head?_dropWhile_not (fun c => c == '-') s
      rw [← ht] at h1
      simp [hhead] at h1
  · intro hlast
    have hne : stripHyphens s ≠ [] := by
      intro h0
      rw [h0] at hlast
      simp at hlast
    have h1 := List.rdropWhile_last_not (fun c => c == '-') (s.dropWhile fun c => c == '-') hne
    have h2 : (stripHyphens s).getLast hne = '-' := by
      have := List.getLast?_eq_getLast (stripHyphens s) hne
      rw [hlast] at this
      exact (Option.some.inj this).symm
    apply h1
    show ((List.rdropWhile (fun c => c == '-') (s.dropWhile fun c => c == '-')).getLast hne
      == '-') = true
    have h3 : (List.rdropWhile (fun c => c == '-') (s.dropWhile fun c => c == '-')).getLast hne
        = '-' := h2
    rw [h3]
    rfl
theorem join_cons_head (sep : Str) (c : Char) (r : Str) (rs : List Str) :
    c :: join sep (r :: rs) = join sep ((c :: r) :: rs) := by
  cases rs with
  | nil => rfl
  | cons r2 rest => rfl

theorem slug_shape (s : Str) (hchars : ∀ c ∈ s, isSlugChar c = true ∨ c = '-')
    (hchain : List.Chain' NotBothHyphens s) (hlast : s.getLast? ≠ some '-') (hne : s ≠ []) :
    (s.head? ≠ some '-' → ∃ runs : List Str, runs ≠ [] ∧
      (∀ r ∈ runs, r ≠ [] ∧ ∀ c ∈ r, isSlugChar c = true) ∧ s = join ['-'] runs) ∧
    (∀ t, s = '-' :: t → ∃ runs : List Str, runs ≠ [] ∧
      (∀ r ∈ runs, r ≠ [] ∧ ∀ c ∈ r, isSlugChar c = true) ∧ t = join ['-'] runs) := by
  induction s with
  | nil => exact absurd rfl hne
  | cons c cs ih =>
    have hrest : cs ≠ [] → (cs.head? ≠ some '-' → ∃ runs : List Str, runs ≠ [] ∧
          (∀ r ∈ runs, r ≠ [] ∧ ∀ c ∈ r, isSlugChar c = true) ∧ cs = join ['-'] runs) ∧
        (∀ t, cs = '-' :: t → ∃ runs : List Str, runs ≠ [] ∧
          (∀ r ∈ runs, r ≠ [] ∧ ∀ c ∈ r, isSlugChar c = true) ∧ t = join ['-'] runs) := by
      intro hcs
      apply ih (fun d hd => hchars d (List.mem_cons_of_mem _ hd)) hchain.tail _ hcs
      obtain ⟨d, ds, hds⟩ := List.exists_cons_of_ne_nil hcs
      rw [hds] at hlast ⊢
      rw [List.getLast?_cons_cons] at hlast
      exact hlast
    constructor
    · intro hhead
      have hcd : c ≠ '-' := by
        intro h
        exact hhead (by rw [h]; rfl)
      have hcs : isSlugChar c = true := by
        rcases hchars c (List.mem_cons_self _ _) with h | h
        · exact h
        · exact absurd h hcd
      cases cs with
      | nil =>
        refine ⟨[[c]], by simp, ?_, rfl⟩
        intro r hr
        rw [List.mem_singleton.1 hr]
        refine ⟨by simp, ?_⟩
        intro d hd
        rw [List.mem_singleton.1 hd]
        exact hcs
      | cons d ds =>
        obtain ⟨h1, h2⟩ := hrest (by simp)
        by_cases hd : d = '-'
        · obtain ⟨runs, hrne, hgood, hjoin⟩ := h2 ds (by rw [hd])
          refine ⟨[c] :: runs, by simp, ?_, ?_⟩
          · intro r hr
            rcases List.mem_cons.1 hr with h | h
            · rw [h]
              refine ⟨by simp, ?_⟩
              intro x hx
              rw [List.mem_singleton.1 hx]
              exact hcs
            · exact hgood r h
          · rw [join_cons_of_ne_nil _ _ _ hrne, ← hjoin, hd]
            rfl
        · obtain ⟨runs, hrne, hgood, hjoin⟩ := h1 (by
            simp only [List.head?_cons, ne_eq, Option.some.injEq]
            exact hd)
          obtain ⟨r, rs, hruns⟩ := List.exists_cons_of_ne_nil hrne
          refine ⟨(c :: r) :: rs, by simp, ?_, ?_⟩
          · intro x hx
            rcases List.mem_cons.1 hx with h | h
            · rw [h]
              refine ⟨by simp, ?_⟩
              intro y hy
              rcases List.mem_cons.1 hy with h3 | h3
              · rw [h3]; exact hcs
              · exact (hgood r (by rw [hruns]; exact List.mem_cons_self _ _)).2 y h3
            · exact hgood x (by rw [hruns]; exact List.mem_cons_of_mem _ h)
          · rw [hjoin, hruns]
            exact join_cons_head _ c r rs
    · intro t ht
      simp only [List.cons.injEq] at ht
      obtain ⟨hc, hcs⟩ := ht
      have hne2 : cs ≠ [] := by
        intro h0
        rw [h0, hc] at hlast
        exact hlast rfl
      have hhead : cs.head? ≠ some '-' := by
        intro hh
        exact (List.Chain'.rel_head? hchain hh) ⟨hc, rfl⟩
      rw [← hcs]
      exact (hrest hne2).1 hhead

/-- C27: for every input, `slugify` returns the empty string or one or more non-empty runs of
characters of `[a-z0-9]` joined by single hyphens; the result neither starts nor ends with
a hyphen and holds no two hyphens in a row. -/
theorem slugify_shape (input : Str) :
    IsSlug (slugify input) ∧ (slugify input).head? ≠ some '-' ∧
    (slugify input).getLast? ≠ some '-' ∧ ¬ ['-', '-'] <:+: slugify input := by
  obtain ⟨h1, h2, _⟩ := replaceOtherRuns_spec (toLowerCase (trim input))
  obtain ⟨k1, k2, k3, k4⟩ := stripHyphens_spec _ h1 h2
  have heq : slugify input = stripHyphens (replaceOtherRuns (toLowerCase (trim input))) :=
    collapseHyphens_of_chain _ k2
  rw [heq]
  refine ⟨?_, k3, k4, ?_⟩
  · by_cases hne : stripHyphens (replaceOtherRuns (toLowerCase (trim input))) = []
    · exact Or.inl hne
    · exact Or.inr ((slug_shape _ k1 k2 k4 hne).1 k3)
  · intro hinf
    have hc := k2.infix hinf
    rw [List.chain'_pair] at hc
    exact hc ⟨rfl, rfl⟩

/-- C27, concrete check: the slugs of a name with capitals, spaces and punctuation, of a name
made of punctuation only and of a name with hyphens at both ends. -/
theorem slugify_shape_witness :
    slugify "  My  Shop -- #1!  ".toList = "my-shop-1".toList ∧
    slugify " ?! ".toList = [] ∧
    slugify "--a--b--".toList = "a-b".toList ∧
    (slugify "  My  Shop -- #1!  ".toList).head? ≠ some '-' :=
  ⟨by decide, by decide, by decide, (slugify_shape "  My  Shop -- #1!  ".toList).2.1⟩

/-! ## Selection of the entry list in `main` -/

/-- C22: in the pipeline, when the structured-schema entry list is not empty it is the list
value resolution works on, and when it is empty the flat-text entry list is: the run ends as
`collectEnvValues` on that list ends, with its error, waiting for input, or, once it has
returned a value map, with the files written and the environment files holding
`formatEnvFile` of that list and that map (or with the error of a target directory that is
not empty).  When both lists are empty the run ends with the error
`No configurable values found for selected template.` and nothing has been written; a
`TypeError` of the structured-schema normaliser ends the run in the same way. -/
theorem pipeline_entry_selection (schema : JsValue) (envExample : Str) (yes : Bool)
    (cfg : List (Str × JsValue)) (slug brand : Str) (answers : List Str) (targetDir : Str)
    (targetFree ciEnabled : Bool) :
    (∀ schemaEntries selected, parseSchemaEntries schema = some schemaEntries →
      ((schemaEntries ≠ [] ∧ selected = schemaEntries) ∨
        (schemaEntries = [] ∧ selected = parseEnvEntries envExample)) →
      (selected = [] →
        runPipeline schema envExample yes cfg slug brand answers targetDir targetFree
            ciEnabled =
          { ending := .failed "No configurable values found for selected template.".toList,
            written := [], envOutput := none }) ∧
      (selected ≠ [] →
        (∀ message, collectEnvValues yes selected cfg slug brand answers = .error message →
          runPipeline schema envExample yes cfg slug brand answers targetDir targetFree
              ciEnabled =
            { ending := .failed message, written := [], envOutput := none }) ∧
        (collectEnvValues yes selected cfg slug brand answers = .awaitingInput →
          runPipeline schema envExample yes cfg slug brand answers targetDir targetFree
              ciEnabled =
            { ending := .waiting, written := [], envOutput := none }) ∧
        (∀ envValues, collectEnvValues yes selected cfg slug brand answers = .ok envValues →
          (targetFree = true →
            runPipeline schema envExample yes cfg slug brand answers targetDir targetFree
                ciEnabled =
              { ending := .written, written := scaffoldPaths ciEnabled,
                envOutput := some (formatEnvFile selected envValues) }) ∧
          (targetFree = false →
            runPipeline schema envExample yes cfg slug brand answers targetDir targetFree
                ciEnabled =
              { ending := .failed
                  ("Target directory exists and is not empty: ".toList ++ targetDir),
                written := [], envOutput := none })))) ∧
    (parseSchemaEntries schema = none →
      runPipeline schema envExample yes cfg slug brand answers targetDir targetFree ciEnabled =
        { ending := .failed "Cannot convert object to primitive value".toList, written := [],
          envOutput := none }) := by
  constructor
  · intro schemaEntries selected hparse hsel
    have hlist : selected =
        (if schemaEntries.length = 0 then parseEnvEntries envExample else schemaEntries) := by
      rcases hsel with ⟨hne, hs⟩ | ⟨he, hs⟩
      · rw [if_neg (fun hl => hne (List.length_eq_zero.1 hl)), hs]
      · rw [he, hs]
        rfl
    unfold runPipeline
    rw [hparse]
    simp only
    rw [← hlist]
    constructor
    · intro hempty
      rw [hempty]
      rfl
    · intro hne
      have hlen : ¬ selected.length = 0 := fun hl => hne (List.length_eq_zero.1 hl)
      rw [if_neg hlen]
      refine ⟨?_, ?_, ?_⟩
      · intro message hm
        rw [hm]
        rfl
      · intro hm
        rw [hm]
      · intro envValues hm
        rw [hm]
        constructor
        · intro ht
          simp only [ht, if_true]
        · intro ht
          simp only [ht, Bool.false_eq_true, if_false]
          rfl
  · intro hparse
    unfold runPipeline
    rw [hparse]
    rfl

/-- C22, concrete check: with the nested sample schema the run resolves the two schema entries
and does not look at the flat document; with no schema it resolves the entry of the flat
document; with neither it fails before anything is written. -/
theorem pipeline_entry_selection_witness :
    runPipeline sampleNestedSchema sampleFlatDocument true [] "acme".toList "Acme".toList []
        "acme".toList true false =
      { ending := .written, written := scaffoldPaths false,
        envOutput := some (formatEnvFile
          [{ key := "SITE_URL".toList, description := [], defaultValue := "http://x".toList,
             required := true },
           { key := "SITE_NAME".toList, description := [], defaultValue := [],
             required := false }]
          [("SITE_URL".toList, "http://x".toList), ("SITE_NAME".toList, [])]) } ∧
    runPipeline JsValue.null sampleFlatDocument true [] "acme".toList "Acme".toList []
        "acme".toList true false =
      { ending := .written, written := scaffoldPaths false,
        envOutput := some (formatEnvFile (parseEnvEntries sampleFlatDocument)
          [("NEXT_PUBLIC_API_URL".toList, "https://a/".toList)]) } ∧
    runPipeline JsValue.null [] true [] "acme".toList "Acme".toList [] "acme".toList true
        false =
      { ending := .failed "No configurable values found for selected template.".toList,
        written := [], envOutput := none } :=
  ⟨((((pipeline_entry_selection sampleNestedSchema sampleFlatDocument true [] "acme".toList
      "Acme".toList [] "acme".toList true false).1 _ _ (by decide)
      (Or.inl ⟨by decide, rfl⟩)).2 (by decide)).2.2 _ (by decide)).1 rfl,
    ((((pipeline_entry_selection JsValue.null sampleFlatDocument true [] "acme".toList
      "Acme".toList [] "acme".toList true false).1 [] _ (by decide)
      (Or.inr ⟨rfl, rfl⟩)).2 (by decide)).2.2 _ (by decide)).1 rfl,
    ((pipeline_entry_selection JsValue.null [] true [] "acme".toList "Acme".toList []
      "acme".toList true false).1 [] [] (by decide) (Or.inr ⟨rfl, by decide⟩)).1 rfl⟩

/-! ## The bundled fallback documents resolve without input -/

theorem computeDefault_of_declared (e : Entry) (slug brand : Str) (hd : e.defaultValue ≠ [])
    (ht : e.key ≠ "NEXT_PUBLIC_TENANT_NAME".toList)
    (hb : e.key ≠ "NEXT_PUBLIC_BRAND_NAME".toList) :
    computeDefaultValue e slug brand = e.defaultValue := by
  unfold computeDefaultValue
  rw [if_neg ht, if_neg (fun h => hb h.1)]
  by_cases h1 : e.key = "NEXT_PUBLIC_SITE_URL".toList
  · rw [if_pos h1, if_pos hd]
  · rw [if_neg h1]
    by_cases h2 : e.key = "NEXT_PUBLIC_STOREFRONT_URL".toList
    · rw [if_pos h2, if_pos hd]
    · rw [if_neg h2]

theorem parse_of_lines (lines : List Str) (hne : lines ≠ [])
    (h : ∀ l ∈ lines, '\n' ∉ l ∧ dropCR l = l) :
    parseEnvEntries (join ['\n'] lines) = parseEnvLines lines [] [] := by
  unfold parseEnvEntries
  rw [splitLines_join lines hne (fun l hl => (h l hl).1),
    chomp_eq_self lines (fun l hl => (h l hl).2)]

theorem resolves_of_declared (entryList : List Entry)
    (h : ∀ e ∈ entryList, e.required = true →
      e.defaultValue ≠ [] ∧ e.key ≠ "NEXT_PUBLIC_TENANT_NAME".toList ∧
        e.key ≠ "NEXT_PUBLIC_BRAND_NAME".toList)
    (slug brand : Str) (answers : List Str) :
    ∃ m, collectEnvValues true entryList [] slug brand answers = .ok m := by
  have hclean : ∀ e ∈ entryList,
      ¬ Unresolvable [] slug brand e ∧ ¬ Unconvertible [] e := by
    intro e he
    constructor
    · intro hu
      obtain ⟨hd, ht, hb⟩ := h e he hu.2.1
      have := hu.2.2
      rw [computeDefault_of_declared e slug brand hd ht hb] at this
      exact hd this
    · rintro ⟨v, hv, _⟩
      simp at hv
  obtain ⟨m, hm⟩ := collectLoop_yes_clean [] slug brand entryList hclean [] answers
  exact ⟨m, (collectEnvValues_ok_iff true entryList [] slug brand answers m).2 ⟨answers, hm⟩⟩

theorem basicFallback_lines : ∀ l ∈ basicFallbackLines, '\n' ∉ l ∧ dropCR l = l := by
  decide!

theorem standardFallback_lines : ∀ l ∈ standardFallbackLines, '\n' ∉ l ∧ dropCR l = l := by
  decide!

theorem advanceFallback_lines : ∀ l ∈ advanceFallbackLines, '\n' ∉ l ∧ dropCR l = l := by
  decide!

theorem basicFallback_entries :
    parseEnvLines basicFallbackLines [] [] ≠ [] ∧
    ∀ e ∈ parseEnvLines basicFallbackLines [] [], e.required = true →
      e.defaultValue ≠ [] ∧ e.key ≠ "NEXT_PUBLIC_TENANT_NAME".toList ∧
        e.key ≠ "NEXT_PUBLIC_BRAND_NAME".toList := by
  decide!

theorem standardFallback_entries :
    parseEnvLines standardFallbackLines [] [] ≠ [] ∧
    ∀ e ∈ parseEnvLines standardFallbackLines [] [], e.required = true →
      e.defaultValue ≠ [] ∧ e.key ≠ "NEXT_PUBLIC_TENANT_NAME".toList ∧
        e.key ≠ "NEXT_PUBLIC_BRAND_NAME".toList := by
  decide!

theorem advanceFallback_entries :
    parseEnvLines advanceFallbackLines [] [] ≠ [] ∧
    ∀ e ∈ parseEnvLines advanceFallbackLines [] [], e.required = true →
      e.defaultValue ≠ [] ∧ e.key ≠ "NEXT_PUBLIC_TENANT_NAME".toList ∧
        e.key ≠ "NEXT_PUBLIC_BRAND_NAME".toList := by
  decide!

theorem fallback_entries (t : TemplateId) :
    parseEnvEntries t.fallbackEnvExample ≠ [] ∧
    ∀ e ∈ parseEnvEntries t.fallbackEnvExample, e.required = true →
      e.defaultValue ≠ [] ∧ e.key ≠ "NEXT_PUBLIC_TENANT_NAME".toList ∧
        e.key ≠ "NEXT_PUBLIC_BRAND_NAME".toList := by
  cases t with
  | basic =>
    have htext : TemplateId.basic.fallbackEnvExample = join ['\n'] basicFallbackLines := rfl
    rw [htext, parse_of_lines basicFallbackLines (List.cons_ne_nil _ _) basicFallback_lines]
    exact basicFallback_entries
  | standard =>
    have htext : TemplateId.standard.fallbackEnvExample =
        join ['\n'] standardFallbackLines := rfl
    rw [htext,
      parse_of_lines standardFallbackLines (List.cons_ne_nil _ _) standardFallback_lines]
    exact standardFallback_entries
  | advance =>
    have htext : TemplateId.advance.fallbackEnvExample = join ['\n'] advanceFallbackLines := rfl
    rw [htext,
      parse_of_lines advanceFallbackLines (List.cons_ne_nil _ _) advanceFallback_lines]
    exact advanceFallback_entries

/-- C25: for each of the three bundled templates, `parseEnvEntries` of its fallback flat
document is a non-empty entry list in which every required entry has a non-empty declared
default, and non-interactive resolution of that list with an empty external-configuration
map returns a value map for every tenant slug and every brand name. -/
theorem fallback_documents_resolve (t : TemplateId) :
    parseEnvEntries t.fallbackEnvExample ≠ [] ∧
    (∀ e ∈ parseEnvEntries t.fallbackEnvExample, e.required = true → e.defaultValue ≠ []) ∧
    ∀ (slug brand : Str) (answers : List Str),
      ∃ m, collectEnvValues true (parseEnvEntries t.fallbackEnvExample) [] slug brand answers =
        .ok m :=
  ⟨(fallback_entries t).1, fun e he hr => ((fallback_entries t).2 e he hr).1,
    fun slug brand answers =>
      resolves_of_declared _ (fallback_entries t).2 slug brand answers⟩

end Storefront
